import Mathlib

/-!
# Verification of the tensor-overlap analysis and TensorMap of the `simpler` runtime

Shallow embedding of:
* `src/runtime/tensormap_and_ringbuffer/runtime/tensor.h` / `tensor.cpp`
  (Segment, Tensor descriptor, fuzzy segments, `ContiguousMemSegIterator`,
  `complex_overlap`, `is_overlap`),
* the tensor methods compiled into the orchestration shared object
  (`resort_strides`, `optimize`, `is_contiguous`, `numel`, `reshape`),
* the TensorMap implementation (`pto2_tensormap_*`: init, hash, insert,
  lookup with chain truncation, cleanup_retired, sync_validity).

Modelling conventions:
* `uint64_t` values are modelled as `Nat`.  All claims proved below carry
  normalization/validity hypotheses under which the C arithmetic does not
  overflow or underflow, so `Nat` arithmetic (with truncated subtraction)
  agrees with the machine arithmetic on every execution considered.
* `int32_t` values (task ids, pool links, versions) are modelled as `Int`,
  with `-1` kept as the sentinel used by the C code.
* The fixed `strides[8]` / `repeats[8]` arrays plus the `ndims` count are
  modelled as the `List Nat` of their first `ndims` entries; `ndims` is the
  list length.
* Iterating loops are modelled by structural recursion; the two unbounded
  walks (bucket chains, task chains) receive `pool_size` fuel, which the
  well-formedness invariants proved below show to be sufficient.
-/

set_option maxRecDepth 10000

namespace Simpler

/-- Modelled from the spec: `data_type.h` is not part of the covered sources;
the spec describes `dtype` as "fixed enum with an *element_size* function".
The kernels in the repository use FLOAT32 (4 bytes) and bfloat16 (2 bytes). -/
inductive DataType
  | FLOAT32
  | FLOAT16
  | BFLOAT16
  | INT32
  | INT16
  | INT8
deriving DecidableEq, Repr

/-- Modelled from the spec: element size in bytes of each `DataType`. -/
def get_element_size : DataType → Nat
  | .FLOAT32 => 4
  | .FLOAT16 => 2
  | .BFLOAT16 => 2
  | .INT32 => 4
  | .INT16 => 2
  | .INT8 => 1

/-- `enum class OverlapType` from `tensor.h`. -/
inductive OverlapType
  | Accurate
  | Fuzzy
deriving DecidableEq, Repr

/-- `enum class OverlapStatus` from `tensor.h`. -/
inductive OverlapStatus
  | NO_OVERLAP
  | COVERED
  | OTHER
deriving DecidableEq, Repr

/-- `struct Segment` from `tensor.h`: half-open interval `[begin, end)`.
`begin` / `end` are Lean keywords, hence the `seg_` prefix. -/
structure Segment where
  seg_begin : Nat
  seg_end : Nat
deriving DecidableEq, Repr

/-- `Segment::line_segment_intersection`. -/
def Segment.line_segment_intersection (s o : Segment) : Bool :=
  s.seg_end > o.seg_begin && o.seg_end > s.seg_begin

/-- `Segment::contains` (`self ⊇ other`). -/
def Segment.seg_contains (s o : Segment) : Bool :=
  s.seg_begin ≤ o.seg_begin && o.seg_end ≤ s.seg_end

/-- `struct Tensor` from `tensor.h`.  `buffer` is inlined (`addr`, `size`);
`strides`/`repeats` are the used prefixes of the fixed arrays, `ndims` is
their length. -/
structure Tensor where
  addr : Nat
  size : Nat
  start_offset : Nat
  strides : List Nat
  repeats : List Nat
  dtype : DataType
  version : Int
  overlap_type : OverlapType
deriving DecidableEq, Repr

instance : Inhabited Tensor :=
  ⟨⟨0, 0, 0, [], [], .FLOAT32, 0, .Accurate⟩⟩

/-- The `ndims` field of the C struct. -/
def Tensor.ndims (t : Tensor) : Nat := t.strides.length

/-- `Tensor::is_same_memref`. -/
def Tensor.is_same_memref (t o : Tensor) : Bool := t.addr == o.addr

/-- `Tensor::get_fuzzy_seg`: `[start, start + Σ strides[i]*(repeats[i]-1) + 1)`
in elements. -/
def Tensor.get_fuzzy_seg (t : Tensor) : Segment :=
  ⟨t.start_offset,
   t.start_offset + ((t.strides.zip t.repeats).map fun p => p.1 * (p.2 - 1)).sum + 1⟩

/-- `Tensor::is_same_strides` (compares the used prefixes). -/
def Tensor.is_same_strides (t o : Tensor) : Bool := t.strides == o.strides

/-- Helper for `Tensor::offset_to_ndims`: greedy div/mod down the strides. -/
def offsetToNdimsAux : Nat → List Nat → List Nat
  | _, [] => []
  | cur, s :: rest => cur / s :: offsetToNdimsAux (cur % s) rest

/-- `Tensor::offset_to_ndims`. -/
def Tensor.offset_to_ndims (t : Tensor) : List Nat :=
  offsetToNdimsAux t.start_offset t.strides

/-- State of `Tensor::ContiguousMemSegIterator`: the per-dimension
`indexes_[]` and the current segment. -/
structure SegIterState where
  indexes : List Nat
  cur_seg : Segment
deriving DecidableEq, Repr

/-- The iterator's constructor: all indexes `0`, current segment
`[start_offset, start_offset + repeats[ndims-1])`. -/
def segIterInit (t : Tensor) : SegIterState :=
  ⟨List.replicate t.ndims 0,
   ⟨t.start_offset, t.start_offset + t.repeats.getD (t.ndims - 1) 0⟩⟩

/-- `ContiguousMemSegIterator::is_end`: `indexes_[0] >= repeats[0]`. -/
def segIterIsEnd (t : Tensor) (st : SegIterState) : Bool :=
  st.indexes.getD 0 0 ≥ t.repeats.getD 0 0

/-- The cascade loop of `operator++` (`for i = ndims-1 downto 1`): when
dimension `i+1` has reached its repeat count, zero it, bump dimension `i` and
add `strides[i] - strides[i+1]*repeats[i+1]` to the running cursor. -/
def segIterCascade (t : Tensor) : Nat → List Nat → Nat → List Nat × Nat
  | 0, idxs, b => (idxs, b)
  | i + 1, idxs, b =>
    if idxs.getD (i + 1) 0 = t.repeats.getD (i + 1) 0 then
      segIterCascade t i ((idxs.set i (idxs.getD i 0 + 1)).set (i + 1) 0)
        (b + (t.strides.getD i 0 - t.strides.getD (i + 1) 0 * t.repeats.getD (i + 1) 0))
    else
      segIterCascade t i idxs b

/-- `ContiguousMemSegIterator::operator++`. -/
def segIterNext (t : Tensor) (st : SegIterState) : SegIterState :=
  let n := t.ndims
  let rl := t.repeats.getD (n - 1) 0
  let idxs := st.indexes.set (n - 1) (st.indexes.getD (n - 1) 0 + rl)
  let b := st.cur_seg.seg_begin + rl
  let p := segIterCascade t (n - 1) idxs b
  ⟨p.1, ⟨p.2, p.2 + rl⟩⟩

/-- Run the iterator, collecting the segments it yields (element units).
`fuel` bounds the number of steps; `contiguousSegs` supplies enough fuel. -/
def segIterCollect (t : Tensor) : Nat → SegIterState → List Segment
  | 0, _ => []
  | fuel + 1, st =>
    if segIterIsEnd t st then []
    else st.cur_seg :: segIterCollect t fuel (segIterNext t st)

/-- All innermost contiguous segments of `t`, in the iterator's order. -/
def contiguousSegs (t : Tensor) : List Segment :=
  segIterCollect t t.repeats.prod (segIterInit t)

/-- Byte scaling applied to each segment inside `complex_overlap`. -/
def scaleSeg (es : Nat) (s : Segment) : Segment :=
  ⟨s.seg_begin * es, s.seg_end * es⟩

/-- The two-pointer loop of `Tensor::complex_overlap` on the byte-scaled
segment streams. -/
def twoPointer : List Segment → List Segment → Bool
  | [], _ => false
  | _ :: _, [] => false
  | a :: as, b :: bs =>
    if a.seg_end ≤ b.seg_begin then twoPointer as (b :: bs)
    else if b.seg_end ≤ a.seg_begin then twoPointer (a :: as) bs
    else true
termination_by l1 l2 => l1.length + l2.length

/-- `Tensor::complex_overlap`. -/
def Tensor.complex_overlap (t p : Tensor) : Bool :=
  twoPointer ((contiguousSegs t).map (scaleSeg (get_element_size t.dtype)))
    ((contiguousSegs p).map (scaleSeg (get_element_size p.dtype)))

/-- The per-axis loop of the accurate branch of `is_overlap`
(lines 105-130 of `tensor.cpp`).  Arguments: the two tensors, their
`offset_to_ndims` digit vectors, the current dimension `i`, remaining fuel
(`ndims - i`), and the running `contains` / `overlap` flags.  Returns
`(need_complex_compare, contains, overlap)`; a `true` first component
corresponds to the loop's early `break`. -/
def axesLoop (t p : Tensor) (iOff oOff : List Nat) :
    Nat → Nat → Bool → Bool → Bool × Bool × Bool
  | _, 0, conts, ovl => (false, conts, ovl)
  | i, fuel + 1, conts, ovl =>
    let ir : Segment := ⟨iOff.getD i 0, iOff.getD i 0 + t.repeats.getD i 0⟩
    let orr : Segment := ⟨oOff.getD i 0, oOff.getD i 0 + p.repeats.getD i 0⟩
    if 0 < i ∧
        (ir.seg_end * t.strides.getD i 0 > t.strides.getD (i - 1) 0 ∨
         orr.seg_end * p.strides.getD i 0 > p.strides.getD (i - 1) 0) then
      (true, conts, ovl)
    else
      let pr :=
        if ! ir.line_segment_intersection orr then (conts, false)
        else if ! ir.seg_contains orr then (false, ovl)
        else (conts, ovl)
      axesLoop t p iOff oOff (i + 1) fuel pr.1 pr.2

/-- `Tensor::is_overlap(pre_task_output)`: `t` is the reader (`this`), `p`
the prior producer.  The `debug_assert`s of the C function are no-ops in
release builds and are not modelled. -/
def Tensor.is_overlap (t p : Tensor) : OverlapStatus :=
  if ! t.is_same_memref p then .NO_OVERLAP
  else if t.version > p.version then .OTHER
  else
    let esI := get_element_size t.dtype
    let esO := get_element_size p.dtype
    let fi := t.get_fuzzy_seg
    let fo := p.get_fuzzy_seg
    let bi : Segment := ⟨fi.seg_begin * esI, fi.seg_end * esI⟩
    let bo : Segment := ⟨fo.seg_begin * esO, fo.seg_end * esO⟩
    if ! bi.line_segment_intersection bo then .NO_OVERLAP
    else if p.overlap_type = .Fuzzy then .OTHER
    else if t.ndims = 1 ∧ p.ndims = 1 then
      if bi.seg_contains bo then .COVERED else .OTHER
    else if t.dtype = p.dtype ∧ t.ndims = p.ndims ∧ t.is_same_strides p then
      let res := axesLoop t p t.offset_to_ndims p.offset_to_ndims 0 t.ndims true true
      if ! res.1 then
        if res.2.1 then .COVERED
        else if res.2.2 then .OTHER
        else .NO_OVERLAP
      else if t.complex_overlap p then .OTHER else .NO_OVERLAP
    else if t.complex_overlap p then .OTHER else .NO_OVERLAP

/-- `std::swap` of positions `i` and `j` applied to the zipped
`(stride, repeat)` list (both parallel arrays are swapped together). -/
def dimsSwap (l : List (Nat × Nat)) (i j : Nat) : List (Nat × Nat) :=
  match l.get? i, l.get? j with
  | some a, some b => (l.set i b).set j a
  | _, _ => l

/-- The swap condition of `resort_strides`' inner loop:
`strides[i] < strides[j] || (strides[i] == strides[j] && repeats[i] < repeats[j])`. -/
def needSwap (l : List (Nat × Nat)) (i j : Nat) : Bool :=
  match l.get? i, l.get? j with
  | some a, some b => decide (a.1 < b.1 ∨ (a.1 = b.1 ∧ a.2 < b.2))
  | _, _ => false

/-- Inner loop of `Tensor::resort_strides` (`for j = i+1; j < ndims; j++`),
with `fuel = ndims - j` iterations remaining. -/
def resortInner (i : Nat) : Nat → Nat → List (Nat × Nat) → List (Nat × Nat)
  | _, 0, l => l
  | j, fuel + 1, l =>
    resortInner i (j + 1) fuel (if needSwap l i j then dimsSwap l i j else l)

/-- Outer loop of `Tensor::resort_strides` (`for i = 0; i < ndims; i++`). -/
def resortOuter : Nat → Nat → List (Nat × Nat) → List (Nat × Nat)
  | _, 0, l => l
  | i, fuel + 1, l => resortOuter (i + 1) fuel (resortInner i (i + 1) (l.length - (i + 1)) l)

/-- `Tensor::resort_strides`: jointly sorts the `(stride, repeat)` pairs in
descending `(stride, repeat)` lexicographic order. -/
def Tensor.resort_strides (t : Tensor) : Tensor :=
  let l := t.strides.zip t.repeats
  let l' := resortOuter 0 l.length l
  { t with strides := l'.map Prod.fst, repeats := l'.map Prod.snd }

/-- `Tensor::optimize`: in release builds this is exactly `resort_strides`
(the exhaustive enumeration check is debug-only). -/
def Tensor.optimize (t : Tensor) : Tensor := t.resort_strides

/-- `Tensor::is_contiguous`. -/
def Tensor.is_contiguous (t : Tensor) : Bool :=
  if t.ndims = 0 then true
  else if t.strides.getD (t.ndims - 1) 0 ≠ 1 then false
  else
    decide (∀ i < t.ndims - 1,
      t.strides.getD i 0 = t.strides.getD (i + 1) 0 * t.repeats.getD (i + 1) 0)

/-- `Tensor::numel`. -/
def Tensor.numel (t : Tensor) : Nat :=
  if t.ndims = 0 then 0 else t.repeats.prod

/-- `Tensor::valid_reshape`: products of repeats and of the new shape agree. -/
def Tensor.valid_reshape (t : Tensor) (shapes : List Nat) : Bool :=
  t.repeats.prod == shapes.prod

/-- Row-major strides built by `Tensor::reshape`'s backwards loop
(`stride` accumulates the product of the shapes processed so far). -/
def rowMajorStrides : List Nat → List Nat
  | [] => []
  | _ :: rest => rest.prod :: rowMajorStrides rest

/-- `Tensor::reshape` (requires `is_contiguous`, asserted in C): returns a
new descriptor with the same buffer, start offset, dtype, version and
overlap type, and row-major strides for the new shape. -/
def Tensor.reshape (t : Tensor) (shapes : List Nat) : Tensor :=
  { t with strides := rowMajorStrides shapes, repeats := shapes }

/-- All element offsets reachable through a `(stride, repeat)` dimension
list from a given start offset, enumerated in odometer order:
`start + Σ idx_i * strides_i` over all `idx_i < repeats_i`. -/
def offsetsList (start : Nat) : List (Nat × Nat) → List Nat
  | [] => [start]
  | (s, r) :: rest => (List.range r).flatMap fun k => offsetsList (start + k * s) rest

/-- The reachable element offsets of a tensor descriptor. -/
def Tensor.elemOffsets (t : Tensor) : List Nat :=
  offsetsList t.start_offset (t.strides.zip t.repeats)

/-- `b` is a byte offset (from the buffer base) touched by descriptor `t`. -/
def inBytes (t : Tensor) (b : Nat) : Prop :=
  ∃ o ∈ t.elemOffsets, ∃ k < get_element_size t.dtype,
    b = o * get_element_size t.dtype + k

/-- Every byte reachable by `p` is reachable by `r`. -/
def byteSubset (p r : Tensor) : Prop := ∀ b, inBytes p b → inBytes r b

/-- `PTO2TensorMapEntry` (struct fields as used throughout
`pto2_tensormap_*`; the struct itself is declared in `pto_tensormap.h` and
matches the spec's "TensorMap entry" record field for field). -/
structure PTO2TensorMapEntry where
  tensor : Tensor
  producer_task_id : Int
  with_alloc : Bool
  in_bucket : Bool
  next_in_bucket : Int
  prev_in_bucket : Int
  next_in_task : Int
  prev_in_task : Int
deriving DecidableEq, Repr

instance : Inhabited PTO2TensorMapEntry :=
  ⟨⟨default, -1, false, false, -1, -1, -1, -1⟩⟩

/-- `PTO2TensorMap`.  `window_size` models the compile-time constant
`PTO2_TASK_WINDOW_SIZE` (the task-window capacity, a power of two). -/
structure PTO2TensorMap where
  buckets : List Int
  num_buckets : Nat
  entry_pool : List PTO2TensorMapEntry
  pool_size : Nat
  pool_head : Nat
  task_entry_head : List Int
  window_size : Nat
  last_task_alive : Int
deriving Repr

/-- `pto2_tensormap_hash`: mixes the high bits of the base address and masks
with `num_buckets - 1`; the final `% 2^32` models the `uint32_t` cast of the
return value. -/
def pto2_tensormap_hash (num_buckets : Nat) (t : Tensor) : Nat :=
  let key := t.addr
  let key := key ^^^ (key >>> 16)
  let key := key ^^^ (key >>> 32)
  (key &&& (num_buckets - 1)) % 2 ^ 32

/-- `pto2_tensormap_init` (bucket array all `-1`, zeroed pool, task heads
all `-1`); returns `none` when `num_buckets` is not a power of two, matching
the C `false` return. -/
def pto2_tensormap_init (num_buckets pool_size window_size : Nat) :
    Option PTO2TensorMap :=
  if num_buckets &&& (num_buckets - 1) ≠ 0 then none
  else some
    { buckets := List.replicate num_buckets (-1)
      num_buckets := num_buckets
      entry_pool := List.replicate pool_size default
      pool_size := pool_size
      pool_head := 0
      task_entry_head := List.replicate window_size (-1)
      window_size := window_size
      last_task_alive := 0 }

/-- Modelled from the spec: `pto2_tensormap_entry_valid` lives in the header
`pto_tensormap.h`, which is not among the covered sources; the spec states
"An entry is *valid* iff `producer_task_id ≥ last_task_alive`". -/
def pto2_tensormap_entry_valid (tm : PTO2TensorMap) (e : PTO2TensorMapEntry) : Bool :=
  e.producer_task_id ≥ tm.last_task_alive

/-- Read `entry_pool[i]` (C indexes with a non-negative `int32_t`). -/
def getEntry (tm : PTO2TensorMap) (i : Int) : PTO2TensorMapEntry :=
  tm.entry_pool.getD i.toNat default

/-- Write `entry_pool[i]`. -/
def setEntry (tm : PTO2TensorMap) (i : Int) (e : PTO2TensorMapEntry) : PTO2TensorMap :=
  { tm with entry_pool := tm.entry_pool.set i.toNat e }

/-- In-place field update of `entry_pool[i]`. -/
def modifyEntry (tm : PTO2TensorMap) (i : Int)
    (f : PTO2TensorMapEntry → PTO2TensorMapEntry) : PTO2TensorMap :=
  setEntry tm i (f (getEntry tm i))

/-- `pto2_tensormap_remove_from_bucket` on the entry at pool index `i`. -/
def pto2_tensormap_remove_from_bucket (tm : PTO2TensorMap) (i : Int) : PTO2TensorMap :=
  let e := getEntry tm i
  if ! e.in_bucket then tm
  else
    let tm1 :=
      if e.prev_in_bucket = -1 then
        { tm with buckets :=
            tm.buckets.set (pto2_tensormap_hash tm.num_buckets e.tensor) e.next_in_bucket }
      else
        modifyEntry tm e.prev_in_bucket fun pe => { pe with next_in_bucket := e.next_in_bucket }
    let tm2 :=
      if e.next_in_bucket ≥ 0 then
        modifyEntry tm1 e.next_in_bucket fun ne => { ne with prev_in_bucket := e.prev_in_bucket }
      else tm1
    modifyEntry tm2 i fun e' =>
      { e' with in_bucket := false, next_in_bucket := -1, prev_in_bucket := -1 }

/-- The walk of one task's entry list inside `pto2_tensormap_cleanup_retired`
(fuel-bounded; chains are finite under the well-formedness invariant). -/
def cleanupTaskWalk (task_id : Int) : Nat → PTO2TensorMap → Int → PTO2TensorMap
  | 0, tm, _ => tm
  | fuel + 1, tm, offset =>
    if offset < 0 then tm
    else
      let e := getEntry tm offset
      let next := e.next_in_task
      let tm' :=
        if e.producer_task_id = task_id then
          modifyEntry (pto2_tensormap_remove_from_bucket tm offset) offset fun e' =>
            { e' with next_in_task := -1, prev_in_task := -1 }
        else tm
      cleanupTaskWalk task_id fuel tm' next

/-- One iteration of `pto2_tensormap_cleanup_retired`'s outer loop: walk
`task_entry_head[task_id mod window]`, unlink entries still owned by
`task_id`, then clear the head. -/
def cleanupOneTask (tm : PTO2TensorMap) (task_id : Int) : PTO2TensorMap :=
  let slot := (task_id % (tm.window_size : Int)).toNat
  let tm' := cleanupTaskWalk task_id tm.pool_size tm (tm.task_entry_head.getD slot (-1))
  { tm' with task_entry_head := tm'.task_entry_head.set slot (-1) }

/-- Outer loop of `pto2_tensormap_cleanup_retired`. -/
def cleanupLoop : Nat → Int → PTO2TensorMap → PTO2TensorMap
  | 0, _, tm => tm
  | k + 1, tid, tm => cleanupLoop k (tid + 1) (cleanupOneTask tm tid)

/-- `pto2_tensormap_cleanup_retired(old_last_task_alive, new_last_task_alive)`. -/
def pto2_tensormap_cleanup_retired (tm : PTO2TensorMap) (oldT newT : Int) : PTO2TensorMap :=
  cleanupLoop (newT - oldT).toNat oldT tm

/-- `pto2_tensormap_sync_validity`. -/
def pto2_tensormap_sync_validity (tm : PTO2TensorMap) (v : Int) : PTO2TensorMap :=
  { tm with last_task_alive := v }

/-- The stale-suffix clearing loop inside `pto2_tensormap_lookup`'s
truncation: mark each truncated entry not-in-bucket and reset its links. -/
def lookupClear : Nat → PTO2TensorMap → Int → PTO2TensorMap
  | 0, tm, _ => tm
  | fuel + 1, tm, offset =>
    if offset < 0 then tm
    else
      let next := (getEntry tm offset).next_in_bucket
      let tm' := modifyEntry tm offset fun e =>
        { e with in_bucket := false, next_in_bucket := -1, prev_in_bucket := -1 }
      lookupClear fuel tm' next

/-- The bucket walk of `pto2_tensormap_lookup`.  `prev = none` models
`prev_ptr = &buckets[b]`, `prev = some p` models
`prev_ptr = &entry_pool[p].next_in_bucket`.  Returns the collected
`(pool index, overlap status)` pairs and the (possibly truncated) map. -/
def lookupWalk (t : Tensor) (b : Nat) :
    Nat → PTO2TensorMap → Option Nat → Int → List (Nat × OverlapStatus) →
    List (Nat × OverlapStatus) × PTO2TensorMap
  | 0, tm, _, _, acc => (acc.reverse, tm)
  | fuel + 1, tm, prev, offset, acc =>
    if offset < 0 then (acc.reverse, tm)
    else
      let e := getEntry tm offset
      if ! pto2_tensormap_entry_valid tm e then
        let tm1 :=
          match prev with
          | none => { tm with buckets := tm.buckets.set b (-1) }
          | some p => modifyEntry tm (Int.ofNat p) fun pe => { pe with next_in_bucket := -1 }
        (acc.reverse, lookupClear tm1.pool_size tm1 offset)
      else
        let st := t.is_overlap e.tensor
        let acc' := if st ≠ OverlapStatus.NO_OVERLAP then (offset.toNat, st) :: acc else acc
        lookupWalk t b fuel tm (some offset.toNat) e.next_in_bucket acc'

/-- `pto2_tensormap_lookup`. -/
def pto2_tensormap_lookup (tm : PTO2TensorMap) (t : Tensor) :
    List (Nat × OverlapStatus) × PTO2TensorMap :=
  let b := pto2_tensormap_hash tm.num_buckets t
  lookupWalk t b tm.pool_size tm none (tm.buckets.getD b (-1)) []

/-- `pto2_tensormap_insert`.  The C function spins (invoking
`pto2_orchestrator_sync_tensormap`, which re-reads `last_task_alive` from
shared memory) while the ring-buffer slot it wants to reuse is still
`in_bucket`, and faults after a bounded spin; in this single-map model the
blocked/faulting case is returned as `none`. -/
def pto2_tensormap_insert (tm : PTO2TensorMap) (t : Tensor)
    (producer_task_id : Int) (with_alloc : Bool) : Option PTO2TensorMap :=
  let entry_offset := tm.pool_head
  let e0 := tm.entry_pool.getD entry_offset default
  let tm := { tm with pool_head := (tm.pool_head + 1) % tm.pool_size }
  if e0.in_bucket then none
  else
    let b := pto2_tensormap_hash tm.num_buckets t
    let oldHead := tm.buckets.getD b (-1)
    let slot := (producer_task_id % (tm.window_size : Int)).toNat
    let oldTaskHead := tm.task_entry_head.getD slot (-1)
    let e : PTO2TensorMapEntry :=
      { tensor := t, producer_task_id := producer_task_id, with_alloc := with_alloc
        in_bucket := true, next_in_bucket := oldHead, prev_in_bucket := -1
        next_in_task := oldTaskHead, prev_in_task := -1 }
    let tm1 := { tm with entry_pool := tm.entry_pool.set entry_offset e }
    let tm2 :=
      if oldHead ≥ 0 then
        modifyEntry tm1 oldHead fun he => { he with prev_in_bucket := (entry_offset : Int) }
      else tm1
    let tm3 := { tm2 with buckets := tm2.buckets.set b (entry_offset : Int) }
    let tm4 :=
      if oldTaskHead ≥ 0 then
        modifyEntry tm3 oldTaskHead fun he => { he with prev_in_task := (entry_offset : Int) }
      else tm3
    some { tm4 with task_entry_head := tm4.task_entry_head.set slot (entry_offset : Int) }

/-- The four TensorMap operations a claim sequence may perform. -/
inductive TMOp
  | insertOp (t : Tensor) (id : Int) (wa : Bool)
  | lookupOp (t : Tensor)
  | cleanupOp (oldT newT : Int)
  | syncOp (v : Int)

/-- Apply one operation (`none` = the operation blocked/faulted). -/
def applyOp (tm : PTO2TensorMap) : TMOp → Option PTO2TensorMap
  | .insertOp t id wa => pto2_tensormap_insert tm t id wa
  | .lookupOp t => some (pto2_tensormap_lookup tm t).2
  | .cleanupOp o n => some (pto2_tensormap_cleanup_retired tm o n)
  | .syncOp v => some (pto2_tensormap_sync_validity tm v)

/-- Apply a sequence of operations. -/
def applyOps : PTO2TensorMap → List TMOp → Option PTO2TensorMap
  | tm, [] => some tm
  | tm, op :: rest =>
    match applyOp tm op with
    | none => none
    | some tm' => applyOps tm' rest

/-- Pool indices reachable along `next_in_bucket` links from `i`
(fuel-bounded; finite under well-formedness). -/
def chainFrom (tm : PTO2TensorMap) : Nat → Int → List Nat
  | 0, _ => []
  | fuel + 1, i =>
    if i < 0 then [] else i.toNat :: chainFrom tm fuel (getEntry tm i).next_in_bucket

/-- The chain of pool indices hanging off bucket `b`. -/
def bucketChain (tm : PTO2TensorMap) (b : Nat) : List Nat :=
  chainFrom tm tm.pool_size (tm.buckets.getD b (-1))

/-- The `producer_task_id`s along bucket `b`'s chain, head to tail. -/
def bucketIds (tm : PTO2TensorMap) (b : Nat) : List Int :=
  (bucketChain tm b).map fun i => (tm.entry_pool.getD i default).producer_task_id

/-- Normalized descriptor (the constructor invariant checked by
`is_valid_tensor` after `optimize`, as far as the overlap claims need it):
parallel `strides`/`repeats` lists, at least one dimension, innermost stride
`1`, every outer stride at least the inner stride times the inner repeat
(hence strides non-increasing), and all repeats at least `1`. -/
def Tensor.normalized (t : Tensor) : Prop :=
  t.repeats.length = t.strides.length ∧
  1 ≤ t.ndims ∧
  t.strides.getD (t.ndims - 1) 0 = 1 ∧
  (∀ i < t.ndims - 1,
    t.strides.getD (i + 1) 0 * t.repeats.getD (i + 1) 0 ≤ t.strides.getD i 0) ∧
  (∀ i < t.ndims, 1 ≤ t.repeats.getD i 0)

instance (t : Tensor) : Decidable t.normalized := by
  unfold Tensor.normalized
  infer_instance

/-- The per-axis hyper-rectangle condition of `is_overlap`'s accurate branch
(`need_complex_compare` stays `false`): on every inner dimension, the end of
the index range times the stride stays within the next-outer stride, on both
descriptors. -/
def hyperRectOk (t p : Tensor) : Prop :=
  ∀ i < t.ndims, 0 < i →
    (t.offset_to_ndims.getD i 0 + t.repeats.getD i 0) * t.strides.getD i 0 ≤
      t.strides.getD (i - 1) 0 ∧
    (p.offset_to_ndims.getD i 0 + p.repeats.getD i 0) * p.strides.getD i 0 ≤
      p.strides.getD (i - 1) 0

/-- Every axis of the two (same-strides) descriptors has intersecting index
ranges. -/
def axesIntersect (t p : Tensor) : Prop :=
  ∀ i < t.ndims,
    t.offset_to_ndims.getD i 0 < p.offset_to_ndims.getD i 0 + p.repeats.getD i 0 ∧
    p.offset_to_ndims.getD i 0 < t.offset_to_ndims.getD i 0 + t.repeats.getD i 0

/-- Lexicographic enumeration of all index vectors `v` with
`v.get i < rs.get i`. -/
def tuples : List Nat → List (List Nat)
  | [] => [[]]
  | r :: rest => (List.range r).flatMap fun k => (tuples rest).map (k :: ·)

/-- `Σ v_i * s_i`. -/
def dot (v s : List Nat) : Nat := (List.zipWith (· * ·) v s).sum

/-- The canonical list of innermost contiguous segments of a normalized
descriptor: one segment of length `repeats[n-1]` per outer index vector, in
lexicographic (= ascending begin) order.  Proved below to equal
`contiguousSegs`. -/
def canonSegs (t : Tensor) : List Segment :=
  (tuples t.repeats.dropLast).map fun v =>
    ⟨t.start_offset + dot v t.strides.dropLast,
     t.start_offset + dot v t.strides.dropLast + t.repeats.getD (t.ndims - 1) 0⟩

/-- Bucket-relevant fields of a pool entry (those read by the bucket-chain
predicates); task-list surgery leaves them unchanged. -/
def bucketFields (e : PTO2TensorMapEntry) : Tensor × Bool × Int × Int :=
  (e.tensor, e.in_bucket, e.next_in_bucket, e.prev_in_bucket)

/-- `isChain tm b prev cur l`: starting from link value `cur` whose holder is
`prev` (`-1` = the bucket-head slot), the pool indices `l` form bucket `b`'s
doubly-linked chain: consecutive `next_in_bucket` links, mirrored
`prev_in_bucket` links, every node `in_bucket`, hashed to `b`, in pool range,
and the last node's `next` is `-1`. -/
def isChain (tm : PTO2TensorMap) (b : Nat) : Int → Int → List Nat → Prop
  | _, cur, [] => cur = -1
  | prev, cur, i :: rest =>
    cur = (i : Int) ∧ i < tm.pool_size ∧
    (tm.entry_pool.getD i default).in_bucket = true ∧
    (tm.entry_pool.getD i default).prev_in_bucket = prev ∧
    pto2_tensormap_hash tm.num_buckets (tm.entry_pool.getD i default).tensor = b ∧
    isChain tm b (i : Int) (tm.entry_pool.getD i default).next_in_bucket rest

/-- An `Int` link value is `-1` or a valid pool index. -/
def linkOk (tm : PTO2TensorMap) (x : Int) : Prop :=
  -1 ≤ x ∧ x < (tm.pool_size : Int)

/-- Well-formedness invariant of the TensorMap state. -/
structure TMWF (tm : PTO2TensorMap) : Prop where
  buckets_len : tm.buckets.length = tm.num_buckets
  pool_len : tm.entry_pool.length = tm.pool_size
  task_len : tm.task_entry_head.length = tm.window_size
  nb_pow : ∃ k ≤ 32, tm.num_buckets = 2 ^ k
  win_pos : 0 < tm.window_size
  pool_pos : 0 < tm.pool_size
  head_lt : tm.pool_head < tm.pool_size
  chains : ∀ b < tm.num_buckets,
    ∃ l, isChain tm b (-1) (tm.buckets.getD b (-1)) l ∧ l.Nodup
  complete : ∀ i < tm.pool_size, (tm.entry_pool.getD i default).in_bucket = true →
    ∃ l, isChain tm
        (pto2_tensormap_hash tm.num_buckets (tm.entry_pool.getD i default).tensor) (-1)
        (tm.buckets.getD
          (pto2_tensormap_hash tm.num_buckets (tm.entry_pool.getD i default).tensor) (-1)) l ∧
      l.Nodup ∧ i ∈ l
  task_heads : ∀ s < tm.window_size, linkOk tm (tm.task_entry_head.getD s (-1))
  task_links : ∀ i < tm.pool_size,
    linkOk tm (tm.entry_pool.getD i default).next_in_task ∧
    linkOk tm (tm.entry_pool.getD i default).prev_in_task

/-- Every bucket chain's `producer_task_id`s are non-increasing head to
tail. -/
def ChainsOrdered (tm : PTO2TensorMap) : Prop :=
  ∀ b < tm.num_buckets, ∀ l, isChain tm b (-1) (tm.buckets.getD b (-1)) l →
    List.Chain' (fun x y => y ≤ x)
      (l.map fun i => (tm.entry_pool.getD i default).producer_task_id)

/-- All `in_bucket` entries carry a `producer_task_id` at most `m`. -/
def IdsBounded (tm : PTO2TensorMap) (m : Int) : Prop :=
  ∀ i < tm.pool_size, (tm.entry_pool.getD i default).in_bucket = true →
    (tm.entry_pool.getD i default).producer_task_id ≤ m

/-- The `insert` operations of the sequence carry non-decreasing
`producer_task_id` arguments, all at least `m`. -/
def insertsMono (m : Int) : List TMOp → Prop
  | [] => True
  | TMOp.insertOp _ id _ :: rest => m ≤ id ∧ insertsMono id rest
  | _ :: rest => insertsMono m rest

/-- S3's producer: `write B[0:256]`, FLOAT32, 1-D contiguous. -/
def s3Write : Tensor := ⟨4096, 1024, 0, [1], [256], .FLOAT32, 0, .Accurate⟩

/-- S3's reader: `read B[64:192]` on the same buffer. -/
def s3Read : Tensor := ⟨4096, 1024, 64, [1], [128], .FLOAT32, 0, .Accurate⟩

/-- S4's tensor `A`: `strides=[10,1], repeats=[3,6], start=0`. -/
def s4A : Tensor := ⟨4096, 1024, 0, [10, 1], [3, 6], .FLOAT32, 0, .Accurate⟩

/-- S4's tensor `B`: same buffer, `strides=[10,1], repeats=[3,3], start=6`. -/
def s4B : Tensor := ⟨4096, 1024, 6, [10, 1], [3, 3], .FLOAT32, 0, .Accurate⟩

/-- Symmetry counterexample, reader side: `strides=[10,1], repeats=[3,6],
start=0`, policy Accurate. -/
def symR : Tensor := ⟨4096, 1024, 0, [10, 1], [3, 6], .FLOAT32, 0, .Accurate⟩

/-- Symmetry counterexample, producer side: same buffer and strides,
`repeats=[1,3], start=16`, policy Accurate. -/
def symP : Tensor := ⟨4096, 1024, 16, [10, 1], [1, 3], .FLOAT32, 0, .Accurate⟩

/-- S5's tensor `A` (non-hyper-rectangular pair, complex path). -/
def s5A : Tensor := ⟨4096, 1024, 0, [10, 1], [3, 6], .FLOAT32, 0, .Accurate⟩

/-- S5's tensor `B`: `strides=[10,1], repeats=[2,6], start=15`. -/
def s5B : Tensor := ⟨4096, 1024, 15, [10, 1], [2, 6], .FLOAT32, 0, .Accurate⟩

/-- A reader one version generation ahead of the producer, with disjoint
byte ranges (for the version-rule claim). -/
def verR : Tensor := ⟨4096, 1024, 0, [1], [4], .FLOAT32, 1, .Accurate⟩

/-- The stale producer for the version-rule claim. -/
def verP : Tensor := ⟨4096, 1024, 100, [1], [4], .FLOAT32, 0, .Accurate⟩

/-- Hash-claim witness: a descriptor on buffer `0xABCD1234`. -/
def hashT1 : Tensor := ⟨0xABCD1234, 4096, 0, [1], [16], .FLOAT32, 0, .Accurate⟩

/-- Hash-claim witness: same base address, every other field different. -/
def hashT2 : Tensor := ⟨0xABCD1234, 8192, 128, [64, 1], [2, 2], .INT8, 3, .Fuzzy⟩

/-- A placeholder map value (used only as a `getD` default). -/
def dfltTM : PTO2TensorMap := ⟨[], 0, [], 0, 0, [], 0, 0⟩

/-- The initialized 4-bucket, 4-entry, window-4 TensorMap. -/
def tmInit4 : PTO2TensorMap :=
  (pto2_tensormap_init 4 4 4).getD dfltTM

/-- Two inserts for the same task (id `0`) on the same buffer — e.g. one
task with two outputs into one buffer; ids are (weakly) non-decreasing. -/
def c6ops : List TMOp :=
  [TMOp.insertOp s3Write 0 false, TMOp.insertOp s3Read 0 true]

/-- The map after running `c6ops` from the initialized state. -/
def tmC6 : PTO2TensorMap := (applyOps tmInit4 c6ops).getD dfltTM

/-- A map with a two-entry chain in bucket 0 whose tail (id `0`) is stale
under `last_task_alive = 1`: insert id 0, insert id 1, then sync to 1. -/
def tmC7 : PTO2TensorMap :=
  (applyOps tmInit4
    [TMOp.insertOp s3Write 0 false, TMOp.insertOp s3Read 1 true, TMOp.syncOp 1]).getD dfltTM

/-- A contiguous 2-D descriptor `(strides=[6,1], repeats=[4,6], start=5)`
for the reshape claim's witness. -/
def reshT : Tensor := ⟨4096, 4096, 5, [6, 1], [4, 6], .FLOAT32, 0, .Accurate⟩

/-- All digits zero (the iterator's initial outer index vector). -/
def zerosOf (rs : List Nat) : List Nat := rs.map fun _ => 0

/-- `v` is a valid digit vector for the radix list `rs` (componentwise
`v_i < rs_i`, same length). -/
def tupValid (rs v : List Nat) : Prop := List.Forall₂ (fun d r => d < r) v rs

/-- Lexicographic successor of a digit vector (the carry propagates from
the least significant, i.e. rightmost, digit); `none` when `v` is
maximal. -/
def tupSucc : List Nat → List Nat → Option (List Nat)
  | [], [] => none
  | r :: rs, d :: ds =>
    match tupSucc rs ds with
    | some ds2 => some (d :: ds2)
    | none => if d + 1 < r then some ((d + 1) :: zerosOf rs) else none
  | _, _ => none

/-- The chain of digit vectors obtained by iterating `tupSucc`. -/
def succChain (rs : List Nat) : Nat → List Nat → List (List Nat)
  | 0, _ => []
  | fuel + 1, v =>
    v ::
      match tupSucc rs v with
      | some w => succChain rs fuel w
      | none => []

/-- Mixed-radix value of a digit vector. -/
def tupRank : List Nat → List Nat → Nat
  | r :: rs, d :: ds => d * rs.prod + tupRank rs ds
  | _, _ => 0

/-- The segment the iterator reports when its outer index vector is `v`. -/
def iterSeg (t : Tensor) (v : List Nat) : Segment :=
  ⟨t.start_offset + dot v t.strides.dropLast,
   t.start_offset + dot v t.strides.dropLast + t.repeats.getD (t.ndims - 1) 0⟩

/-- The iterator state whose outer index vector is `v` (innermost index
`0`). -/
def iterState (t : Tensor) (v : List Nat) : SegIterState :=
  ⟨v ++ [0], iterSeg t v⟩

/-- Index-vector surgery performed by a full carry run from dimension `c`
down into dimension `j`: positions `j+1 .. c` are zeroed, position `j` is
incremented. -/
def carryResult (idxs : List Nat) (j c : Nat) : List Nat :=
  idxs.mapIdx fun k x => if k = j then x + 1 else if j < k ∧ k ≤ c then 0 else x

/-- A bucket-chain *segment*: like `isChain` but ending with out-link `out`
instead of `-1` (so chains can be split and spliced). -/
def isChainSeg (tm : PTO2TensorMap) (b : Nat) : Int → Int → List Nat → Int → Prop
  | _, cur, [], out => cur = out
  | prev, cur, i :: rest, out =>
    cur = (i : Int) ∧ i < tm.pool_size ∧
    (tm.entry_pool.getD i default).in_bucket = true ∧
    (tm.entry_pool.getD i default).prev_in_bucket = prev ∧
    pto2_tensormap_hash tm.num_buckets (tm.entry_pool.getD i default).tensor = b ∧
    isChainSeg tm b (i : Int) (tm.entry_pool.getD i default).next_in_bucket rest out

/-- The pool index held by the last node of `l` (as a link value), or `prev`
when `l` is empty. -/
def lastLink (prev : Int) : List Nat → Int
  | [] => prev
  | j :: l => lastLink (j : Int) l

/-- Decide `isChain` by walking the list. -/
def decIsChain (tm : PTO2TensorMap) (b : Nat) :
    (l : List Nat) → (prev cur : Int) → Decidable (isChain tm b prev cur l)
  | [], _, cur => by
    unfold isChain
    infer_instance
  | i :: rest, prev, cur => by
    unfold isChain
    haveI := decIsChain tm b rest (i : Int)
      (tm.entry_pool.getD i default).next_in_bucket
    infer_instance

instance (tm : PTO2TensorMap) (b : Nat) (prev cur : Int) (l : List Nat) :
    Decidable (isChain tm b prev cur l) := decIsChain tm b l prev cur

/-- The well-formedness of the TensorMap state that the bucket-chain claims
rest on: array lengths match the counts, the pool is non-trivial and the
ring head in range, the bucket count is a 32-bit power of two, and every
bucket holds a duplicate-free chain that contains every `in_bucket` pool
entry hashing to it. -/
def MapWF (tm : PTO2TensorMap) : Prop :=
  tm.buckets.length = tm.num_buckets ∧
  tm.entry_pool.length = tm.pool_size ∧
  0 < tm.pool_size ∧
  tm.pool_head < tm.pool_size ∧
  (∃ k ≤ 32, tm.num_buckets = 2 ^ k) ∧
  (∀ b < tm.num_buckets, ∃ l, isChain tm b (-1) (tm.buckets.getD b (-1)) l ∧
    l.Nodup ∧
    ∀ j < tm.pool_size, (tm.entry_pool.getD j default).in_bucket = true →
      pto2_tensormap_hash tm.num_buckets (tm.entry_pool.getD j default).tensor = b →
      j ∈ l)

/-- What `lookupWalk` guarantees about its resulting map `r`, relative to the
starting map `tm`, the walked bucket `b`, the already-processed chain prefix
`l1` and the remaining chain `l2`: the remaining chain splits into a kept
prefix `l2a` and a truncated suffix `l2b`; all map fields outside bucket `b`
and outside the walked entries are untouched; truncated entries are cleared;
the new bucket chain is `l1 ++ l2a` and all its entries are valid. -/
def WalkPost (tm r : PTO2TensorMap) (b : Nat) (l1 l2 : List Nat) : Prop :=
  ∃ l2a l2b, l2 = l2a ++ l2b ∧
    r.num_buckets = tm.num_buckets ∧
    r.pool_size = tm.pool_size ∧
    r.pool_head = tm.pool_head ∧
    r.last_task_alive = tm.last_task_alive ∧
    r.task_entry_head = tm.task_entry_head ∧
    r.window_size = tm.window_size ∧
    r.buckets.length = tm.buckets.length ∧
    r.entry_pool.length = tm.entry_pool.length ∧
    (∀ b2, b2 ≠ b → r.buckets.getD b2 (-1) = tm.buckets.getD b2 (-1)) ∧
    (∀ j : Nat, j ∉ l1 ++ l2 →
      r.entry_pool.getD j default = tm.entry_pool.getD j default) ∧
    (∀ j : Nat,
      (r.entry_pool.getD j default).producer_task_id
        = (tm.entry_pool.getD j default).producer_task_id ∧
      (r.entry_pool.getD j default).tensor = (tm.entry_pool.getD j default).tensor ∧
      ((r.entry_pool.getD j default).in_bucket = true →
        (tm.entry_pool.getD j default).in_bucket = true)) ∧
    (∀ j ∈ l2b,
      (r.entry_pool.getD j default).in_bucket = false ∧
      (r.entry_pool.getD j default).next_in_bucket = -1 ∧
      (r.entry_pool.getD j default).prev_in_bucket = -1) ∧
    isChainSeg r b (-1) (r.buckets.getD b (-1)) (l1 ++ l2a) (-1) ∧
    (∀ j ∈ l1 ++ l2a,
      pto2_tensormap_entry_valid r (r.entry_pool.getD j default) = true)

/-- The residue left by `offset_to_ndims`'s greedy div/mod walk (the value
`cur_offset` holds after the loop). -/
def auxRem : Nat → List Nat → Nat
  | c, [] => c
  | c, s :: rest => auxRem (c % s) rest

/-! ## Theorems -/

/-- C5: with the same base address and `reader.version > producer.version`,
`is_overlap` returns `OTHER` unconditionally — the version check precedes the
fuzzy-segment disjointness test. -/
theorem c5_version_gt_forces_other (t p : Tensor) (haddr : t.addr = p.addr)
    (hver : p.version < t.version) : t.is_overlap p = .OTHER := by
  unfold Tensor.is_overlap
  simp [Tensor.is_same_memref, haddr, hver]

/-- C5 witness: a concrete pair with disjoint byte ranges (`[0,16)` vs
`[400,416)`) and `reader.version = 1 > 0 = producer.version` is classified
`OTHER`. -/
theorem c5_version_gt_forces_other_witness :
    verR.addr = verP.addr ∧ verP.version < verR.version ∧ verR.is_overlap verP = .OTHER :=
  ⟨rfl, by decide, c5_version_gt_forces_other verR verP rfl (by decide)⟩

/-- C9: `pto2_tensormap_hash` depends only on the base address and the
bucket count, and for a power-of-two bucket count the result is always in
range. -/
theorem c9_hash_addr_only_and_in_range :
    (∀ (nb : Nat) (t1 t2 : Tensor), t1.addr = t2.addr →
      pto2_tensormap_hash nb t1 = pto2_tensormap_hash nb t2) ∧
    (∀ (k : Nat) (t : Tensor), pto2_tensormap_hash (2 ^ k) t < 2 ^ k) := by
  constructor
  · intro nb t1 t2 h
    simp [pto2_tensormap_hash, h]
  · intro k t
    unfold pto2_tensormap_hash
    rcases le_or_lt k 32 with hk | hk
    · calc (_ &&& (2 ^ k - 1)) % 2 ^ 32 ≤ _ &&& (2 ^ k - 1) := Nat.mod_le _ _
        _ ≤ 2 ^ k - 1 := Nat.and_le_right
        _ < 2 ^ k := Nat.sub_lt (Nat.pos_pow_of_pos k (by norm_num)) one_pos
    · calc (_ &&& (2 ^ k - 1)) % 2 ^ 32 < 2 ^ 32 :=
          Nat.mod_lt _ (Nat.pos_pow_of_pos 32 (by norm_num))
        _ ≤ 2 ^ k := Nat.pow_le_pow_right (by norm_num) hk.le

/-- C9 witness: two descriptors sharing base address `0xABCD1234` but
differing in every other field hash to the same bucket of a 16-bucket map,
and that bucket index is below 16. -/
theorem c9_hash_witness :
    pto2_tensormap_hash 16 hashT1 = pto2_tensormap_hash 16 hashT2 ∧
    pto2_tensormap_hash (2 ^ 4) hashT1 < 2 ^ 4 :=
  ⟨c9_hash_addr_only_and_in_range.1 16 hashT1 hashT2 rfl,
   c9_hash_addr_only_and_in_range.2 4 hashT1⟩

/-- C4 (code bug): on S4's pair the per-axis hyper-rectangle branch is taken
(`need_complex_compare` is `false`, so `complex_overlap` is not invoked), the
reachable element sets are disjoint, the fuzzy segments intersect — yet the
code returns `COVERED`, not the claimed `NO_OVERLAP`: dimension 1 has
disjoint index ranges `[0,6)` vs `[6,9)`, which only clears the `overlap`
flag, never the `contains` flag. -/
theorem c4_per_axis_branch_returns_covered :
    s4A.is_overlap s4B = .COVERED ∧
    (axesLoop s4A s4B s4A.offset_to_ndims s4B.offset_to_ndims 0 s4A.ndims true true).1
      = false ∧
    (∀ o ∈ s4A.elemOffsets, o ∉ s4B.elemOffsets) ∧
    Segment.line_segment_intersection
      (scaleSeg (get_element_size s4A.dtype) s4A.get_fuzzy_seg)
      (scaleSeg (get_element_size s4B.dtype) s4B.get_fuzzy_seg) = true := by
  refine ⟨by decide, by decide, by decide, by decide⟩

/-- C1 counterexample: for S3 (`write B[0:256]` then `read B[64:192]`,
same dtype and version, Accurate), the reader's reachable byte set *is*
contained in the producer's, yet `is_overlap` returns `OTHER`, not the
claimed `COVERED` — the code's `contains` test goes the other way around. -/
theorem c1_counterexample :
    s3Read.is_overlap s3Write = .OTHER ∧
    s3Read.is_overlap s3Write ≠ .COVERED ∧
    byteSubset s3Read s3Write := by
  refine ⟨by decide, by decide, ?_⟩
  rintro b ⟨o, ho, k, hk, rfl⟩
  have hsub : ∀ o ∈ s3Read.elemOffsets, o ∈ s3Write.elemOffsets := by decide
  exact ⟨o, hsub o ho, k, hk, rfl⟩

/-- C3 counterexample: an equal-version, equal-dtype, both-`Accurate`,
same-strides pair on one buffer for which `R.is_overlap(P) = COVERED`
(`contains` is never cleared: axis 0 strictly contains, axis 1 is disjoint)
while `P.is_overlap(R) = NO_OVERLAP` (axis 0 fails containment) — so
`NO_OVERLAP` is not symmetric even under equal versions. -/
theorem c3_counterexample :
    symR.version = symP.version ∧
    symR.is_overlap symP = .COVERED ∧
    symP.is_overlap symR = .NO_OVERLAP := by
  refine ⟨rfl, by decide, by decide⟩

/-- C6 counterexample: from the initialized 4-bucket map, two inserts with
the same (hence non-decreasing) `producer_task_id = 0` on the same buffer
leave bucket 0's chain with ids `[0, 0]` — non-increasing but not strictly
decreasing. -/
theorem c6_counterexample :
    insertsMono 0 c6ops ∧
    (applyOps tmInit4 c6ops).map (fun tm => bucketIds tm 0) = some [0, 0] ∧
    ¬ List.Chain' (fun x y : Int => y < x) [0, 0] := by
  refine ⟨⟨le_refl 0, le_refl 0, trivial⟩, by decide, ?_⟩
  intro h
  exact absurd (List.chain'_cons.mp h).1 (lt_irrefl 0)

/-- Replacing position `j` (holding `b`) by `a` and re-consing `b` in front
permutes `a :: tl`. -/
theorem set_cons_perm (a b : α) :
    ∀ (tl : List α) (j : Nat), tl[j]? = some b →
      List.Perm (b :: tl.set j a) (a :: tl) := by
  intro tl
  induction tl with
  | nil => intro j h; simp at h
  | cons c rest IH =>
    intro j h
    cases j with
    | zero =>
      simp only [List.getElem?_cons_zero, Option.some.injEq] at h
      rw [h, List.set_cons_zero]
      exact List.Perm.swap a b rest
    | succ j' =>
      simp only [List.getElem?_cons_succ] at h
      simp only [List.set_cons_succ]
      refine (List.Perm.swap c b _).trans ?_
      refine ((IH j' h).cons c).trans ?_
      exact List.Perm.swap a c rest

/-- A two-position exchange (`i < j`) permutes the list. -/
theorem swap_set_perm (a b : α) :
    ∀ (l : List α) (i j : Nat), i < j → l[i]? = some a → l[j]? = some b →
      List.Perm ((l.set i b).set j a) l := by
  intro l
  induction l with
  | nil => intro i j _ hi _; simp at hi
  | cons x tl IH =>
    intro i j hij hi hj
    obtain ⟨j', rfl⟩ : ∃ j', j = j' + 1 := ⟨j - 1, by omega⟩
    simp only [List.getElem?_cons_succ] at hj
    cases i with
    | zero =>
      simp only [List.getElem?_cons_zero, Option.some.injEq] at hi
      subst hi
      rw [List.set_cons_zero, List.set_cons_succ]
      exact set_cons_perm x b tl j' hj
    | succ i' =>
      simp only [List.getElem?_cons_succ] at hi
      simp only [List.set_cons_succ]
      exact (IH i' j' (by omega) hi hj).cons x

/-- `dimsSwap` at distinct positions is a permutation. -/
theorem dimsSwap_perm (l : List (Nat × Nat)) (i j : Nat) (h : i < j) :
    List.Perm (dimsSwap l i j) l := by
  unfold dimsSwap
  cases hi : l.get? i with
  | none => simp only [hi]; exact List.Perm.refl l
  | some a =>
    cases hj : l.get? j with
    | none => simp only [hi, hj]; exact List.Perm.refl l
    | some b =>
      simp only [hi, hj]
      rw [List.get?_eq_getElem?] at hi hj
      exact swap_set_perm a b l i j h hi hj

/-- The inner selection loop of `resort_strides` permutes the dimension
list. -/
theorem resortInner_perm (i : Nat) :
    ∀ (fuel j : Nat) (l : List (Nat × Nat)), i < j →
      List.Perm (resortInner i j fuel l) l := by
  intro fuel
  induction fuel with
  | zero => intro j l _; exact List.Perm.refl l
  | succ fuel IH =>
    intro j l hij
    show List.Perm (resortInner i (j + 1) fuel (if needSwap l i j then dimsSwap l i j else l)) l
    by_cases hsw : needSwap l i j
    · rw [if_pos hsw]
      exact (IH (j + 1) (dimsSwap l i j) (by omega)).trans (dimsSwap_perm l i j hij)
    · rw [if_neg hsw]
      exact IH (j + 1) l (by omega)

/-- The outer loop of `resort_strides` permutes the dimension list. -/
theorem resortOuter_perm :
    ∀ (fuel i : Nat) (l : List (Nat × Nat)), List.Perm (resortOuter i fuel l) l := by
  intro fuel
  induction fuel with
  | zero => intro i l; exact List.Perm.refl l
  | succ fuel IH =>
    intro i l
    show List.Perm (resortOuter (i + 1) fuel (resortInner i (i + 1) (l.length - (i + 1)) l)) l
    exact (IH (i + 1) _).trans (resortInner_perm i _ (i + 1) l (by omega))

/-- The multiset of enumerated offsets is invariant under permuting the
`(stride, repeat)` dimension list. -/
theorem offsetsList_perm {l l' : List (Nat × Nat)} (h : List.Perm l l') :
    ∀ start, ((offsetsList start l : List Nat) : Multiset Nat) = offsetsList start l' := by
  induction h with
  | nil => intro start; rfl
  | cons x h IH =>
    intro start
    obtain ⟨s, r⟩ := x
    show ((List.range r).flatMap fun k => offsetsList (start + k * s) _ : Multiset Nat)
      = ((List.range r).flatMap fun k => offsetsList (start + k * s) _ : Multiset Nat)
    rw [← Multiset.coe_bind, ← Multiset.coe_bind]
    exact Multiset.bind_congr fun k _ => IH _
  | swap x y l₁ =>
    intro start
    obtain ⟨s1, r1⟩ := x
    obtain ⟨s2, r2⟩ := y
    show ((List.range r2).flatMap fun j =>
        (List.range r1).flatMap fun k => offsetsList (start + j * s2 + k * s1) l₁
        : Multiset Nat)
      = ((List.range r1).flatMap fun k =>
        (List.range r2).flatMap fun j => offsetsList (start + k * s1 + j * s2) l₁
        : Multiset Nat)
    rw [← Multiset.coe_bind, ← Multiset.coe_bind]
    have hb : ∀ (j k : Nat),
        ((offsetsList (start + j * s2 + k * s1) l₁ : List Nat) : Multiset Nat)
          = offsetsList (start + k * s1 + j * s2) l₁ := by
      intro j k
      have : start + j * s2 + k * s1 = start + k * s1 + j * s2 := by omega
      rw [this]
    calc ((List.range r2 : Multiset Nat).bind fun j =>
            ((List.range r1).flatMap fun k => offsetsList (start + j * s2 + k * s1) l₁
              : List Nat))
        = (List.range r2 : Multiset Nat).bind fun j =>
            (List.range r1 : Multiset Nat).bind fun k =>
              ((offsetsList (start + j * s2 + k * s1) l₁ : List Nat) : Multiset Nat) := by
          refine Multiset.bind_congr fun j _ => ?_
          rw [← Multiset.coe_bind]
      _ = (List.range r1 : Multiset Nat).bind fun k =>
            (List.range r2 : Multiset Nat).bind fun j =>
              ((offsetsList (start + j * s2 + k * s1) l₁ : List Nat) : Multiset Nat) :=
          Multiset.bind_bind _ _
      _ = (List.range r1 : Multiset Nat).bind fun k =>
            ((List.range r2).flatMap fun j => offsetsList (start + k * s1 + j * s2) l₁
              : List Nat) := by
          refine Multiset.bind_congr fun k _ => ?_
          rw [← Multiset.coe_bind]
          exact Multiset.bind_congr fun j _ => hb j k
  | trans h1 h2 IH1 IH2 => intro start; exact (IH1 start).trans (IH2 start)

/-- C8 (amended only in form): `optimize` — whose normalization step is
`resort_strides`, a joint sort of the `(stride, repeat)` pairs — preserves
the multiset of reachable element offsets
`start_offset + Σ idx_i * strides_i` (`idx_i < repeats_i`). -/
theorem c8_optimize_preserves_offsets (t : Tensor) :
    ((t.optimize.elemOffsets : List Nat) : Multiset Nat) = (t.elemOffsets : Multiset Nat) := by
  show ((t.resort_strides.elemOffsets : List Nat) : Multiset Nat) = _
  unfold Tensor.elemOffsets Tensor.resort_strides
  have hz : ∀ (l : List (Nat × Nat)),
      (l.map Prod.fst).zip (l.map Prod.snd) = l := by
    intro l
    rw [List.zip_map']
    simp
  simp only [hz]
  exact offsetsList_perm (resortOuter_perm _ 0 _) t.start_offset

/-- `rowMajorStrides` has the shape's length. -/
theorem rms_length : ∀ (r : List Nat), (rowMajorStrides r).length = r.length
  | [] => rfl
  | _ :: rest => by simp [rowMajorStrides, rms_length rest]

/-- `rowMajorStrides r` at position `i` is the product of the dimensions
after `i`. -/
theorem rms_getD : ∀ (r : List Nat) (i : Nat), i < r.length →
    (rowMajorStrides r).getD i 0 = (r.drop (i + 1)).prod := by
  intro r
  induction r with
  | nil => intro i h; simp at h
  | cons d rest IH =>
    intro i h
    cases i with
    | zero => simp [rowMajorStrides]
    | succ i' =>
      show (rowMajorStrides rest).getD i' 0 = _
      exact IH i' (by simpa using h)

/-- Offsets reachable with row-major strides form exactly the interval
`[start, start + prod shape)`. -/
theorem mem_offsetsList_interval :
    ∀ (r : List Nat) (start o : Nat),
      o ∈ offsetsList start ((rowMajorStrides r).zip r) ↔
        start ≤ o ∧ o < start + r.prod := by
  intro r
  induction r with
  | nil =>
    intro start o
    simp [rowMajorStrides, offsetsList, List.prod_nil]
    omega
  | cons d rest IH =>
    intro start o
    show o ∈ (List.range d).flatMap
        (fun k => offsetsList (start + k * rest.prod) ((rowMajorStrides rest).zip rest)) ↔ _
    rw [List.mem_flatMap]
    constructor
    · rintro ⟨k, hk, ho⟩
      rw [List.mem_range] at hk
      rw [IH] at ho
      refine ⟨by omega, ?_⟩
      have h1 : k * rest.prod + rest.prod ≤ d * rest.prod := by
        have : (k + 1) * rest.prod ≤ d * rest.prod :=
          Nat.mul_le_mul_right _ (by omega)
        calc k * rest.prod + rest.prod = (k + 1) * rest.prod := by ring
          _ ≤ d * rest.prod := this
      calc o < start + k * rest.prod + rest.prod := ho.2
        _ ≤ start + d * rest.prod := by omega
        _ = start + (d :: rest).prod := by rw [List.prod_cons]
    · rintro ⟨h1, h2⟩
      rw [List.prod_cons] at h2
      have hπ : 0 < rest.prod := by
        rcases Nat.eq_zero_or_pos rest.prod with h | h
        · rw [h, Nat.mul_zero] at h2; omega
        · exact h
      refine ⟨(o - start) / rest.prod, ?_, ?_⟩
      · rw [List.mem_range]
        refine Nat.div_lt_of_lt_mul ?_
        rw [Nat.mul_comm]
        omega
      · rw [IH]
        have hmod := Nat.mod_lt (o - start) hπ
        have hdm : rest.prod * ((o - start) / rest.prod) + (o - start) % rest.prod
            = o - start := Nat.div_add_mod _ _
        have hcomm : (o - start) / rest.prod * rest.prod
            = rest.prod * ((o - start) / rest.prod) := Nat.mul_comm _ _
        constructor
        · omega
        · omega

/-- A descriptor built with row-major strides is contiguous. -/
theorem rms_is_contiguous (t : Tensor) (s : List Nat) (hs : 1 ≤ s.length) :
    (Tensor.reshape t s).is_contiguous = true := by
  unfold Tensor.is_contiguous Tensor.reshape Tensor.ndims
  simp only [rms_length]
  rw [if_neg (by omega)]
  rw [if_neg ?hlast]
  case hlast =>
    rw [rms_getD s (s.length - 1) (by omega)]
    have : s.drop (s.length - 1 + 1) = [] := List.drop_eq_nil_of_le (by omega)
    simp [this]
  simp only [decide_eq_true_eq]
  intro i hi
  rw [rms_getD s i (by omega), rms_getD s (i + 1) (by omega)]
  have hdrop : s.drop (i + 1) = s[i + 1] :: s.drop (i + 2) :=
    List.drop_eq_getElem_cons (by omega)
  rw [hdrop, List.prod_cons]
  have : s.getD (i + 1) 0 = s[i + 1] := by
    simp [List.getD_eq_getElem?_getD, List.getElem?_eq_getElem (by omega : i + 1 < s.length)]
  rw [this]
  ring

/-- An index-wise contiguous stride vector is the row-major stride vector of
its repeats. -/
theorem contiguous_strides_eq :
    ∀ (s r : List Nat), 0 < s.length → r.length = s.length →
      s.getD (s.length - 1) 0 = 1 →
      (∀ i, i < s.length - 1 → s.getD i 0 = s.getD (i + 1) 0 * r.getD (i + 1) 0) →
      s = rowMajorStrides r := by
  intro s
  induction s with
  | nil => intro r h; simp at h
  | cons a s' IH =>
    intro r _ hlen hlast hinner
    match r, hlen with
    | b :: r', hlen =>
      cases s' with
      | nil =>
        have : r' = [] := List.eq_nil_of_length_eq_zero (by simpa using hlen)
        subst this
        simp at hlast
        simp [rowMajorStrides, hlast]
      | cons a2 s'' =>
        have hr' : 0 < r'.length := by simp at hlen; omega
        match r', hr' with
        | c :: r'', _ =>
          have htail : a2 :: s'' = rowMajorStrides (c :: r'') := by
            refine IH (c :: r'') (by simp) (by simpa using hlen) ?_ ?_
            · simpa using hlast
            · intro i hi
              have := hinner (i + 1) (by simp at hi ⊢; omega)
              simpa using this
          have hhead : a = a2 * c := by
            have := hinner 0 (by simp)
            simpa using this
          have ha2 : a2 = r''.prod := by
            have : (a2 :: s'').getD 0 0 = (rowMajorStrides (c :: r'')).getD 0 0 := by
              rw [htail]
            simpa [rowMajorStrides] using this
          show a :: a2 :: s'' = (c :: r'').prod :: rowMajorStrides (c :: r'')
          rw [← htail, List.prod_cons]
          congr 1
          rw [hhead, ha2]
          ring

/-- C10: for a contiguous descriptor `t` (`ndims ≥ 1`, repeats ≥ 1) and a
shape `s` (`≥ 1` dimension) with matching element product, `reshape`
preserves buffer address, buffer size, start offset, dtype, version and
overlap type, yields a contiguous descriptor, and preserves the reachable
element offsets — both sets being exactly the interval
`[start_offset, start_offset + numel)`.  (`reshape` builds a new descriptor
from a `const` source, so `t` itself is unchanged, which the functional
embedding makes implicit.) -/
theorem c10_reshape_contiguous (t : Tensor) (s : List Nat)
    (hlen : t.repeats.length = t.strides.length)
    (hnd : 1 ≤ t.ndims)
    (hrep : ∀ i < t.ndims, 1 ≤ t.repeats.getD i 0)
    (hs : 1 ≤ s.length)
    (hcont : t.is_contiguous = true)
    (hprod : t.valid_reshape s = true) :
    (t.reshape s).addr = t.addr ∧
    (t.reshape s).size = t.size ∧
    (t.reshape s).start_offset = t.start_offset ∧
    (t.reshape s).dtype = t.dtype ∧
    (t.reshape s).version = t.version ∧
    (t.reshape s).overlap_type = t.overlap_type ∧
    (t.reshape s).is_contiguous = true ∧
    (∀ o, o ∈ (t.reshape s).elemOffsets ↔ o ∈ t.elemOffsets) ∧
    (∀ o, o ∈ t.elemOffsets ↔
      t.start_offset ≤ o ∧ o < t.start_offset + t.numel) := by
  have hstr : t.strides = rowMajorStrides t.repeats := by
    unfold Tensor.is_contiguous at hcont
    rw [if_neg (by omega)] at hcont
    by_cases hl : t.strides.getD (t.ndims - 1) 0 ≠ 1
    · rw [if_pos hl] at hcont; exact absurd hcont (by simp)
    · rw [if_neg hl] at hcont
      push_neg at hl
      simp only [decide_eq_true_eq] at hcont
      exact contiguous_strides_eq t.strides t.repeats (by exact hnd) hlen hl hcont
  have hmemt : ∀ o, o ∈ t.elemOffsets ↔
      t.start_offset ≤ o ∧ o < t.start_offset + t.repeats.prod := by
    intro o
    unfold Tensor.elemOffsets
    rw [hstr]
    exact mem_offsetsList_interval t.repeats t.start_offset o
  have hprodeq : t.repeats.prod = s.prod := by
    unfold Tensor.valid_reshape at hprod
    exact beq_iff_eq.mp hprod
  have hmemr : ∀ o, o ∈ (t.reshape s).elemOffsets ↔
      t.start_offset ≤ o ∧ o < t.start_offset + s.prod := by
    intro o
    show o ∈ offsetsList t.start_offset ((rowMajorStrides s).zip s) ↔ _
    exact mem_offsetsList_interval s t.start_offset o
  refine ⟨rfl, rfl, rfl, rfl, rfl, rfl, rms_is_contiguous t s hs, ?_, ?_⟩
  · intro o
    rw [hmemt o, hmemr o, hprodeq]
  · intro o
    rw [hmemt o]
    unfold Tensor.numel
    rw [if_neg (by omega)]

/-- C10 witness: reshaping the contiguous `(strides=[6,1], repeats=[4,6],
start=5)` descriptor to shape `[2, 12]` preserves everything required. -/
theorem c10_reshape_witness :
    (reshT.reshape [2, 12]).addr = reshT.addr ∧
    (reshT.reshape [2, 12]).size = reshT.size ∧
    (reshT.reshape [2, 12]).start_offset = reshT.start_offset ∧
    (reshT.reshape [2, 12]).dtype = reshT.dtype ∧
    (reshT.reshape [2, 12]).version = reshT.version ∧
    (reshT.reshape [2, 12]).overlap_type = reshT.overlap_type ∧
    (reshT.reshape [2, 12]).is_contiguous = true ∧
    (∀ o, o ∈ (reshT.reshape [2, 12]).elemOffsets ↔ o ∈ reshT.elemOffsets) ∧
    (∀ o, o ∈ reshT.elemOffsets ↔
      reshT.start_offset ≤ o ∧ o < reshT.start_offset + reshT.numel) :=
  c10_reshape_contiguous reshT [2, 12] rfl (by decide) (by decide) (by decide)
    (by decide) (by decide)

theorem tupValid_length {rs v : List Nat} (h : tupValid rs v) : v.length = rs.length :=
  List.Forall₂.length_eq h

theorem prodPos {rs : List Nat} (h : ∀ r ∈ rs, 1 ≤ r) : 1 ≤ rs.prod := by
  induction rs with
  | nil => simp
  | cons r rest IH =>
    rw [List.prod_cons]
    have h1 := h r (by simp)
    have h2 := IH fun x hx => h x (by simp [hx])
    exact Nat.one_le_iff_ne_zero.mpr (Nat.mul_ne_zero (by omega) (by omega))

theorem zerosOf_valid {rs : List Nat} (h : ∀ r ∈ rs, 1 ≤ r) : tupValid rs (zerosOf rs) := by
  induction rs with
  | nil => exact List.Forall₂.nil
  | cons r rest IH =>
    exact List.Forall₂.cons (h r (by simp)) (IH fun x hx => h x (by simp [hx]))

theorem tupValid_radix_pos {rs v : List Nat} (h : tupValid rs v) : ∀ r ∈ rs, 1 ≤ r := by
  induction h with
  | nil => simp
  | cons hdr _ IH =>
    intro x hx
    rcases List.mem_cons.mp hx with rfl | hx
    · omega
    · exact IH x hx

theorem tupSucc_none_eq_max {rs v : List Nat} (hv : tupValid rs v)
    (h : tupSucc rs v = none) : v = rs.map (· - 1) := by
  induction hv with
  | nil => rfl
  | @cons d r vs rss hdr htl IH =>
    unfold tupSucc at h
    cases hs : tupSucc rss vs with
    | some ds2 => rw [hs] at h; simp at h
    | none =>
      rw [hs] at h
      by_cases hd : d + 1 < r
      · rw [if_pos hd] at h; simp at h
      · rw [List.map_cons, ← IH hs]
        have : d = r - 1 := by omega
        rw [this]

theorem tupSucc_some_decomp {rs v w : List Nat} (hv : tupValid rs v)
    (h : tupSucc rs v = some w) :
    ∃ (rs1 : List Nat) (rj : Nat) (rs2 : List Nat) (u : List Nat) (d : Nat),
      rs = rs1 ++ rj :: rs2 ∧ v = u ++ d :: rs2.map (· - 1) ∧
      w = u ++ (d + 1) :: zerosOf rs2 ∧ d + 1 < rj ∧ tupValid rs1 u := by
  induction hv generalizing w with
  | nil => simp [tupSucc] at h
  | @cons d r vs rss hdr htl IH =>
    unfold tupSucc at h
    cases hs : tupSucc rss vs with
    | some ds2 =>
      rw [hs] at h
      obtain ⟨rs1, rj, rs2, u, d', h1, h2, h3, h4, h5⟩ := IH hs
      refine ⟨r :: rs1, rj, rs2, d :: u, d', ?_, ?_, ?_, h4, List.Forall₂.cons hdr h5⟩
      · rw [h1]; rfl
      · rw [h2]; rfl
      · simp only [Option.some.injEq] at h
        rw [← h, h3]; rfl
    | none =>
      rw [hs] at h
      by_cases hd : d + 1 < r
      · rw [if_pos hd] at h
        simp at h
        refine ⟨[], r, rss, [], d, rfl, ?_, ?_, hd, List.Forall₂.nil⟩
        · rw [← tupSucc_none_eq_max htl hs]; rfl
        · rw [← h]; rfl
      · rw [if_neg hd] at h; simp at h

theorem tupValid_append {rs1 rs2 u v : List Nat} (h1 : tupValid rs1 u) (h2 : tupValid rs2 v) :
    tupValid (rs1 ++ rs2) (u ++ v) :=
  List.rel_append h1 h2

theorem tupValid_max {rs : List Nat} (h : ∀ r ∈ rs, 1 ≤ r) :
    tupValid rs (rs.map (· - 1)) := by
  induction rs with
  | nil => exact List.Forall₂.nil
  | cons r rest IH =>
    refine List.Forall₂.cons ?_ (IH fun x hx => h x (by simp [hx]))
    exact Nat.sub_lt (h r (by simp)) one_pos

theorem tupSucc_some_valid {rs v w : List Nat} (hv : tupValid rs v)
    (h : tupSucc rs v = some w) : tupValid rs w := by
  obtain ⟨rs1, rj, rs2, u, d, h1, h2, h3, h4, h5⟩ := tupSucc_some_decomp hv h
  subst h1 h2 h3
  have hrs2 : ∀ r ∈ rs2, 1 ≤ r := fun r hr =>
    tupValid_radix_pos hv r (by simp [hr])
  exact tupValid_append h5 (List.Forall₂.cons (by omega) (zerosOf_valid hrs2))

theorem tupRank_zeros : ∀ (rs : List Nat), tupRank rs (zerosOf rs) = 0
  | [] => rfl
  | _ :: rest => by
    show 0 * rest.prod + tupRank rest (zerosOf rest) = 0
    rw [tupRank_zeros rest]
    omega

theorem tupRank_lt_prod {rs v : List Nat} (h : tupValid rs v) : tupRank rs v < rs.prod := by
  induction h with
  | nil => simp [tupRank]
  | @cons d r vs rss hdr _ IH =>
    show d * rss.prod + tupRank rss vs < (r :: rss).prod
    rw [List.prod_cons]
    calc d * rss.prod + tupRank rss vs < d * rss.prod + rss.prod := by omega
      _ = (d + 1) * rss.prod := by ring
      _ ≤ r * rss.prod := Nat.mul_le_mul_right _ (by omega)

theorem tupRank_max {rs : List Nat} (h : ∀ r ∈ rs, 1 ≤ r) :
    tupRank rs (rs.map (· - 1)) = rs.prod - 1 := by
  induction rs with
  | nil => rfl
  | cons r rest IH =>
    show (r - 1) * rest.prod + tupRank rest (rest.map (· - 1)) = (r :: rest).prod - 1
    rw [List.prod_cons, IH fun x hx => h x (by simp [hx])]
    have hr := h r (by simp)
    have hp : 1 ≤ rest.prod := prodPos fun x hx => h x (by simp [hx])
    have h1 : (r - 1) * rest.prod = r * rest.prod - rest.prod := Nat.sub_one_mul r rest.prod
    have h2 : rest.prod ≤ r * rest.prod := Nat.le_mul_of_pos_left _ (by omega)
    omega

theorem tupRank_succ {rs v w : List Nat} (hv : tupValid rs v)
    (h : tupSucc rs v = some w) : tupRank rs w = tupRank rs v + 1 := by
  induction hv generalizing w with
  | nil => simp [tupSucc] at h
  | @cons d r vs rss hdr htl IH =>
    unfold tupSucc at h
    cases hs : tupSucc rss vs with
    | some ds2 =>
      rw [hs] at h
      simp only [Option.some.injEq] at h
      rw [← h]
      show d * rss.prod + tupRank rss ds2 = d * rss.prod + tupRank rss vs + 1
      rw [IH hs]
      omega
    | none =>
      rw [hs] at h
      by_cases hd : d + 1 < r
      · rw [if_pos hd] at h
        simp only [Option.some.injEq] at h
        rw [← h]
        have hmax := tupSucc_none_eq_max htl hs
        have hpos : ∀ x ∈ rss, 1 ≤ x := tupValid_radix_pos htl
        show (d + 1) * rss.prod + tupRank rss (zerosOf rss)
          = d * rss.prod + tupRank rss vs + 1
        rw [tupRank_zeros, hmax, tupRank_max hpos]
        have hp : 1 ≤ rss.prod := prodPos hpos
        have : (d + 1) * rss.prod = d * rss.prod + rss.prod := by ring
        omega
      · rw [if_neg hd] at h; simp at h

theorem tupRank_inj {rs : List Nat} :
    ∀ {v w : List Nat}, tupValid rs v → tupValid rs w →
      tupRank rs v = tupRank rs w → v = w := by
  induction rs with
  | nil =>
    intro v w hv hw _
    cases hv; cases hw; rfl
  | cons r rest IH =>
    intro v w hv hw heq
    rcases List.forall₂_cons_right_iff.mp hv with ⟨d, vs, hdr, hvs, rfl⟩
    rcases List.forall₂_cons_right_iff.mp hw with ⟨e, ws, her, hws, rfl⟩
    have hrv := tupRank_lt_prod hvs
    have hrw := tupRank_lt_prod hws
    have heq' : d * rest.prod + tupRank rest vs = e * rest.prod + tupRank rest ws := heq
    have hde : d = e := by
      rcases Nat.lt_trichotomy d e with hlt | heq2 | hgt
      · exfalso
        have : (d + 1) * rest.prod ≤ e * rest.prod := Nat.mul_le_mul_right _ (by omega)
        have h2 : (d + 1) * rest.prod = d * rest.prod + rest.prod := by ring
        omega
      · exact heq2
      · exfalso
        have : (e + 1) * rest.prod ≤ d * rest.prod := Nat.mul_le_mul_right _ (by omega)
        have h2 : (e + 1) * rest.prod = e * rest.prod + rest.prod := by ring
        omega
    subst hde
    have : tupRank rest vs = tupRank rest ws := by omega
    rw [IH hvs hws this]

theorem succChain_mem {rs : List Nat} :
    ∀ (fuel : Nat) {v w : List Nat}, tupValid rs v → tupValid rs w →
      tupRank rs v ≤ tupRank rs w → tupRank rs w < tupRank rs v + fuel →
      w ∈ succChain rs fuel v := by
  intro fuel
  induction fuel with
  | zero => intro v w _ _ _ h2; omega
  | succ fuel IH =>
    intro v w hv hw h1 h2
    by_cases heq : tupRank rs v = tupRank rs w
    · have := tupRank_inj hv hw heq
      subst this
      show v ∈ v :: _
      exact List.mem_cons_self v _
    · cases hs : tupSucc rs v with
      | none =>
        exfalso
        have hmax := tupSucc_none_eq_max hv hs
        have : tupRank rs v = rs.prod - 1 := by
          rw [hmax]; exact tupRank_max (tupValid_radix_pos hv)
        have := tupRank_lt_prod hw
        omega
      | some u =>
        have hu := tupSucc_some_valid hv hs
        have hru := tupRank_succ hv hs
        have : w ∈ succChain rs fuel u := IH hu hw (by omega) (by omega)
        show w ∈ v :: _
        rw [List.mem_cons]
        right
        rw [show (match tupSucc rs v with
          | some w => succChain rs fuel w
          | none => []) = succChain rs fuel u by rw [hs]]
        exact this

theorem succChain_valid {rs : List Nat} :
    ∀ (fuel : Nat) {v x : List Nat}, tupValid rs v → x ∈ succChain rs fuel v →
      tupValid rs x := by
  intro fuel
  induction fuel with
  | zero => intro v x _ hx; simp [succChain] at hx
  | succ fuel IH =>
    intro v x hv hx
    rcases List.mem_cons.mp hx with rfl | hx
    · exact hv
    · cases hs : tupSucc rs v with
      | none => rw [hs] at hx; simp at hx
      | some u =>
        rw [hs] at hx
        exact IH (tupSucc_some_valid hv hs) hx

theorem dot_cons (d s : Nat) (v ss : List Nat) :
    dot (d :: v) (s :: ss) = d * s + dot v ss := by
  simp [dot]

theorem dot_zerosOf : ∀ (rs ss : List Nat), dot (zerosOf rs) ss = 0 := by
  intro rs
  induction rs with
  | nil => intro ss; rfl
  | cons r rest IH =>
    intro ss
    cases ss with
    | nil => rfl
    | cons s ss' =>
      show dot (0 :: zerosOf rest) (s :: ss') = 0
      rw [dot_cons, IH ss']
      omega

theorem dot_append {v s1 : List Nat} (h : v.length = s1.length) (w s2 : List Nat) :
    dot (v ++ w) (s1 ++ s2) = dot v s1 + dot w s2 := by
  unfold dot
  rw [List.zipWith_append _ _ _ _ _ h, List.sum_append]

theorem segIterCascade_noop (t : Tensor) :
    ∀ (c : Nat) (idxs : List Nat) (b : Nat),
      (∀ k, 1 ≤ k → k ≤ c → idxs.getD k 0 ≠ t.repeats.getD k 0) →
      segIterCascade t c idxs b = (idxs, b) := by
  intro c
  induction c with
  | zero => intro idxs b _; rfl
  | succ c IH =>
    intro idxs b h
    show segIterCascade t (c + 1) idxs b = _
    rw [segIterCascade, if_neg (h (c + 1) (by omega) (le_refl _))]
    exact IH idxs b fun k h1 h2 => h k h1 (by omega)

theorem carryResult_getElem (idxs : List Nat) (j c k : Nat) :
    (carryResult idxs j c)[k]? = (idxs[k]?).map fun x =>
      if k = j then x + 1 else if j < k ∧ k ≤ c then 0 else x := by
  simp [carryResult]

theorem getD_set_eq (l : List Nat) (i v : Nat) (h : i < l.length) :
    (l.set i v).getD i 0 = v := by
  rw [List.getD_eq_getElem?_getD, List.getElem?_set_self (by omega)]
  rfl

theorem getD_set_ne (l : List Nat) (i v k : Nat) (h : i ≠ k) :
    (l.set i v).getD k 0 = l.getD k 0 := by
  rw [List.getD_eq_getElem?_getD, List.getElem?_set_ne (by omega),
    ← List.getD_eq_getElem?_getD]

theorem segIterCascade_carry (t : Tensor) :
    ∀ (m c j : Nat) (idxs : List Nat) (b : Nat),
      c = j + m + 1 →
      c < idxs.length →
      idxs.getD c 0 = t.repeats.getD c 0 →
      (∀ k, j < k → k < c → idxs.getD k 0 + 1 = t.repeats.getD k 0) →
      segIterCascade t c idxs b =
        segIterCascade t j (carryResult idxs j c)
          (b + ∑ i ∈ Finset.Ico j c,
            (t.strides.getD i 0 - t.strides.getD (i + 1) 0 * t.repeats.getD (i + 1) 0)) := by
  intro m
  induction m with
  | zero =>
    intro c j idxs b hc hlen htop _
    subst hc
    rw [show j + 0 + 1 = j + 1 from rfl] at hlen htop ⊢
    rw [segIterCascade, if_pos htop]
    have hlist : (idxs.set j (idxs.getD j 0 + 1)).set (j + 1) 0
        = carryResult idxs j (j + 1) := by
      apply List.ext_getElem?
      intro k
      rw [carryResult_getElem, List.getElem?_set, List.getElem?_set]
      simp only [List.length_set]
      by_cases h1 : k = j
      · subst h1
        rw [if_neg (by omega), if_pos rfl, if_pos (by omega)]
        rw [List.getElem?_eq_getElem (by omega : k < idxs.length)]
        simp [List.getD_eq_getElem?_getD, List.getElem?_eq_getElem
          (by omega : k < idxs.length)]
      · by_cases h2 : k = j + 1
        · subst h2
          rw [if_pos rfl, if_pos (by omega)]
          rw [List.getElem?_eq_getElem (by omega : j + 1 < idxs.length)]
          simp [h1]
        · rw [if_neg (by omega), if_neg (by omega)]
          cases hk : idxs[k]? with
          | none => rfl
          | some x =>
            simp only [Option.map_some']
            rw [if_neg h1, if_neg (by omega)]
    rw [hlist]
    congr 1
    rw [Finset.sum_Ico_succ_top (le_refl j), Finset.Ico_self, Finset.sum_empty]
    omega
  | succ m IH =>
    intro c j idxs b hc hlen htop hmid
    subst hc
    rw [show j + (m + 1) + 1 = (j + m + 1) + 1 from rfl] at hlen htop ⊢
    rw [segIterCascade, if_pos htop]
    have hlen1 : j + m + 1 < ((idxs.set (j + m + 1) (idxs.getD (j + m + 1) 0 + 1)).set
        (j + m + 1 + 1) 0).length := by
      simp only [List.length_set]; omega
    have htop1 : ((idxs.set (j + m + 1) (idxs.getD (j + m + 1) 0 + 1)).set
        (j + m + 1 + 1) 0).getD (j + m + 1) 0 = t.repeats.getD (j + m + 1) 0 := by
      rw [getD_set_ne _ _ _ _ (by omega), getD_set_eq _ _ _ (by omega)]
      exact hmid (j + m + 1) (by omega) (by omega)
    have hmid1 : ∀ k, j < k → k < j + m + 1 →
        ((idxs.set (j + m + 1) (idxs.getD (j + m + 1) 0 + 1)).set
          (j + m + 1 + 1) 0).getD k 0 + 1 = t.repeats.getD k 0 := by
      intro k hk1 hk2
      rw [getD_set_ne _ _ _ _ (by omega), getD_set_ne _ _ _ _ (by omega)]
      exact hmid k hk1 (by omega)
    rw [IH (j + m + 1) j _ _ rfl hlen1 htop1 hmid1]
    have hlist : carryResult ((idxs.set (j + m + 1) (idxs.getD (j + m + 1) 0 + 1)).set
        (j + m + 1 + 1) 0) j (j + m + 1) = carryResult idxs j (j + m + 1 + 1) := by
      apply List.ext_getElem?
      intro k
      rw [carryResult_getElem, carryResult_getElem, List.getElem?_set, List.getElem?_set]
      simp only [List.length_set]
      by_cases h1 : k = j
      · subst h1
        rw [if_neg (by omega), if_neg (by omega)]
        cases idxs[k]? <;> simp
      · by_cases h2 : j < k ∧ k ≤ j + m + 1
        · rw [if_neg (by omega)]
          by_cases h3 : k = j + m + 1
          · subst h3
            rw [if_pos rfl, if_pos (by omega)]
            rw [List.getElem?_eq_getElem (by omega : j + m + 1 < idxs.length)]
            simp only [Option.map_some']
            rw [if_neg h1, if_pos h2, if_neg h1, if_pos (by omega)]
          · rw [if_neg (by omega)]
            cases hk : idxs[k]? with
            | none => rfl
            | some x =>
              simp only [Option.map_some']
              rw [if_neg h1, if_pos h2, if_neg h1, if_pos (by omega)]
        · by_cases h3 : k = j + m + 1 + 1
          · subst h3
            rw [if_pos rfl, if_pos (by omega)]
            rw [List.getElem?_eq_getElem (by omega : j + m + 1 + 1 < idxs.length)]
            simp only [Option.map_some']
            rw [if_neg h1, if_neg (by omega), if_neg h1, if_pos (by omega)]
          · rw [if_neg (by omega), if_neg (by omega)]
            cases hk : idxs[k]? with
            | none => rfl
            | some x =>
              simp only [Option.map_some']
              rw [if_neg h1, if_neg (by omega), if_neg h1, if_neg (by omega)]
    rw [hlist]
    congr 1
    rw [Finset.sum_Ico_succ_top (by omega : j ≤ j + m + 1)]
    omega

theorem getD_dropLast (l : List Nat) (i : Nat) (h : i < l.length - 1) :
    l.dropLast.getD i 0 = l.getD i 0 := by
  rw [List.getD_eq_getElem?_getD, List.getD_eq_getElem?_getD, List.getElem?_dropLast,
    if_pos h]

theorem getD_append_left (u w : List Nat) (i : Nat) (h : i < u.length) :
    (u ++ w).getD i 0 = u.getD i 0 := by
  rw [List.getD_eq_getElem?_getD, List.getD_eq_getElem?_getD, List.getElem?_append_left h]

theorem getD_append_right (u w : List Nat) (i : Nat) (h : u.length ≤ i) :
    (u ++ w).getD i 0 = w.getD (i - u.length) 0 := by
  rw [List.getD_eq_getElem?_getD, List.getD_eq_getElem?_getD, List.getElem?_append_right h]

theorem getD_map_sub1 (l : List Nat) (i : Nat) (h : i < l.length) :
    (l.map (· - 1)).getD i 0 = l.getD i 0 - 1 := by
  rw [List.getD_eq_getElem?_getD, List.getD_eq_getElem?_getD, List.getElem?_map,
    List.getElem?_eq_getElem h]
  rfl

theorem getD_drop (l : List Nat) (i j : Nat) : (l.drop i).getD j 0 = l.getD (i + j) 0 := by
  rw [List.getD_eq_getElem?_getD, List.getD_eq_getElem?_getD, List.getElem?_drop]

theorem tupValid_getD {rs v : List Nat} (h : tupValid rs v) (i : Nat)
    (hi : i < rs.length) : v.getD i 0 < rs.getD i 0 := by
  obtain ⟨hlen, hget⟩ := List.forall₂_iff_get.mp h
  have hv : i < v.length := by omega
  have := hget i hv hi
  rw [List.getD_eq_getElem?_getD, List.getD_eq_getElem?_getD,
    List.getElem?_eq_getElem hv, List.getElem?_eq_getElem hi]
  simpa using this

theorem dot_eq_sum : ∀ (a b : List Nat), a.length = b.length →
    dot a b = ∑ i ∈ Finset.range a.length, a.getD i 0 * b.getD i 0 := by
  intro a
  induction a with
  | nil => intro b _; simp [dot]
  | cons x xs IH =>
    intro b h
    cases b with
    | nil => simp at h
    | cons y ys =>
      rw [dot_cons, IH ys (by simpa using h), List.length_cons, Finset.sum_range_succ']
      simp [Nat.add_comm]

theorem stride_telescope (t : Tensor) (hn : t.normalized) (hn2 : 2 ≤ t.ndims) :
    ∀ (m j : Nat), j + m = t.ndims - 2 →
      (∑ i ∈ Finset.Ico (j + 1) (t.ndims - 1),
        (t.repeats.getD i 0 - 1) * t.strides.getD i 0)
        + t.repeats.getD (t.ndims - 1) 0
        + (∑ i ∈ Finset.Ico j (t.ndims - 1),
            (t.strides.getD i 0 - t.strides.getD (i + 1) 0 * t.repeats.getD (i + 1) 0))
      = t.strides.getD j 0 := by
  obtain ⟨hlen, hnd, hinner, hbound, hpos⟩ := hn
  intro m
  induction m with
  | zero =>
    intro j hj
    have hj' : j = t.ndims - 2 := by omega
    subst hj'
    have he1 : Finset.Ico (t.ndims - 2 + 1) (t.ndims - 1) = ∅ := by
      rw [Finset.Ico_eq_empty_iff]
      omega
    have he2 : Finset.Ico (t.ndims - 2) (t.ndims - 1) = {t.ndims - 2} := by
      have : t.ndims - 1 = (t.ndims - 2) + 1 := by omega
      rw [this]
      exact Nat.Ico_succ_singleton _
    rw [he1, he2, Finset.sum_empty, Finset.sum_singleton]
    have hidx : t.ndims - 2 + 1 = t.ndims - 1 := by omega
    rw [hidx, hinner]
    have hb := hbound (t.ndims - 2) (by omega)
    rw [hidx] at hb
    rw [hinner] at hb
    omega
  | succ m IH =>
    intro j hj
    have hIH := IH (j + 1) (by omega)
    have h1 : j + 1 < t.ndims - 1 := by omega
    have h2 : j < t.ndims - 1 := by omega
    rw [Finset.sum_eq_sum_Ico_succ_bot h1, Finset.sum_eq_sum_Ico_succ_bot h2]
    have hb := hbound j (by omega)
    have hposr : 1 ≤ t.repeats.getD (j + 1) 0 := hpos (j + 1) (by omega)
    have hsub : (t.repeats.getD (j + 1) 0 - 1) * t.strides.getD (j + 1) 0
        = t.repeats.getD (j + 1) 0 * t.strides.getD (j + 1) 0 - t.strides.getD (j + 1) 0 :=
      Nat.sub_one_mul _ _
    have hcomm : t.strides.getD (j + 1) 0 * t.repeats.getD (j + 1) 0
        = t.repeats.getD (j + 1) 0 * t.strides.getD (j + 1) 0 := Nat.mul_comm _ _
    have hle : t.strides.getD (j + 1) 0
        ≤ t.repeats.getD (j + 1) 0 * t.strides.getD (j + 1) 0 :=
      Nat.le_mul_of_pos_left _ (by omega)
    omega

theorem dot_carry_eq (t : Tensor) (hn : t.normalized)
    (rs1 : List Nat) (rj : Nat) (rs2 : List Nat) (u : List Nat) (d : Nat)
    (hrs : t.repeats.dropLast = rs1 ++ rj :: rs2)
    (hul : u.length = rs1.length) :
    dot (u ++ (d + 1) :: zerosOf rs2) t.strides.dropLast
      = dot (u ++ d :: rs2.map (· - 1)) t.strides.dropLast
        + t.repeats.getD (t.ndims - 1) 0
        + ∑ i ∈ Finset.Ico u.length (t.ndims - 1),
            (t.strides.getD i 0 - t.strides.getD (i + 1) 0 * t.repeats.getD (i + 1) 0) := by
  obtain ⟨hlen, hnd, hinner, hbound, hpos⟩ := hn
  have hosl : t.strides.dropLast.length = t.ndims - 1 := by
    simp [List.length_dropLast, Tensor.ndims]
  have horl : t.repeats.dropLast.length = t.ndims - 1 := by
    simp [List.length_dropLast, Tensor.ndims, hlen]
  have hnde : t.ndims = t.strides.length := rfl
  have hsplit : t.ndims - 1 = u.length + 1 + rs2.length := by
    have hl2 := congrArg List.length hrs
    rw [horl] at hl2
    simp [List.length_append] at hl2
    omega
  have hn2 : 2 ≤ t.ndims := by
    have : 1 ≤ t.ndims - 1 := by omega
    omega
  set os := t.strides.dropLast with hos
  set j := u.length with hj
  have hjlt : j < os.length := by omega
  have hosj : os.getD j 0 = t.strides.getD j 0 := getD_dropLast _ _ (by omega)
  -- split the stride vector at position j
  have htd : os = os.take j ++ os.drop j := (List.take_append_drop j os).symm
  have htl : (os.take j).length = j := by
    rw [List.length_take]
    omega
  have hdropc : os.drop j = os.getD j 0 :: os.drop (j + 1) := by
    rw [List.drop_eq_getElem_cons hjlt]
    congr 1
    rw [List.getD_eq_getElem?_getD, List.getElem?_eq_getElem hjlt]
    rfl
  have hdot : ∀ (x : Nat) (tail : List Nat), tail.length = rs2.length →
      dot (u ++ x :: tail) os
        = dot u (os.take j) + x * os.getD j 0 + dot tail (os.drop (j + 1)) := by
    intro x tail htail
    conv_lhs => rw [htd]
    rw [dot_append (by rw [htl]) _ _, hdropc, dot_cons]
    omega
  have hlz : (zerosOf rs2).length = rs2.length := by simp [zerosOf]
  have hlm : (rs2.map (· - 1)).length = rs2.length := by simp
  rw [hdot (d + 1) (zerosOf rs2) hlz, hdot d (rs2.map (· - 1)) hlm]
  rw [show dot (zerosOf rs2) (os.drop (j + 1)) = 0 from dot_zerosOf rs2 _]
  -- express the maximal-suffix dot product as an interval sum
  have hdl : (os.drop (j + 1)).length = rs2.length := by
    rw [List.length_drop]
    omega
  have hM : dot (rs2.map (· - 1)) (os.drop (j + 1))
      = ∑ i ∈ Finset.Ico (j + 1) (t.ndims - 1),
          (t.repeats.getD i 0 - 1) * t.strides.getD i 0 := by
    rw [dot_eq_sum _ _ (by rw [hlm, hdl]), hlm]
    rw [Finset.sum_Ico_eq_sum_range]
    have hcnt : t.ndims - 1 - (j + 1) = rs2.length := by omega
    rw [hcnt]
    apply Finset.sum_congr rfl
    intro i hi
    rw [Finset.mem_range] at hi
    have h1 : (rs2.map (· - 1)).getD i 0 = rs2.getD i 0 - 1 := getD_map_sub1 _ _ hi
    have h2 : (os.drop (j + 1)).getD i 0 = os.getD (j + 1 + i) 0 := getD_drop _ _ _
    have h3 : os.getD (j + 1 + i) 0 = t.strides.getD (j + 1 + i) 0 :=
      getD_dropLast _ _ (by omega)
    have h4 : t.repeats.getD (j + 1 + i) 0 = rs2.getD i 0 := by
      rw [← getD_dropLast t.repeats (j + 1 + i) (by omega), hrs,
        getD_append_right _ _ _ (by omega)]
      have : j + 1 + i - rs1.length = i + 1 := by omega
      rw [this]
      rfl
    rw [h1, h2, h3, h4, Nat.add_comm (j + 1) i]
  rw [hM]
  have htel := stride_telescope t ⟨hlen, hnd, hinner, hbound, hpos⟩ hn2 rs2.length j
    (by omega)
  rw [hosj]
  have hdistrib : (d + 1) * t.strides.getD j 0
      = d * t.strides.getD j 0 + t.strides.getD j 0 := by ring
  omega

theorem zerosOf_getElem (rs : List Nat) (i : Nat) (h : i < rs.length) :
    (zerosOf rs)[i]? = some 0 := by
  unfold zerosOf
  rw [List.getElem?_map, List.getElem?_eq_getElem h]
  rfl

theorem getD_mem (l : List Nat) (i : Nat) (h : i < l.length) : l.getD i 0 ∈ l := by
  rw [List.getD_eq_getElem?_getD, List.getElem?_eq_getElem h]
  exact List.getElem_mem h

theorem iterState_not_end (t : Tensor) (hn : t.normalized) {v : List Nat}
    (hv : tupValid t.repeats.dropLast v) :
    segIterIsEnd t (iterState t v) = false := by
  obtain ⟨hlen, hnd, hinner, hbound, hpos⟩ := hn
  have hnde : t.ndims = t.strides.length := rfl
  have hvl : v.length = t.ndims - 1 := by
    have h1 := tupValid_length hv
    rw [List.length_dropLast, hlen] at h1
    exact h1
  simp only [segIterIsEnd, iterState, decide_eq_false_iff_not, not_le]
  by_cases h1 : t.ndims = 1
  · have hv0 : v = [] := List.eq_nil_of_length_eq_zero (by omega)
    subst hv0
    have := hpos 0 (by omega)
    simpa using this
  · have h0 : 0 < v.length := by omega
    rw [getD_append_left _ _ _ h0]
    have h2 := tupValid_getD hv 0 (by rw [List.length_dropLast, hlen]; omega)
    rw [getD_dropLast _ _ (by rw [hlen]; omega)] at h2
    exact h2

theorem segIterNext_unfold (t : Tensor) {v : List Nat} (hvl : v.length = t.ndims - 1)
    (hnd : 1 ≤ t.ndims) :
    segIterNext t (iterState t v) =
      ⟨(segIterCascade t (t.ndims - 1) (v ++ [t.repeats.getD (t.ndims - 1) 0])
          (t.start_offset + dot v t.strides.dropLast
            + t.repeats.getD (t.ndims - 1) 0)).1,
       ⟨(segIterCascade t (t.ndims - 1) (v ++ [t.repeats.getD (t.ndims - 1) 0])
          (t.start_offset + dot v t.strides.dropLast
            + t.repeats.getD (t.ndims - 1) 0)).2,
        (segIterCascade t (t.ndims - 1) (v ++ [t.repeats.getD (t.ndims - 1) 0])
          (t.start_offset + dot v t.strides.dropLast
            + t.repeats.getD (t.ndims - 1) 0)).2
          + t.repeats.getD (t.ndims - 1) 0⟩⟩ := by
  unfold segIterNext iterState iterSeg
  have h1 : (v ++ [0]).getD (t.ndims - 1) 0 = 0 := by
    rw [getD_append_right _ _ _ (by omega), hvl]
    simp
  have h2 : (v ++ [0]).set (t.ndims - 1) (0 + t.repeats.getD (t.ndims - 1) 0)
      = v ++ [t.repeats.getD (t.ndims - 1) 0] := by
    rw [List.set_append, if_neg (by omega)]
    rw [hvl]
    simp
  simp only [h1, h2]

theorem segIterNext_state (t : Tensor) (hn : t.normalized) {v w : List Nat}
    (hv : tupValid t.repeats.dropLast v) (hs : tupSucc t.repeats.dropLast v = some w) :
    segIterNext t (iterState t v) = iterState t w := by
  have hn' := hn
  obtain ⟨hlen, hnd, hinner, hbound, hpos⟩ := hn
  have hnde : t.ndims = t.strides.length := rfl
  have hvl : v.length = t.ndims - 1 := by
    have h1 := tupValid_length hv
    rw [List.length_dropLast, hlen] at h1
    exact h1
  obtain ⟨rs1, rj, rs2, u, d, hrs, hvdef, hwdef, hdlt, hu⟩ := tupSucc_some_decomp hv hs
  have hul : u.length = rs1.length := tupValid_length hu
  have horl : t.repeats.dropLast.length = t.ndims - 1 := by
    rw [List.length_dropLast, hlen]
    rfl
  have hsplit : t.ndims - 1 = u.length + 1 + rs2.length := by
    have hl2 := congrArg List.length hrs
    rw [horl] at hl2
    simp [List.length_append] at hl2
    omega
  have hn2 : 2 ≤ t.ndims := by omega
  have hwl : w.length = t.ndims - 1 := by
    rw [hwdef]
    simp [zerosOf]
    omega
  have hrget : ∀ k, u.length < k → k < t.ndims - 1 →
      t.repeats.getD k 0 = rs2.getD (k - u.length - 1) 0 := by
    intro k hk1 hk2
    rw [← getD_dropLast t.repeats k (by rw [hlen]; exact hk2), hrs,
      getD_append_right _ _ _ (by omega)]
    have : k - rs1.length = (k - u.length - 1) + 1 := by omega
    rw [this]
    rfl
  have hrj : t.repeats.getD u.length 0 = rj := by
    rw [← getD_dropLast t.repeats u.length (by rw [hlen]; omega), hrs,
      getD_append_right _ _ _ (by omega)]
    have : u.length - rs1.length = 0 := by omega
    rw [this]
    rfl
  have hrpos : ∀ k, u.length < k → k < t.ndims - 1 → 1 ≤ rs2.getD (k - u.length - 1) 0 := by
    intro k hk1 hk2
    have hmem : rs2.getD (k - u.length - 1) 0 ∈ rs1 ++ rj :: rs2 :=
      List.mem_append_right _ (List.mem_cons_of_mem _ (getD_mem _ _ (by omega)))
    exact tupValid_radix_pos hv _ (hrs ▸ hmem)
  rw [segIterNext_unfold t hvl (by omega)]
  have hcasc := segIterCascade_carry t rs2.length (t.ndims - 1) u.length
    (v ++ [t.repeats.getD (t.ndims - 1) 0])
    (t.start_offset + dot v t.strides.dropLast + t.repeats.getD (t.ndims - 1) 0)
    (by omega) (by simp [hvl]) ?htop ?hmid
  case htop =>
    rw [getD_append_right _ _ _ (by omega), hvl, Nat.sub_self]
    rfl
  case hmid =>
    intro k hk1 hk2
    rw [getD_append_left _ _ _ (by omega), hvdef,
      getD_append_right _ _ _ (by omega)]
    have hks : k - u.length = (k - u.length - 1) + 1 := by omega
    rw [hks]
    show (rs2.map (· - 1)).getD (k - u.length - 1) 0 + 1 = _
    rw [getD_map_sub1 _ _ (by omega), hrget k hk1 hk2]
    have := hrpos k hk1 hk2
    omega
  rw [hcasc]
  have hcr : carryResult (v ++ [t.repeats.getD (t.ndims - 1) 0]) u.length (t.ndims - 1)
      = w ++ [0] := by
    apply List.ext_getElem?
    intro k
    rw [carryResult_getElem]
    by_cases hk1 : k < u.length
    · rw [List.getElem?_append_left (by omega), hvdef,
        List.getElem?_append_left (by omega),
        List.getElem?_append_left (show k < w.length by omega), hwdef,
        List.getElem?_append_left (by omega)]
      rw [List.getElem?_eq_getElem (by omega : k < u.length)]
      simp only [Option.map_some']
      rw [if_neg (by omega), if_neg (by omega)]
    · by_cases hk2 : k = u.length
      · rw [List.getElem?_append_left (by omega), hvdef,
          List.getElem?_append_right (by omega),
          List.getElem?_append_left (show k < w.length by omega), hwdef,
          List.getElem?_append_right (by omega)]
        rw [hk2, Nat.sub_self]
        simp
      · by_cases hk3 : k < t.ndims - 1
        · rw [List.getElem?_append_left (by omega), hvdef,
            List.getElem?_append_right (by omega),
            List.getElem?_append_left (show k < w.length by omega), hwdef,
            List.getElem?_append_right (by omega)]
          have hks : k - u.length = (k - u.length - 1) + 1 := by omega
          rw [hks, List.getElem?_cons_succ, List.getElem?_cons_succ]
          rw [zerosOf_getElem _ _ (by omega),
            List.getElem?_map,
            List.getElem?_eq_getElem (by omega : k - u.length - 1 < rs2.length)]
          simp only [Option.map_some']
          rw [if_neg (by omega), if_pos (by omega)]
        · by_cases hk4 : k = t.ndims - 1
          · rw [List.getElem?_append_right (by omega),
              List.getElem?_append_right (show w.length ≤ k by omega)]
            rw [hvl, hwl, hk4]
            simp only [Nat.sub_self, List.getElem?_cons_zero, Option.map_some']
            rw [if_neg (by omega), if_pos (by omega)]
          · rw [List.getElem?_eq_none (by simp [hvl]; omega),
              List.getElem?_eq_none (by simp [hwl]; omega)]
            rfl
  rw [hcr]
  have hnoop : segIterCascade t u.length (w ++ [0])
      (t.start_offset + dot v t.strides.dropLast + t.repeats.getD (t.ndims - 1) 0
        + ∑ i ∈ Finset.Ico u.length (t.ndims - 1),
            (t.strides.getD i 0 - t.strides.getD (i + 1) 0 * t.repeats.getD (i + 1) 0))
      = (w ++ [0], t.start_offset + dot v t.strides.dropLast
          + t.repeats.getD (t.ndims - 1) 0
        + ∑ i ∈ Finset.Ico u.length (t.ndims - 1),
            (t.strides.getD i 0 - t.strides.getD (i + 1) 0 * t.repeats.getD (i + 1) 0)) := by
    apply segIterCascade_noop
    intro k hk1 hk2
    rw [getD_append_left _ _ _ (by omega), hwdef]
    by_cases hkj : k < u.length
    · rw [getD_append_left _ _ _ (by omega)]
      have h1 := tupValid_getD hu k (by omega)
      have h2 : rs1.getD k 0 = t.repeats.getD k 0 := by
        rw [← getD_dropLast t.repeats k (by rw [hlen]; omega), hrs,
          getD_append_left _ _ _ (by omega)]
      omega
    · have hkj' : k = u.length := by omega
      rw [getD_append_right _ _ _ (by omega), hkj', Nat.sub_self]
      show d + 1 ≠ t.repeats.getD u.length 0
      rw [hrj]
      omega
  rw [hnoop]
  have hdot := dot_carry_eq t hn' rs1 rj rs2 u d hrs hul
  rw [← hvdef, ← hwdef] at hdot
  unfold iterState iterSeg
  have hB : t.start_offset + dot v t.strides.dropLast + t.repeats.getD (t.ndims - 1) 0
      + ∑ i ∈ Finset.Ico u.length (t.ndims - 1),
          (t.strides.getD i 0 - t.strides.getD (i + 1) 0 * t.repeats.getD (i + 1) 0)
      = t.start_offset + dot w t.strides.dropLast := by
    rw [hdot]
    ring
  rw [← hB]

theorem segIterNext_end (t : Tensor) (hn : t.normalized) {v : List Nat}
    (hv : tupValid t.repeats.dropLast v) (hs : tupSucc t.repeats.dropLast v = none) :
    segIterIsEnd t (segIterNext t (iterState t v)) = true := by
  obtain ⟨hlen, hnd, hinner, hbound, hpos⟩ := hn
  have hnde : t.ndims = t.strides.length := rfl
  have hvl : v.length = t.ndims - 1 := by
    have h1 := tupValid_length hv
    rw [List.length_dropLast, hlen] at h1
    exact h1
  have hmax := tupSucc_none_eq_max hv hs
  rw [segIterNext_unfold t hvl (by omega)]
  by_cases h1 : t.ndims = 1
  · have hv0 : v = [] := List.eq_nil_of_length_eq_zero (by omega)
    subst hv0
    rw [show t.ndims - 1 = 0 by omega]
    simp only [segIterCascade, segIterIsEnd]
    simp
  · have hn2 : 2 ≤ t.ndims := by omega
    have hcasc := segIterCascade_carry t (t.ndims - 2) (t.ndims - 1) 0
      (v ++ [t.repeats.getD (t.ndims - 1) 0])
      (t.start_offset + dot v t.strides.dropLast + t.repeats.getD (t.ndims - 1) 0)
      (by omega) (by simp [hvl]) ?htop ?hmid
    case htop =>
      rw [getD_append_right _ _ _ (by omega), hvl, Nat.sub_self]
      rfl
    case hmid =>
      intro k hk1 hk2
      rw [getD_append_left _ _ _ (by omega), hmax,
        getD_map_sub1 _ _ (by rw [List.length_dropLast, hlen]; omega),
        getD_dropLast _ _ (by rw [hlen]; omega)]
      have := hpos k (by omega)
      omega
    rw [hcasc]
    simp only [segIterCascade, segIterIsEnd]
    have h0 : (carryResult (v ++ [t.repeats.getD (t.ndims - 1) 0]) 0
        (t.ndims - 1)).getD 0 0 = v.getD 0 0 + 1 := by
      rw [List.getD_eq_getElem?_getD, carryResult_getElem,
        List.getElem?_append_left (by omega : 0 < v.length),
        List.getElem?_eq_getElem (by omega : 0 < v.length)]
      simp
      rw [List.getD_eq_getElem?_getD, List.getElem?_eq_getElem (by omega : 0 < v.length)]
      rfl
    simp only [ge_iff_le, decide_eq_true_eq]
    rw [h0]
    rw [hmax, getD_map_sub1 _ _ (by rw [List.length_dropLast, hlen]; omega),
      getD_dropLast _ _ (by rw [hlen]; omega)]
    have := hpos 0 (by omega)
    omega

theorem segIterCollect_chain (t : Tensor) (hn : t.normalized) :
    ∀ (fuel : Nat) (v : List Nat), tupValid t.repeats.dropLast v →
      segIterCollect t fuel (iterState t v)
        = (succChain t.repeats.dropLast fuel v).map (iterSeg t) := by
  intro fuel
  induction fuel with
  | zero => intro v _; rfl
  | succ fuel IH =>
    intro v hv
    rw [segIterCollect, if_neg (by rw [iterState_not_end t hn hv]; simp)]
    rw [succChain]
    cases hs : tupSucc t.repeats.dropLast v with
    | some w =>
      rw [segIterNext_state t hn hv hs, IH w (tupSucc_some_valid hv hs)]
      rfl
    | none =>
      cases fuel with
      | zero => rfl
      | succ fuel =>
        rw [segIterCollect, if_pos (segIterNext_end t hn hv hs)]
        rfl

theorem contiguousSegs_eq (t : Tensor) (hn : t.normalized) :
    contiguousSegs t
      = (succChain t.repeats.dropLast t.repeats.prod
          (zerosOf t.repeats.dropLast)).map (iterSeg t) := by
  have hn' := hn
  obtain ⟨hlen, hnd, hinner, hbound, hpos⟩ := hn
  have hinit : segIterInit t = iterState t (zerosOf t.repeats.dropLast) := by
    unfold segIterInit iterState iterSeg
    have h1 : zerosOf t.repeats.dropLast ++ [0] = List.replicate t.ndims 0 := by
      have h2 : zerosOf t.repeats.dropLast
          = List.replicate (t.ndims - 1) 0 := by
        unfold zerosOf
        rw [List.map_const', List.length_dropLast, hlen]
        rfl
      rw [h2, ← List.replicate_succ' (t.ndims - 1) 0]
      congr 1
      omega
    rw [h1, dot_zerosOf]
    simp
  unfold contiguousSegs
  rw [hinit]
  refine segIterCollect_chain t hn' t.repeats.prod _ (zerosOf_valid ?_)
  intro r hr
  obtain ⟨i, hi, hget⟩ := List.mem_iff_getElem.mp hr
  have hi' : i < t.repeats.length - 1 := by
    simpa [List.length_dropLast] using hi
  have hgd : t.repeats.dropLast.getD i 0 = r := by
    rw [List.getD_eq_getElem?_getD, List.getElem?_eq_getElem hi, hget]
    rfl
  rw [← hgd, getD_dropLast _ _ hi']
  exact hpos i (by rw [Tensor.ndims, ← hlen]; omega)

theorem succChain_head (rs : List Nat) (fuel : Nat) (v : List Nat) :
    (succChain rs (fuel + 1) v).head? = some v := rfl

theorem succChain_chain_rel {rs : List Nat} (P : List Nat → List Nat → Prop)
    (hP : ∀ v w, tupValid rs v → tupSucc rs v = some w → P v w) :
    ∀ (fuel : Nat) (v : List Nat), tupValid rs v →
      List.Chain' P (succChain rs fuel v) := by
  intro fuel
  induction fuel with
  | zero => intro v _; exact List.chain'_nil
  | succ fuel IH =>
    intro v hv
    rw [succChain]
    cases hs : tupSucc rs v with
    | none => simp
    | some w =>
      rw [List.chain'_cons']
      constructor
      · intro b hb
        cases fuel with
        | zero => simp [succChain] at hb
        | succ fuel =>
          rw [succChain_head] at hb
          have hb' : w = b := by simpa using hb
          exact hb' ▸ hP v w hv hs
      · exact IH w (tupSucc_some_valid hv hs)

theorem iterSeg_step_le (t : Tensor) (hn : t.normalized) {v w : List Nat}
    (hv : tupValid t.repeats.dropLast v) (hs : tupSucc t.repeats.dropLast v = some w) :
    (iterSeg t v).seg_end ≤ (iterSeg t w).seg_begin := by
  obtain ⟨rs1, rj, rs2, u, d, hrs, hvdef, hwdef, hdlt, hu⟩ := tupSucc_some_decomp hv hs
  have hul : u.length = rs1.length := tupValid_length hu
  have hdot := dot_carry_eq t hn rs1 rj rs2 u d hrs hul
  rw [← hvdef, ← hwdef] at hdot
  show t.start_offset + dot v t.strides.dropLast + t.repeats.getD (t.ndims - 1) 0
      ≤ t.start_offset + dot w t.strides.dropLast
  omega

theorem repeats_mem_pos (t : Tensor) (hn : t.normalized) : ∀ r ∈ t.repeats, 1 ≤ r := by
  obtain ⟨hlen, hnd, hinner, hbound, hpos⟩ := hn
  intro r hr
  obtain ⟨i, hi, hget⟩ := List.mem_iff_getElem.mp hr
  have hgd : t.repeats.getD i 0 = r := by
    rw [List.getD_eq_getElem?_getD, List.getElem?_eq_getElem hi, hget]
    rfl
  rw [← hgd]
  exact hpos i (by rw [Tensor.ndims, ← hlen]; exact hi)

theorem repeats_dropLast_pos (t : Tensor) (hn : t.normalized) :
    ∀ r ∈ t.repeats.dropLast, 1 ≤ r :=
  fun r hr => repeats_mem_pos t hn r (List.dropLast_subset _ hr)

theorem contiguousSegs_chain (t : Tensor) (hn : t.normalized) :
    List.Chain' (fun x y => x.seg_end ≤ y.seg_begin) (contiguousSegs t) := by
  rw [contiguousSegs_eq t hn, List.chain'_map]
  exact succChain_chain_rel _ (fun v w hv hs => iterSeg_step_le t hn hv hs)
    t.repeats.prod _ (zerosOf_valid (repeats_dropLast_pos t hn))

theorem dropLast_prod_le (t : Tensor) (hn : t.normalized) :
    t.repeats.dropLast.prod ≤ t.repeats.prod := by
  have hlr : t.repeats.length = t.ndims := hn.1
  have hne : t.repeats ≠ [] := List.length_pos.mp (by rw [hlr]; exact hn.2.1)
  conv_rhs => rw [← List.dropLast_append_getLast hne]
  rw [List.prod_append, List.prod_cons, List.prod_nil]
  have h1 : 1 ≤ t.repeats.getLast hne :=
    repeats_mem_pos t hn _ (List.getLast_mem hne)
  calc t.repeats.dropLast.prod = t.repeats.dropLast.prod * 1 := by ring
    _ ≤ t.repeats.dropLast.prod * (t.repeats.getLast hne * 1) :=
        Nat.mul_le_mul_left _ (by omega)

theorem mem_contiguousSegs (t : Tensor) (hn : t.normalized) (s : Segment) :
    s ∈ contiguousSegs t ↔
      ∃ v, tupValid t.repeats.dropLast v ∧ s = iterSeg t v := by
  rw [contiguousSegs_eq t hn, List.mem_map]
  constructor
  · rintro ⟨v, hv, rfl⟩
    exact ⟨v, succChain_valid _ (zerosOf_valid (repeats_dropLast_pos t hn)) hv, rfl⟩
  · rintro ⟨v, hv, rfl⟩
    refine ⟨v, ?_, rfl⟩
    apply succChain_mem _ (zerosOf_valid (repeats_dropLast_pos t hn)) hv
    · rw [tupRank_zeros]
      omega
    · rw [tupRank_zeros]
      have h1 := tupRank_lt_prod hv
      have h2 := dropLast_prod_le t hn
      omega

theorem mem_offsetsList_iff :
    ∀ (l : List (Nat × Nat)) (start o : Nat),
      o ∈ offsetsList start l ↔
        ∃ v, List.Forall₂ (fun d r => d < r) v (l.map Prod.snd) ∧
          o = start + dot v (l.map Prod.fst) := by
  intro l
  induction l with
  | nil =>
    intro start o
    simp only [offsetsList, List.mem_singleton, List.map_nil]
    constructor
    · rintro rfl
      exact ⟨[], List.Forall₂.nil, by simp [dot]⟩
    · rintro ⟨v, hv, rfl⟩
      cases hv
      simp [dot]
  | cons pr rest IH =>
    intro start o
    obtain ⟨s, r⟩ := pr
    simp only [offsetsList, List.mem_flatMap, List.mem_range, List.map_cons]
    constructor
    · rintro ⟨k, hk, ho⟩
      obtain ⟨v, hv, rfl⟩ := (IH _ _).mp ho
      exact ⟨k :: v, List.Forall₂.cons hk hv, by rw [dot_cons]; ring⟩
    · rintro ⟨v, hv, rfl⟩
      rcases List.forall₂_cons_right_iff.mp hv with ⟨k, vs, hk, hvs, rfl⟩
      refine ⟨k, hk, ?_⟩
      exact (IH _ _).mpr ⟨vs, hvs, by rw [dot_cons]; ring⟩

theorem elemOffsets_iff (t : Tensor) (hlen : t.repeats.length = t.strides.length)
    (o : Nat) :
    o ∈ t.elemOffsets ↔ ∃ v, tupValid t.repeats v ∧
      o = t.start_offset + dot v t.strides := by
  unfold Tensor.elemOffsets
  rw [mem_offsetsList_iff]
  rw [List.map_fst_zip _ _ hlen.ge, List.map_snd_zip _ _ hlen.le]
  exact Iff.rfl

theorem tupValid_snoc {r : Nat} :
    ∀ {rs v : List Nat}, (tupValid (rs ++ [r]) v ↔
      ∃ u j, v = u ++ [j] ∧ tupValid rs u ∧ j < r) := by
  intro rs
  induction rs with
  | nil =>
    intro v
    constructor
    · intro h
      rcases List.forall₂_cons_right_iff.mp h with ⟨j, vs, hj, hvs, rfl⟩
      cases hvs
      exact ⟨[], j, rfl, List.Forall₂.nil, hj⟩
    · rintro ⟨u, j, rfl, hu, hj⟩
      cases hu
      exact List.Forall₂.cons hj List.Forall₂.nil
  | cons r0 rs IH =>
    intro v
    constructor
    · intro h
      rcases List.forall₂_cons_right_iff.mp h with ⟨d, vs, hd, hvs, rfl⟩
      obtain ⟨u, j, rfl, hu, hj⟩ := IH.mp hvs
      exact ⟨d :: u, j, rfl, List.Forall₂.cons hd hu, hj⟩
    · rintro ⟨u, j, rfl, hu, hj⟩
      rcases List.forall₂_cons_right_iff.mp hu with ⟨d, us, hd, hus, rfl⟩
      exact List.Forall₂.cons hd (IH.mpr ⟨us, j, rfl, hus, hj⟩)

theorem strides_split (t : Tensor) (hn : t.normalized) :
    t.strides = t.strides.dropLast ++ [1] := by
  obtain ⟨hlen, hnd, hinner, hbound, hpos⟩ := hn
  have hnde : t.ndims = t.strides.length := rfl
  have hne : t.strides ≠ [] := List.length_pos.mp (by omega)
  have hgl : t.strides.getLast hne = 1 := by
    have h2 : t.strides.getD (t.strides.length - 1) 0 = t.strides.getLast hne := by
      rw [List.getLast_eq_getElem, List.getD_eq_getElem?_getD,
        List.getElem?_eq_getElem (by omega)]
      rfl
    rw [← h2]
    exact hinner
  calc t.strides = t.strides.dropLast ++ [t.strides.getLast hne] :=
        (List.dropLast_append_getLast hne).symm
    _ = t.strides.dropLast ++ [1] := by rw [hgl]

theorem elemOffsets_iff_seg (t : Tensor) (hn : t.normalized) (o : Nat) :
    o ∈ t.elemOffsets ↔ ∃ v, tupValid t.repeats.dropLast v ∧
      (iterSeg t v).seg_begin ≤ o ∧ o < (iterSeg t v).seg_end := by
  have hn' := hn
  obtain ⟨hlen, hnd, hinner, hbound, hpos⟩ := hn
  have hnde : t.ndims = t.strides.length := rfl
  have hrl : 0 < t.repeats.length := by omega
  have hrne : t.repeats ≠ [] := List.length_pos.mp hrl
  have hrsplit : t.repeats
      = t.repeats.dropLast ++ [t.repeats.getD (t.ndims - 1) 0] := by
    have h2r : t.repeats.getD (t.repeats.length - 1) 0 = t.repeats.getLast hrne := by
      rw [List.getLast_eq_getElem, List.getD_eq_getElem?_getD,
        List.getElem?_eq_getElem (by omega)]
      rfl
    have hidx : t.repeats.length - 1 = t.ndims - 1 := by omega
    calc t.repeats = t.repeats.dropLast ++ [t.repeats.getLast hrne] :=
          (List.dropLast_append_getLast hrne).symm
      _ = t.repeats.dropLast ++ [t.repeats.getD (t.ndims - 1) 0] := by
          rw [← h2r, hidx]
  rw [elemOffsets_iff t hlen]
  constructor
  · rintro ⟨w, hw, rfl⟩
    rw [hrsplit] at hw
    obtain ⟨u, j, rfl, hu, hj⟩ := tupValid_snoc.mp hw
    have hul : u.length = t.strides.dropLast.length := by
      have h1 := tupValid_length hu
      rw [List.length_dropLast] at h1
      rw [List.length_dropLast]
      omega
    have hdot : dot (u ++ [j]) t.strides
        = dot u t.strides.dropLast + j := by
      conv_lhs => rw [strides_split t hn']
      rw [dot_append hul]
      have hj1 : dot [j] [1] = j := by simp [dot]
      omega
    refine ⟨u, hu, ?_, ?_⟩
    · show t.start_offset + dot u t.strides.dropLast
        ≤ t.start_offset + dot (u ++ [j]) t.strides
      omega
    · show t.start_offset + dot (u ++ [j]) t.strides
        < t.start_offset + dot u t.strides.dropLast + t.repeats.getD (t.ndims - 1) 0
      omega
  · rintro ⟨u, hu, h1, h2⟩
    have hb1 : t.start_offset + dot u t.strides.dropLast ≤ o := h1
    have hb2 : o < t.start_offset + dot u t.strides.dropLast
        + t.repeats.getD (t.ndims - 1) 0 := h2
    have hul : u.length = t.strides.dropLast.length := by
      have h3 := tupValid_length hu
      rw [List.length_dropLast] at h3
      rw [List.length_dropLast]
      omega
    refine ⟨u ++ [o - (t.start_offset + dot u t.strides.dropLast)], ?_, ?_⟩
    · rw [hrsplit]
      exact tupValid_snoc.mpr ⟨u, _, rfl, hu, by omega⟩
    · have hdot : dot (u ++ [o - (t.start_offset + dot u t.strides.dropLast)]) t.strides
          = dot u t.strides.dropLast
            + (o - (t.start_offset + dot u t.strides.dropLast)) := by
        conv_lhs => rw [strides_split t hn']
        rw [dot_append hul]
        simp [dot]
      omega

theorem chain_head_le :
    ∀ (b : Segment) (bs : List Segment),
      (∀ s ∈ b :: bs, s.seg_begin < s.seg_end) →
      List.Chain' (fun x y => x.seg_end ≤ y.seg_begin) (b :: bs) →
      ∀ y ∈ b :: bs, b.seg_begin ≤ y.seg_begin := by
  intro b bs
  induction bs generalizing b with
  | nil =>
    intro _ _ y hy
    rcases List.mem_singleton.mp hy with rfl
    exact le_refl _
  | cons b2 bs IH =>
    intro hne hc y hy
    rcases List.mem_cons.mp hy with rfl | hy2
    · exact le_refl _
    · have hcc := List.chain'_cons.mp hc
      have h1 : b.seg_begin < b.seg_end := hne b (List.mem_cons_self _ _)
      have h2 := IH b2 (fun s hs => hne s (List.mem_cons_of_mem _ hs)) hcc.2 y hy2
      omega

theorem twoPointer_iff :
    ∀ (as bs : List Segment),
      (∀ s ∈ as, s.seg_begin < s.seg_end) →
      (∀ s ∈ bs, s.seg_begin < s.seg_end) →
      List.Chain' (fun x y => x.seg_end ≤ y.seg_begin) as →
      List.Chain' (fun x y => x.seg_end ≤ y.seg_begin) bs →
      (twoPointer as bs = true ↔
        ∃ a ∈ as, ∃ b ∈ bs, a.seg_begin < b.seg_end ∧ b.seg_begin < a.seg_end) := by
  intro as
  induction as with
  | nil =>
    intro bs _ _ _ _
    simp [twoPointer]
  | cons a as IHa =>
    intro bs
    induction bs with
    | nil =>
      intro _ _ _ _
      rw [twoPointer]
      simp
    | cons b bs IHb =>
      intro hne1 hne2 hc1 hc2
      rw [twoPointer]
      by_cases h1 : a.seg_end ≤ b.seg_begin
      · rw [if_pos h1]
        rw [IHa (b :: bs) (fun s hs => hne1 s (List.mem_cons_of_mem _ hs)) hne2
          (List.chain'_cons'.mp hc1).2 hc2]
        constructor
        · rintro ⟨x, hx, y, hy, hxy⟩
          exact ⟨x, List.mem_cons_of_mem _ hx, y, hy, hxy⟩
        · rintro ⟨x, hx, y, hy, hxy1, hxy2⟩
          rcases List.mem_cons.mp hx with rfl | hx2
          · exfalso
            have := chain_head_le b bs hne2 hc2 y hy
            omega
          · exact ⟨x, hx2, y, hy, hxy1, hxy2⟩
      · rw [if_neg h1]
        by_cases h2 : b.seg_end ≤ a.seg_begin
        · rw [if_pos h2]
          rw [IHb hne1 (fun s hs => hne2 s (List.mem_cons_of_mem _ hs))
            hc1 (List.chain'_cons'.mp hc2).2]
          constructor
          · rintro ⟨x, hx, y, hy, hxy⟩
            exact ⟨x, hx, y, List.mem_cons_of_mem _ hy, hxy⟩
          · rintro ⟨x, hx, y, hy, hxy1, hxy2⟩
            rcases List.mem_cons.mp hy with rfl | hy2
            · exfalso
              have := chain_head_le a as hne1 hc1 x hx
              omega
            · exact ⟨x, hx, y, hy2, hxy1, hxy2⟩
        · rw [if_neg h2]
          constructor
          · intro _
            exact ⟨a, List.mem_cons_self _ _, b, List.mem_cons_self _ _,
              by omega, by omega⟩
          · intro _
            rfl

theorem get_element_size_pos (dt : DataType) : 0 < get_element_size dt := by
  cases dt <;> decide

theorem byte_mem_scaled (es b e x : Nat) (hes : 0 < es) :
    (b * es ≤ x ∧ x < e * es) ↔
      ∃ o, b ≤ o ∧ o < e ∧ ∃ k, k < es ∧ x = o * es + k := by
  constructor
  · rintro ⟨h1, h2⟩
    refine ⟨x / es, ?_, ?_, x % es, Nat.mod_lt _ hes, ?_⟩
    · rw [Nat.le_div_iff_mul_le hes]
      exact h1
    · rw [Nat.div_lt_iff_lt_mul hes]
      exact h2
    · have h3 := Nat.div_add_mod x es
      have h4 : es * (x / es) = (x / es) * es := Nat.mul_comm _ _
      omega
  · rintro ⟨o, ho1, ho2, k, hk, rfl⟩
    constructor
    · calc b * es ≤ o * es := Nat.mul_le_mul_right _ ho1
        _ ≤ o * es + k := Nat.le_add_right _ _
    · calc o * es + k < o * es + es := by omega
        _ = (o + 1) * es := by ring
        _ ≤ e * es := Nat.mul_le_mul_right _ (by omega)

theorem seg_stream_nonempty (t : Tensor) (hn : t.normalized) :
    ∀ s ∈ (contiguousSegs t).map (scaleSeg (get_element_size t.dtype)),
      s.seg_begin < s.seg_end := by
  intro s hs
  rw [List.mem_map] at hs
  obtain ⟨s0, hs0, rfl⟩ := hs
  obtain ⟨v, hv, rfl⟩ := (mem_contiguousSegs t hn s0).mp hs0
  obtain ⟨hlen, hnd, hinner, hbound, hpos⟩ := hn
  have h1 := hpos (t.ndims - 1) (by omega)
  have h2 := get_element_size_pos t.dtype
  show (t.start_offset + dot v t.strides.dropLast) * get_element_size t.dtype
      < (t.start_offset + dot v t.strides.dropLast + t.repeats.getD (t.ndims - 1) 0)
        * get_element_size t.dtype
  exact Nat.mul_lt_mul_of_pos_right (by omega) h2

theorem seg_stream_chain (t : Tensor) (hn : t.normalized) :
    List.Chain' (fun x y => x.seg_end ≤ y.seg_begin)
      ((contiguousSegs t).map (scaleSeg (get_element_size t.dtype))) := by
  rw [List.chain'_map]
  apply List.Chain'.imp ?_ (contiguousSegs_chain t hn)
  intro x y h
  show x.seg_end * get_element_size t.dtype ≤ y.seg_begin * get_element_size t.dtype
  exact Nat.mul_le_mul_right _ h

theorem inBytes_iff_seg (t : Tensor) (hn : t.normalized) (x : Nat) :
    inBytes t x ↔
      ∃ s ∈ (contiguousSegs t).map (scaleSeg (get_element_size t.dtype)),
        s.seg_begin ≤ x ∧ x < s.seg_end := by
  unfold inBytes
  constructor
  · rintro ⟨o, ho, k, hk, rfl⟩
    obtain ⟨v, hv, h1, h2⟩ := (elemOffsets_iff_seg t hn o).mp ho
    refine ⟨scaleSeg (get_element_size t.dtype) (iterSeg t v),
      List.mem_map_of_mem _ ((mem_contiguousSegs t hn _).mpr ⟨v, hv, rfl⟩), ?_, ?_⟩
    · show (iterSeg t v).seg_begin * get_element_size t.dtype
        ≤ o * get_element_size t.dtype + k
      have := Nat.mul_le_mul_right (get_element_size t.dtype) h1
      omega
    · show o * get_element_size t.dtype + k
        < (iterSeg t v).seg_end * get_element_size t.dtype
      have h3 : o + 1 ≤ (iterSeg t v).seg_end := h2
      have h4 := Nat.mul_le_mul_right (get_element_size t.dtype) h3
      have h5 : (o + 1) * get_element_size t.dtype
          = o * get_element_size t.dtype + get_element_size t.dtype := by ring
      omega
  · rintro ⟨s, hs, hx1, hx2⟩
    rw [List.mem_map] at hs
    obtain ⟨s0, hs0, rfl⟩ := hs
    obtain ⟨v, hv, rfl⟩ := (mem_contiguousSegs t hn s0).mp hs0
    have hes := get_element_size_pos t.dtype
    have hbm := (byte_mem_scaled (get_element_size t.dtype) (iterSeg t v).seg_begin
      (iterSeg t v).seg_end x hes).mp ⟨hx1, hx2⟩
    obtain ⟨o, ho1, ho2, k, hk, rfl⟩ := hbm
    exact ⟨o, (elemOffsets_iff_seg t hn o).mpr ⟨v, hv, ho1, ho2⟩, k, hk, rfl⟩

/-- C2: for normalized descriptors `R` (= `t`) and `P` (= `p`),
`complex_overlap` returns `true` exactly when the reachable byte sets of the
two descriptors intersect; moreover each descriptor's
`ContiguousMemSegIterator` stream (`contiguousSegs`) is pairwise disjoint and
in ascending order, so the two-pointer walk is sound and complete. -/
theorem c2_complex_overlap_iff (t p : Tensor) (hnt : t.normalized) (hnp : p.normalized) :
    (t.complex_overlap p = true ↔ ∃ x, inBytes t x ∧ inBytes p x) ∧
    List.Chain' (fun x y => x.seg_end ≤ y.seg_begin) (contiguousSegs t) ∧
    List.Chain' (fun x y => x.seg_end ≤ y.seg_begin) (contiguousSegs p) := by
  refine ⟨?_, contiguousSegs_chain t hnt, contiguousSegs_chain p hnp⟩
  unfold Tensor.complex_overlap
  rw [twoPointer_iff _ _ (seg_stream_nonempty t hnt) (seg_stream_nonempty p hnp)
    (seg_stream_chain t hnt) (seg_stream_chain p hnp)]
  constructor
  · rintro ⟨a, ha, b, hb, hab1, hab2⟩
    have hane := seg_stream_nonempty t hnt a ha
    have hbne := seg_stream_nonempty p hnp b hb
    rcases Nat.le_total a.seg_begin b.seg_begin with hle | hle
    · exact ⟨b.seg_begin,
        (inBytes_iff_seg t hnt _).mpr ⟨a, ha, hle, hab2⟩,
        (inBytes_iff_seg p hnp _).mpr ⟨b, hb, le_refl _, hbne⟩⟩
    · exact ⟨a.seg_begin,
        (inBytes_iff_seg t hnt _).mpr ⟨a, ha, le_refl _, hane⟩,
        (inBytes_iff_seg p hnp _).mpr ⟨b, hb, hle, hab1⟩⟩
  · rintro ⟨x, hxt, hxp⟩
    obtain ⟨a, ha, ha1, ha2⟩ := (inBytes_iff_seg t hnt x).mp hxt
    obtain ⟨b, hb, hb1, hb2⟩ := (inBytes_iff_seg p hnp x).mp hxp
    exact ⟨a, ha, b, hb, by omega, by omega⟩

/-- C2 witness: the S5 pair is normalized; `complex_overlap` on it decides
byte-set intersection and both segment streams are disjoint ascending. -/
theorem c2_witness :
    s5A.normalized ∧ s5B.normalized ∧
    ((s5A.complex_overlap s5B = true ↔ ∃ x, inBytes s5A x ∧ inBytes s5B x) ∧
     List.Chain' (fun x y => x.seg_end ≤ y.seg_begin) (contiguousSegs s5A) ∧
     List.Chain' (fun x y => x.seg_end ≤ y.seg_begin) (contiguousSegs s5B)) :=
  ⟨by decide, by decide, c2_complex_overlap_iff s5A s5B (by decide) (by decide)⟩

theorem offsetToNdimsAux_dot : ∀ (ss : List Nat) (c : Nat),
    dot (offsetToNdimsAux c ss) ss + auxRem c ss = c := by
  intro ss
  induction ss with
  | nil => intro c; simp [offsetToNdimsAux, auxRem, dot]
  | cons s rest IH =>
    intro c
    show dot (c / s :: offsetToNdimsAux (c % s) rest) (s :: rest)
        + auxRem (c % s) rest = c
    rw [dot_cons]
    have h1 := IH (c % s)
    have h2 := Nat.div_add_mod c s
    have h3 : c / s * s = s * (c / s) := Nat.mul_comm _ _
    omega

theorem auxRem_last_one : ∀ (ss : List Nat) (c : Nat), auxRem c (ss ++ [1]) = 0 := by
  intro ss
  induction ss with
  | nil => intro c; simp [auxRem, Nat.mod_one]
  | cons s rest IH =>
    intro c
    show auxRem (c % s) (rest ++ [1]) = 0
    exact IH _

theorem offsetToNdimsAux_length : ∀ (ss : List Nat) (c : Nat),
    (offsetToNdimsAux c ss).length = ss.length := by
  intro ss
  induction ss with
  | nil => intro c; rfl
  | cons s rest IH =>
    intro c
    show (c / s :: offsetToNdimsAux (c % s) rest).length = (s :: rest).length
    simp [IH]

theorem offset_to_ndims_dot (t : Tensor) (hn : t.normalized) :
    dot t.offset_to_ndims t.strides = t.start_offset := by
  have h1 := offsetToNdimsAux_dot t.strides t.start_offset
  have h2 : auxRem t.start_offset t.strides = 0 := by
    conv_lhs => rw [strides_split t hn]
    exact auxRem_last_one _ _
  unfold Tensor.offset_to_ndims
  omega

theorem offset_to_ndims_length (t : Tensor) :
    t.offset_to_ndims.length = t.strides.length :=
  offsetToNdimsAux_length _ _

theorem getD_zipWith (f : Nat → Nat → Nat) :
    ∀ (a b : List Nat) (k : Nat), k < a.length → k < b.length →
      (List.zipWith f a b).getD k 0 = f (a.getD k 0) (b.getD k 0) := by
  intro a
  induction a with
  | nil => intro b k h _; simp at h
  | cons x xs IH =>
    intro b k h1 h2
    cases b with
    | nil => simp at h2
    | cons y ys =>
      cases k with
      | zero => rfl
      | succ k =>
        rw [List.zipWith_cons_cons, List.getD_cons_succ, List.getD_cons_succ,
          List.getD_cons_succ]
        exact IH ys k (by simpa using h1) (by simpa using h2)

theorem dot_zipWith_add : ∀ (a b s : List Nat), a.length = s.length →
    b.length = s.length →
    dot (List.zipWith (· + ·) a b) s = dot a s + dot b s := by
  intro a
  induction a with
  | nil =>
    intro b s h1 _
    have : s = [] := List.eq_nil_of_length_eq_zero h1.symm
    subst this
    simp [dot]
  | cons x xs IH =>
    intro b s h1 h2
    cases s with
    | nil => simp at h1
    | cons s0 ss =>
      cases b with
      | nil => simp at h2
      | cons y ys =>
        rw [List.zipWith_cons_cons, dot_cons, dot_cons, dot_cons,
          IH ys ss (by simpa using h1) (by simpa using h2)]
        ring

theorem tupValid_of_getD {rs v : List Nat} (hl : v.length = rs.length)
    (h : ∀ i < rs.length, v.getD i 0 < rs.getD i 0) : tupValid rs v := by
  rw [tupValid, List.forall₂_iff_get]
  refine ⟨hl, fun i h1 h2 => ?_⟩
  have h3 := h i h2
  rw [List.getD_eq_getElem?_getD, List.getD_eq_getElem?_getD,
    List.getElem?_eq_getElem h1, List.getElem?_eq_getElem h2] at h3
  simpa using h3

theorem dot_lt_head :
    ∀ (ss : List Nat) (a : List Nat) (s0 : Nat),
      a.length = ss.length →
      (s0 :: ss).getLast? = some 1 →
      (∀ k < ss.length, (a.getD k 0 + 1) * ss.getD k 0 ≤ (s0 :: ss).getD k 0) →
      dot a ss < s0 := by
  intro ss
  induction ss with
  | nil =>
    intro a s0 hlen hlast _
    have ha : a = [] := List.eq_nil_of_length_eq_zero hlen
    subst ha
    have hs : s0 = 1 := by simpa using hlast
    simp [dot, hs]
  | cons s1 rest IH =>
    intro a s0 hlen hlast hbnd
    rcases a with _ | ⟨a1, as⟩
    · simp at hlen
    rw [dot_cons]
    have h1 : (a1 + 1) * s1 ≤ s0 := by
      have := hbnd 0 (by simp)
      simpa using this
    have h2 : dot as rest < s1 := by
      refine IH as s1 (by simpa using hlen) ?_ ?_
      · rw [← hlast, List.getLast?_cons_cons]
      · intro k hk
        have := hbnd (k + 1) (by simpa using Nat.succ_lt_succ hk)
        rw [List.getD_cons_succ, List.getD_cons_succ, List.getD_cons_succ] at this
        exact this
    calc a1 * s1 + dot as rest < a1 * s1 + s1 := by omega
      _ = (a1 + 1) * s1 := by ring
      _ ≤ s0 := h1

theorem digit_dot_inj :
    ∀ (s a b : List Nat),
      a.length = s.length → b.length = s.length →
      s.getLast? = some 1 →
      (∀ k, k + 1 < s.length → (a.getD (k + 1) 0 + 1) * s.getD (k + 1) 0 ≤ s.getD k 0) →
      (∀ k, k + 1 < s.length → (b.getD (k + 1) 0 + 1) * s.getD (k + 1) 0 ≤ s.getD k 0) →
      dot a s = dot b s → a = b := by
  intro s
  induction s with
  | nil =>
    intro a b ha hb _ _ _ _
    rw [List.eq_nil_of_length_eq_zero ha, List.eq_nil_of_length_eq_zero hb]
  | cons s0 ss IH =>
    intro a b ha hb hlast hba hbb heq
    rcases a with _ | ⟨a0, as⟩
    · simp at ha
    rcases b with _ | ⟨b0, bs⟩
    · simp at hb
    rw [dot_cons, dot_cons] at heq
    have hlt_a : dot as ss < s0 := by
      cases ss with
      | nil =>
        have : as = [] := List.eq_nil_of_length_eq_zero (by simpa using ha)
        subst this
        have hs : s0 = 1 := by simpa using hlast
        simp [dot, hs]
      | cons s1 rest =>
        refine dot_lt_head _ as s0 (by simpa using ha) hlast ?_
        intro k hk
        have := hba k (by simpa using Nat.succ_lt_succ hk)
        rw [List.getD_cons_succ, List.getD_cons_succ] at this
        cases k with
        | zero => simpa using this
        | succ k => simpa using this
    have hlt_b : dot bs ss < s0 := by
      cases ss with
      | nil =>
        have : bs = [] := List.eq_nil_of_length_eq_zero (by simpa using hb)
        subst this
        have hs : s0 = 1 := by simpa using hlast
        simp [dot, hs]
      | cons s1 rest =>
        refine dot_lt_head _ bs s0 (by simpa using hb) hlast ?_
        intro k hk
        have := hbb k (by simpa using Nat.succ_lt_succ hk)
        rw [List.getD_cons_succ, List.getD_cons_succ] at this
        cases k with
        | zero => simpa using this
        | succ k => simpa using this
    have h00 : a0 = b0 := by
      rcases Nat.lt_trichotomy a0 b0 with h | h | h
      · exfalso
        have hm : (a0 + 1) * s0 ≤ b0 * s0 := Nat.mul_le_mul_right _ (by omega)
        have he : (a0 + 1) * s0 = a0 * s0 + s0 := by ring
        omega
      · exact h
      · exfalso
        have hm : (b0 + 1) * s0 ≤ a0 * s0 := Nat.mul_le_mul_right _ (by omega)
        have he : (b0 + 1) * s0 = b0 * s0 + s0 := by ring
        omega
    subst h00
    have htl : dot as ss = dot bs ss := by omega
    have hrest : as = bs := by
      cases ss with
      | nil =>
        have e1 : as = [] := List.eq_nil_of_length_eq_zero (by simpa using ha)
        have e2 : bs = [] := List.eq_nil_of_length_eq_zero (by simpa using hb)
        rw [e1, e2]
      | cons s1 rest =>
        refine IH as bs (by simpa using ha) (by simpa using hb) ?_ ?_ ?_ htl
        · rw [← hlast, List.getLast?_cons_cons]
        · intro k hk
          have := hba (k + 1) (by simpa using Nat.succ_lt_succ hk)
          rw [List.getD_cons_succ, List.getD_cons_succ, List.getD_cons_succ] at this
          exact this
        · intro k hk
          have := hbb (k + 1) (by simpa using Nat.succ_lt_succ hk)
          rw [List.getD_cons_succ, List.getD_cons_succ, List.getD_cons_succ] at this
          exact this
    rw [hrest]

theorem dot_sub_add : ∀ (d i s : List Nat), d.length = s.length →
    i.length = s.length →
    (∀ k < s.length, i.getD k 0 ≤ d.getD k 0) →
    dot (List.zipWith (· - ·) d i) s + dot i s = dot d s := by
  intro d
  induction d with
  | nil =>
    intro i s h1 h2 _
    have hs : s = [] := List.eq_nil_of_length_eq_zero h1.symm
    subst hs
    have hi : i = [] := List.eq_nil_of_length_eq_zero h2
    subst hi
    simp [dot]
  | cons d0 ds IH =>
    intro i s h1 h2 hle
    cases s with
    | nil => simp at h1
    | cons s0 ss =>
      cases i with
      | nil => simp at h2
      | cons i0 is =>
        rw [List.zipWith_cons_cons, dot_cons, dot_cons, dot_cons]
        have h0 := hle 0 (by simp)
        simp only [List.getD_cons_zero] at h0
        have hIH := IH is ss (by simpa using h1) (by simpa using h2)
          (fun k hk => by
            have := hle (k + 1) (by simpa using Nat.succ_lt_succ hk)
            rw [List.getD_cons_succ, List.getD_cons_succ] at this
            exact this)
        have hm : (d0 - i0) * s0 + i0 * s0 = d0 * s0 := by
          have he : d0 - i0 + i0 = d0 := by omega
          calc (d0 - i0) * s0 + i0 * s0 = (d0 - i0 + i0) * s0 := by ring
            _ = d0 * s0 := by rw [he]
        omega

theorem elemOffsets_digit (t : Tensor) (hn : t.normalized) (o : Nat) :
    o ∈ t.elemOffsets ↔
      ∃ d : List Nat, d.length = t.strides.length ∧
        (∀ k < t.strides.length,
          t.offset_to_ndims.getD k 0 ≤ d.getD k 0 ∧
          d.getD k 0 < t.offset_to_ndims.getD k 0 + t.repeats.getD k 0) ∧
        o = dot d t.strides := by
  have hn' := hn
  obtain ⟨hlen, hnd, hinner, hbound, hpos⟩ := hn
  have hnde : t.ndims = t.strides.length := rfl
  have hol := offset_to_ndims_length t
  rw [elemOffsets_iff t hlen]
  constructor
  · rintro ⟨v, hv, rfl⟩
    have hvl : v.length = t.repeats.length := tupValid_length hv
    refine ⟨List.zipWith (· + ·) t.offset_to_ndims v, ?_, ?_, ?_⟩
    · rw [List.length_zipWith]
      omega
    · intro k hk
      rw [getD_zipWith _ _ _ _ (by omega) (by omega)]
      have := tupValid_getD hv k (by omega)
      omega
    · rw [dot_zipWith_add _ _ _ hol (by omega), offset_to_ndims_dot t hn']
  · rintro ⟨d, hdl, hdb, rfl⟩
    refine ⟨List.zipWith (· - ·) d t.offset_to_ndims, ?_, ?_⟩
    · apply tupValid_of_getD
      · rw [List.length_zipWith]
        omega
      · intro i hi
        rw [getD_zipWith _ _ _ _ (by omega) (by omega)]
        have := hdb i (by omega)
        omega
    · have hsub := dot_sub_add d t.offset_to_ndims t.strides hdl hol
        (fun k hk => (hdb k hk).1)
      have hoffd := offset_to_ndims_dot t hn'
      omega

theorem byteSubset_iff_offsets (p r : Tensor) (hdt : p.dtype = r.dtype) :
    byteSubset p r ↔ ∀ o ∈ p.elemOffsets, o ∈ r.elemOffsets := by
  unfold byteSubset inBytes
  constructor
  · intro h o ho
    have hes := get_element_size_pos p.dtype
    obtain ⟨o2, ho2, k2, hk2, heq⟩ := h (o * get_element_size p.dtype)
      ⟨o, ho, 0, hes, by ring⟩
    rw [← hdt] at hk2 heq
    have ho2eq : o2 = o := by
      rcases Nat.lt_trichotomy o2 o with h2 | h2 | h2
      · exfalso
        have hm : (o2 + 1) * get_element_size p.dtype ≤ o * get_element_size p.dtype :=
          Nat.mul_le_mul_right _ (by omega)
        have he : (o2 + 1) * get_element_size p.dtype
            = o2 * get_element_size p.dtype + get_element_size p.dtype := by ring
        omega
      · exact h2
      · exfalso
        have hm : (o + 1) * get_element_size p.dtype ≤ o2 * get_element_size p.dtype :=
          Nat.mul_le_mul_right _ (by omega)
        have he : (o + 1) * get_element_size p.dtype
            = o * get_element_size p.dtype + get_element_size p.dtype := by ring
        omega
    rw [← ho2eq]
    exact ho2
  · rintro h x ⟨o, ho, k, hk, rfl⟩
    refine ⟨o, h o ho, k, ?_, ?_⟩
    · rw [← hdt]
      exact hk
    · rw [hdt]

theorem hyperrect_subset_iff (t p : Tensor) (hnt : t.normalized) (hnp : p.normalized)
    (hst : t.strides = p.strides) (hok : hyperRectOk t p) :
    (∀ o ∈ p.elemOffsets, o ∈ t.elemOffsets) ↔
      (∀ k < t.ndims,
        t.offset_to_ndims.getD k 0 ≤ p.offset_to_ndims.getD k 0 ∧
        p.offset_to_ndims.getD k 0 + p.repeats.getD k 0
          ≤ t.offset_to_ndims.getD k 0 + t.repeats.getD k 0) := by
  have hst' : p.strides = t.strides := hst.symm
  have hnde : t.ndims = t.strides.length := rfl
  have hpnde : p.ndims = p.strides.length := rfl
  have hsl : p.strides.length = t.strides.length := by rw [hst']
  have htol := offset_to_ndims_length t
  have hpol := offset_to_ndims_length p
  have hlast : t.strides.getLast? = some 1 := by
    rw [strides_split t hnt]
    exact List.getLast?_concat _
  have htpos := hnt.2.2.2.2
  have hppos := hnp.2.2.2.2
  have hchain_t : ∀ (e : List Nat),
      (∀ k < t.strides.length,
        t.offset_to_ndims.getD k 0 ≤ e.getD k 0 ∧
        e.getD k 0 < t.offset_to_ndims.getD k 0 + t.repeats.getD k 0) →
      ∀ j, j + 1 < t.strides.length →
        (e.getD (j + 1) 0 + 1) * t.strides.getD (j + 1) 0 ≤ t.strides.getD j 0 := by
    intro e he j hj
    have h1 := (he (j + 1) (by omega)).2
    have h2 := (hok (j + 1) (by omega) (by omega)).1
    have h3 : (e.getD (j + 1) 0 + 1) * t.strides.getD (j + 1) 0
        ≤ (t.offset_to_ndims.getD (j + 1) 0 + t.repeats.getD (j + 1) 0)
          * t.strides.getD (j + 1) 0 :=
      Nat.mul_le_mul_right _ (by omega)
    have h4 : j + 1 - 1 = j := by omega
    rw [h4] at h2
    omega
  have hchain_p : ∀ (e : List Nat),
      (∀ k < t.strides.length,
        p.offset_to_ndims.getD k 0 ≤ e.getD k 0 ∧
        e.getD k 0 < p.offset_to_ndims.getD k 0 + p.repeats.getD k 0) →
      ∀ j, j + 1 < t.strides.length →
        (e.getD (j + 1) 0 + 1) * t.strides.getD (j + 1) 0 ≤ t.strides.getD j 0 := by
    intro e he j hj
    have h1 := (he (j + 1) (by omega)).2
    have h2 := (hok (j + 1) (by omega) (by omega)).2
    rw [hst'] at h2
    have h3 : (e.getD (j + 1) 0 + 1) * t.strides.getD (j + 1) 0
        ≤ (p.offset_to_ndims.getD (j + 1) 0 + p.repeats.getD (j + 1) 0)
          * t.strides.getD (j + 1) 0 :=
      Nat.mul_le_mul_right _ (by omega)
    have h4 : j + 1 - 1 = j := by omega
    rw [h4] at h2
    omega
  constructor
  · intro hsub k hk
    -- first probe: p's own offset_to_ndims digits
    have hd1b : ∀ j < p.strides.length,
        p.offset_to_ndims.getD j 0 ≤ p.offset_to_ndims.getD j 0 ∧
        p.offset_to_ndims.getD j 0
          < p.offset_to_ndims.getD j 0 + p.repeats.getD j 0 := by
      intro j hj
      have := hppos j (by omega)
      omega
    have hp1 : dot p.offset_to_ndims p.strides ∈ p.elemOffsets :=
      (elemOffsets_digit p hnp _).mpr ⟨p.offset_to_ndims, hpol, hd1b, rfl⟩
    obtain ⟨e1, hel1, heb1, heq1⟩ := (elemOffsets_digit t hnt _).mp (hsub _ hp1)
    have he1 : p.offset_to_ndims = e1 := by
      refine digit_dot_inj t.strides _ _ (by omega) hel1 hlast ?_ ?_ ?_
      · exact hchain_p p.offset_to_ndims (fun j hj => hd1b j (by omega))
      · exact hchain_t e1 heb1
      · rw [← heq1, hst']
    -- second probe: bump axis k to its maximal p index
    have hrk := hppos k (by omega)
    have hd2 := p.offset_to_ndims.set k
      (p.offset_to_ndims.getD k 0 + p.repeats.getD k 0 - 1)
    have hd2b : ∀ j < p.strides.length,
        p.offset_to_ndims.getD j 0
          ≤ (p.offset_to_ndims.set k
              (p.offset_to_ndims.getD k 0 + p.repeats.getD k 0 - 1)).getD j 0 ∧
        (p.offset_to_ndims.set k
            (p.offset_to_ndims.getD k 0 + p.repeats.getD k 0 - 1)).getD j 0
          < p.offset_to_ndims.getD j 0 + p.repeats.getD j 0 := by
      intro j hj
      by_cases hjk : k = j
      · subst hjk
        rw [getD_set_eq _ _ _ (by omega)]
        omega
      · rw [getD_set_ne _ _ _ _ hjk]
        have := hppos j (by omega)
        omega
    have hp2 : dot (p.offset_to_ndims.set k
          (p.offset_to_ndims.getD k 0 + p.repeats.getD k 0 - 1)) p.strides
        ∈ p.elemOffsets :=
      (elemOffsets_digit p hnp _).mpr
        ⟨_, by rw [List.length_set]; exact hpol, hd2b, rfl⟩
    obtain ⟨e2, hel2, heb2, heq2⟩ := (elemOffsets_digit t hnt _).mp (hsub _ hp2)
    have he2 : p.offset_to_ndims.set k
        (p.offset_to_ndims.getD k 0 + p.repeats.getD k 0 - 1) = e2 := by
      refine digit_dot_inj t.strides _ _ (by rw [List.length_set]; omega) hel2 hlast ?_ ?_ ?_
      · exact hchain_p _ (fun j hj => hd2b j (by omega))
      · exact hchain_t e2 heb2
      · rw [← heq2, hst']
    constructor
    · have h1 := (heb1 k (by omega)).1
      rw [← he1] at h1
      exact h1
    · have h2 := (heb2 k (by omega)).2
      rw [← he2, getD_set_eq _ _ _ (by omega)] at h2
      omega
  · intro hcont o ho
    obtain ⟨d, hdl, hdb, rfl⟩ := (elemOffsets_digit p hnp o).mp ho
    refine (elemOffsets_digit t hnt _).mpr ⟨d, by omega, ?_, by rw [hst']⟩
    intro j hj
    have h1 := hdb j (by omega)
    have h2 := hcont j (by omega)
    omega

theorem axesLoop_eval (t p : Tensor) (iOff oOff : List Nat) :
    ∀ (fuel i : Nat) (conts ovl : Bool),
      (∀ k, i ≤ k → k < i + fuel → 0 < k →
        (iOff.getD k 0 + t.repeats.getD k 0) * t.strides.getD k 0
            ≤ t.strides.getD (k - 1) 0 ∧
        (oOff.getD k 0 + p.repeats.getD k 0) * p.strides.getD k 0
            ≤ p.strides.getD (k - 1) 0) →
      (axesLoop t p iOff oOff i fuel conts ovl).1 = false ∧
      ((axesLoop t p iOff oOff i fuel conts ovl).2.1 = true ↔
        (conts = true ∧ ∀ k, i ≤ k → k < i + fuel →
          Segment.line_segment_intersection
              ⟨iOff.getD k 0, iOff.getD k 0 + t.repeats.getD k 0⟩
              ⟨oOff.getD k 0, oOff.getD k 0 + p.repeats.getD k 0⟩ = true →
          Segment.seg_contains
              ⟨iOff.getD k 0, iOff.getD k 0 + t.repeats.getD k 0⟩
              ⟨oOff.getD k 0, oOff.getD k 0 + p.repeats.getD k 0⟩ = true)) := by
  intro fuel
  induction fuel with
  | zero =>
    intro i conts ovl hok
    refine ⟨rfl, ?_⟩
    constructor
    · intro h
      exact ⟨h, fun k hk1 hk2 _ => absurd hk2 (by omega)⟩
    · rintro ⟨h, _⟩
      exact h
  | succ fuel IH =>
    intro i conts ovl hok
    have hbr : ¬(0 < i ∧
        ((iOff.getD i 0 + t.repeats.getD i 0) * t.strides.getD i 0
            > t.strides.getD (i - 1) 0 ∨
         (oOff.getD i 0 + p.repeats.getD i 0) * p.strides.getD i 0
            > p.strides.getD (i - 1) 0)) := by
      rintro ⟨hi, hbad⟩
      have hk := hok i (le_refl _) (by omega) hi
      rcases hbad with hb | hb
      · exact absurd hk.1 (not_le.mpr hb)
      · exact absurd hk.2 (not_le.mpr hb)
    have hstep : axesLoop t p iOff oOff i (fuel + 1) conts ovl
        = axesLoop t p iOff oOff (i + 1) fuel
            (if ! Segment.line_segment_intersection
                ⟨iOff.getD i 0, iOff.getD i 0 + t.repeats.getD i 0⟩
                ⟨oOff.getD i 0, oOff.getD i 0 + p.repeats.getD i 0⟩ then (conts, false)
             else if ! Segment.seg_contains
                ⟨iOff.getD i 0, iOff.getD i 0 + t.repeats.getD i 0⟩
                ⟨oOff.getD i 0, oOff.getD i 0 + p.repeats.getD i 0⟩ then (false, ovl)
             else (conts, ovl)).1
            (if ! Segment.line_segment_intersection
                ⟨iOff.getD i 0, iOff.getD i 0 + t.repeats.getD i 0⟩
                ⟨oOff.getD i 0, oOff.getD i 0 + p.repeats.getD i 0⟩ then (conts, false)
             else if ! Segment.seg_contains
                ⟨iOff.getD i 0, iOff.getD i 0 + t.repeats.getD i 0⟩
                ⟨oOff.getD i 0, oOff.getD i 0 + p.repeats.getD i 0⟩ then (false, ovl)
             else (conts, ovl)).2 := by
      simp only [axesLoop]
      rw [if_neg hbr]
    by_cases hint : Segment.line_segment_intersection
        ⟨iOff.getD i 0, iOff.getD i 0 + t.repeats.getD i 0⟩
        ⟨oOff.getD i 0, oOff.getD i 0 + p.repeats.getD i 0⟩ = true
    · by_cases hcont : Segment.seg_contains
          ⟨iOff.getD i 0, iOff.getD i 0 + t.repeats.getD i 0⟩
          ⟨oOff.getD i 0, oOff.getD i 0 + p.repeats.getD i 0⟩ = true
      · have hpr : (if ! Segment.line_segment_intersection
              ⟨iOff.getD i 0, iOff.getD i 0 + t.repeats.getD i 0⟩
              ⟨oOff.getD i 0, oOff.getD i 0 + p.repeats.getD i 0⟩ then (conts, false)
            else if ! Segment.seg_contains
              ⟨iOff.getD i 0, iOff.getD i 0 + t.repeats.getD i 0⟩
              ⟨oOff.getD i 0, oOff.getD i 0 + p.repeats.getD i 0⟩ then (false, ovl)
            else (conts, ovl)) = (conts, ovl) := by
          rw [if_neg (by rw [hint]; decide), if_neg (by rw [hcont]; decide)]
        rw [hstep, hpr]
        obtain ⟨IH1, IH2⟩ := IH (i + 1) conts ovl
          (fun k hk1 hk2 hk0 => hok k (by omega) (by omega) hk0)
        refine ⟨IH1, ?_⟩
        rw [IH2]
        constructor
        · rintro ⟨hc, hall⟩
          refine ⟨hc, fun k hk1 hk2 hi2 => ?_⟩
          by_cases hki : k = i
          · subst hki
            exact hcont
          · exact hall k (by omega) (by omega) hi2
        · rintro ⟨hc, hall⟩
          exact ⟨hc, fun k hk1 hk2 hi2 => hall k (by omega) (by omega) hi2⟩
      · have hpr : (if ! Segment.line_segment_intersection
              ⟨iOff.getD i 0, iOff.getD i 0 + t.repeats.getD i 0⟩
              ⟨oOff.getD i 0, oOff.getD i 0 + p.repeats.getD i 0⟩ then (conts, false)
            else if ! Segment.seg_contains
              ⟨iOff.getD i 0, iOff.getD i 0 + t.repeats.getD i 0⟩
              ⟨oOff.getD i 0, oOff.getD i 0 + p.repeats.getD i 0⟩ then (false, ovl)
            else (conts, ovl)) = (false, ovl) := by
          rw [if_neg (by rw [hint]; decide), if_pos (by rw [Bool.eq_false_iff.mpr hcont]; decide)]
        rw [hstep, hpr]
        obtain ⟨IH1, IH2⟩ := IH (i + 1) false ovl
          (fun k hk1 hk2 hk0 => hok k (by omega) (by omega) hk0)
        refine ⟨IH1, ?_⟩
        rw [IH2]
        constructor
        · rintro ⟨hc, _⟩
          exact absurd hc (by simp)
        · rintro ⟨hc, hall⟩
          exact absurd (hall i (le_refl _) (by omega) hint) hcont
    · have hpr : (if ! Segment.line_segment_intersection
            ⟨iOff.getD i 0, iOff.getD i 0 + t.repeats.getD i 0⟩
            ⟨oOff.getD i 0, oOff.getD i 0 + p.repeats.getD i 0⟩ then (conts, false)
          else if ! Segment.seg_contains
            ⟨iOff.getD i 0, iOff.getD i 0 + t.repeats.getD i 0⟩
            ⟨oOff.getD i 0, oOff.getD i 0 + p.repeats.getD i 0⟩ then (false, ovl)
          else (conts, ovl)) = (conts, false) := by
        rw [if_pos (by rw [Bool.eq_false_iff.mpr hint]; decide)]
      rw [hstep, hpr]
      obtain ⟨IH1, IH2⟩ := IH (i + 1) conts false
        (fun k hk1 hk2 hk0 => hok k (by omega) (by omega) hk0)
      refine ⟨IH1, ?_⟩
      rw [IH2]
      constructor
      · rintro ⟨hc, hall⟩
        refine ⟨hc, fun k hk1 hk2 hi2 => ?_⟩
        by_cases hki : k = i
        · subst hki
          exact absurd hi2 hint
        · exact hall k (by omega) (by omega) hi2
      · rintro ⟨hc, hall⟩
        exact ⟨hc, fun k hk1 hk2 hi2 => hall k (by omega) (by omega) hi2⟩

theorem list_len_one_eq {l : List Nat} (h : l.length = 1) : l = [l.getD 0 0] := by
  cases l with
  | nil => simp at h
  | cons x xs =>
    cases xs with
    | nil => rfl
    | cons y ys => simp at h

theorem fuzzy_end_one_dim (t : Tensor) (hn : t.normalized) (h1 : t.ndims = 1) :
    t.get_fuzzy_seg.seg_end = t.start_offset + t.repeats.getD 0 0 := by
  have hnde : t.ndims = t.strides.length := rfl
  have hs1 : t.strides = [1] := by
    have hd : t.strides.dropLast = [] := by
      apply List.eq_nil_of_length_eq_zero
      rw [List.length_dropLast]
      omega
    have hsp := strides_split t hn
    rw [hd] at hsp
    simpa using hsp
  have hr1 : t.repeats = [t.repeats.getD 0 0] := list_len_one_eq (by
    have := hn.1
    omega)
  have hrpos : 1 ≤ t.repeats.getD 0 0 := hn.2.2.2.2 0 (by omega)
  show t.start_offset + ((t.strides.zip t.repeats).map fun q => q.1 * (q.2 - 1)).sum + 1
      = t.start_offset + t.repeats.getD 0 0
  rw [hs1]
  conv_lhs => rw [hr1]
  simp only [List.zip_cons_cons, List.zip_nil_left, List.map_cons, List.map_nil,
    List.sum_cons, List.sum_nil, one_mul]
  omega

theorem inBytes_one_dim (t : Tensor) (hn : t.normalized) (h1 : t.ndims = 1) (x : Nat) :
    inBytes t x ↔
      t.start_offset * get_element_size t.dtype ≤ x ∧
      x < (t.start_offset + t.repeats.getD 0 0) * get_element_size t.dtype := by
  have hn' := hn
  obtain ⟨hlen, hnd, hinner, hbound, hpos⟩ := hn
  have hnde : t.ndims = t.strides.length := rfl
  have hes := get_element_size_pos t.dtype
  have hdl : t.repeats.dropLast = [] := by
    apply List.eq_nil_of_length_eq_zero
    rw [List.length_dropLast]
    omega
  unfold inBytes
  constructor
  · rintro ⟨o, ho, k, hk, rfl⟩
    obtain ⟨v, hv, hb1, hb2⟩ := (elemOffsets_iff_seg t hn' o).mp ho
    have hv0 : v = [] := by
      have hl := tupValid_length hv
      rw [hdl] at hl
      simpa using hl
    subst hv0
    have hsb : (iterSeg t []).seg_begin = t.start_offset := by
      simp [iterSeg, dot]
    have hse : (iterSeg t []).seg_end = t.start_offset + t.repeats.getD 0 0 := by
      simp [iterSeg, dot, h1]
    rw [hsb] at hb1
    rw [hse] at hb2
    constructor
    · have := Nat.mul_le_mul_right (get_element_size t.dtype) hb1
      omega
    · have h3 : o + 1 ≤ t.start_offset + t.repeats.getD 0 0 := hb2
      have h4 := Nat.mul_le_mul_right (get_element_size t.dtype) h3
      have h5 : (o + 1) * get_element_size t.dtype
          = o * get_element_size t.dtype + get_element_size t.dtype := by ring
      omega
  · rintro ⟨hx1, hx2⟩
    obtain ⟨o, ho1, ho2, k, hk, rfl⟩ := (byte_mem_scaled _ _ _ _ hes).mp ⟨hx1, hx2⟩
    refine ⟨o, ?_, k, hk, rfl⟩
    apply (elemOffsets_iff_seg t hn' o).mpr
    refine ⟨[], ?_, ?_, ?_⟩
    · rw [hdl]
      exact List.Forall₂.nil
    · show t.start_offset + dot [] t.strides.dropLast ≤ o
      simpa [dot] using ho1
    · show o < t.start_offset + dot [] t.strides.dropLast
        + t.repeats.getD (t.ndims - 1) 0
      have he : t.ndims - 1 = 0 := by omega
      rw [he]
      simpa [dot] using ho2

theorem one_dim_contains_iff (t p : Tensor) (hnt : t.normalized) (hnp : p.normalized)
    (h1t : t.ndims = 1) (h1p : p.ndims = 1) :
    (Segment.seg_contains
        ⟨t.get_fuzzy_seg.seg_begin * get_element_size t.dtype,
         t.get_fuzzy_seg.seg_end * get_element_size t.dtype⟩
        ⟨p.get_fuzzy_seg.seg_begin * get_element_size p.dtype,
         p.get_fuzzy_seg.seg_end * get_element_size p.dtype⟩ = true)
      ↔ byteSubset p t := by
  have hfbt : t.get_fuzzy_seg.seg_begin = t.start_offset := rfl
  have hfbp : p.get_fuzzy_seg.seg_begin = p.start_offset := rfl
  rw [fuzzy_end_one_dim t hnt h1t, fuzzy_end_one_dim p hnp h1p, hfbt, hfbp]
  simp only [Segment.seg_contains, Bool.and_eq_true, decide_eq_true_eq]
  unfold byteSubset
  constructor
  · rintro ⟨hc1, hc2⟩ x hx
    rw [inBytes_one_dim p hnp h1p] at hx
    rw [inBytes_one_dim t hnt h1t]
    omega
  · intro hsub
    have hesp := get_element_size_pos p.dtype
    have hrp : 1 ≤ p.repeats.getD 0 0 := hnp.2.2.2.2 0 (by rw [h1p]; omega)
    have hlt : p.start_offset * get_element_size p.dtype
        < (p.start_offset + p.repeats.getD 0 0) * get_element_size p.dtype :=
      Nat.mul_lt_mul_of_pos_right (by omega) hesp
    have hx0 : inBytes p (p.start_offset * get_element_size p.dtype) :=
      (inBytes_one_dim p hnp h1p _).mpr ⟨le_refl _, hlt⟩
    have hx1 : inBytes p
        ((p.start_offset + p.repeats.getD 0 0) * get_element_size p.dtype - 1) :=
      (inBytes_one_dim p hnp h1p _).mpr ⟨by omega, by omega⟩
    have hp0 := (inBytes_one_dim t hnt h1t _).mp (hsub _ hx0)
    have hp1 := (inBytes_one_dim t hnt h1t _).mp (hsub _ hx1)
    exact ⟨by omega, by omega⟩

theorem is_overlap_one_dim_eq (t p : Tensor)
    (haddr : t.addr = p.addr) (hver : ¬ p.version < t.version)
    (hfz : Segment.line_segment_intersection
        ⟨t.get_fuzzy_seg.seg_begin * get_element_size t.dtype,
         t.get_fuzzy_seg.seg_end * get_element_size t.dtype⟩
        ⟨p.get_fuzzy_seg.seg_begin * get_element_size p.dtype,
         p.get_fuzzy_seg.seg_end * get_element_size p.dtype⟩ = true)
    (hacc : p.overlap_type = .Accurate)
    (h1t : t.ndims = 1) (h1p : p.ndims = 1) :
    t.is_overlap p =
      (if Segment.seg_contains
          ⟨t.get_fuzzy_seg.seg_begin * get_element_size t.dtype,
           t.get_fuzzy_seg.seg_end * get_element_size t.dtype⟩
          ⟨p.get_fuzzy_seg.seg_begin * get_element_size p.dtype,
           p.get_fuzzy_seg.seg_end * get_element_size p.dtype⟩
       then OverlapStatus.COVERED else OverlapStatus.OTHER) := by
  have hmem : t.is_same_memref p = true := by
    simp [Tensor.is_same_memref, haddr]
  simp only [Tensor.is_overlap, hmem, Bool.not_true, Bool.false_eq_true, if_false, hacc]
  rw [if_neg hver, if_neg (by rw [hfz]; decide), if_neg (by decide),
    if_pos ⟨h1t, h1p⟩]

theorem is_overlap_rect_eq (t p : Tensor)
    (haddr : t.addr = p.addr) (hver : ¬ p.version < t.version)
    (hfz : Segment.line_segment_intersection
        ⟨t.get_fuzzy_seg.seg_begin * get_element_size t.dtype,
         t.get_fuzzy_seg.seg_end * get_element_size t.dtype⟩
        ⟨p.get_fuzzy_seg.seg_begin * get_element_size p.dtype,
         p.get_fuzzy_seg.seg_end * get_element_size p.dtype⟩ = true)
    (hacc : p.overlap_type = .Accurate)
    (hn1 : ¬(t.ndims = 1 ∧ p.ndims = 1)) (hdt : t.dtype = p.dtype)
    (hst : t.strides = p.strides)
    (hres1 : (axesLoop t p t.offset_to_ndims p.offset_to_ndims 0 t.ndims true true).1
      = false) :
    t.is_overlap p =
      (if (axesLoop t p t.offset_to_ndims p.offset_to_ndims 0 t.ndims true true).2.1
       then OverlapStatus.COVERED
       else if (axesLoop t p t.offset_to_ndims p.offset_to_ndims 0 t.ndims true true).2.2
       then OverlapStatus.OTHER
       else OverlapStatus.NO_OVERLAP) := by
  have hmem : t.is_same_memref p = true := by
    simp [Tensor.is_same_memref, haddr]
  have hnd : t.ndims = p.ndims := by
    rw [Tensor.ndims, Tensor.ndims, hst]
  have hsm : t.is_same_strides p = true := by
    simp [Tensor.is_same_strides, hst]
  simp only [Tensor.is_overlap, hmem, Bool.not_true, Bool.false_eq_true, if_false, hacc]
  rw [if_neg hver, if_neg (by rw [hfz]; decide), if_neg (by decide), if_neg hn1,
    if_pos ⟨hdt, hnd, hsm⟩, if_pos (by rw [hres1]; decide)]

/-- C1: under the claim's preconditions (same base address, equal versions,
intersecting fuzzy byte segments, producer policy Accurate) and descriptor
normalization, in the 1-D case and in the same-dtype/same-strides
hyper-rectangle case (per-axis bounds holding and all index ranges
intersecting), `is_overlap` returns `COVERED` exactly when the PRODUCER's
reachable byte set is contained in the READER's — the reverse of the claimed
direction (`byteSubset p t` says every byte of `p` is reachable by `t`). -/
theorem c1_covered_iff (t p : Tensor) (hnt : t.normalized) (hnp : p.normalized)
    (haddr : t.addr = p.addr) (hver : t.version = p.version)
    (hacc : p.overlap_type = .Accurate)
    (hfz : Segment.line_segment_intersection
        ⟨t.get_fuzzy_seg.seg_begin * get_element_size t.dtype,
         t.get_fuzzy_seg.seg_end * get_element_size t.dtype⟩
        ⟨p.get_fuzzy_seg.seg_begin * get_element_size p.dtype,
         p.get_fuzzy_seg.seg_end * get_element_size p.dtype⟩ = true) :
    ((t.ndims = 1 ∧ p.ndims = 1) →
      (t.is_overlap p = .COVERED ↔ byteSubset p t)) ∧
    (¬(t.ndims = 1 ∧ p.ndims = 1) → t.dtype = p.dtype → t.strides = p.strides →
      hyperRectOk t p → axesIntersect t p →
      (t.is_overlap p = .COVERED ↔ byteSubset p t)) := by
  have hver' : ¬ p.version < t.version := by omega
  constructor
  · rintro ⟨h1t, h1p⟩
    rw [is_overlap_one_dim_eq t p haddr hver' hfz hacc h1t h1p]
    have hiff := one_dim_contains_iff t p hnt hnp h1t h1p
    by_cases hc : Segment.seg_contains
        ⟨t.get_fuzzy_seg.seg_begin * get_element_size t.dtype,
         t.get_fuzzy_seg.seg_end * get_element_size t.dtype⟩
        ⟨p.get_fuzzy_seg.seg_begin * get_element_size p.dtype,
         p.get_fuzzy_seg.seg_end * get_element_size p.dtype⟩ = true
    · rw [if_pos hc]
      exact ⟨fun _ => hiff.mp hc, fun _ => rfl⟩
    · rw [if_neg hc]
      constructor
      · intro h
        exact absurd h (by decide)
      · intro h
        exact absurd (hiff.mpr h) hc
  · intro hn1 hdt hst hok hint
    obtain ⟨hres1, hres2⟩ := axesLoop_eval t p t.offset_to_ndims p.offset_to_ndims
      t.ndims 0 true true (fun k _ hk2 hk0 => hok k (by omega) hk0)
    rw [is_overlap_rect_eq t p haddr hver' hfz hacc hn1 hdt hst hres1]
    have hintk : ∀ k < t.ndims, Segment.line_segment_intersection
        ⟨t.offset_to_ndims.getD k 0, t.offset_to_ndims.getD k 0 + t.repeats.getD k 0⟩
        ⟨p.offset_to_ndims.getD k 0, p.offset_to_ndims.getD k 0 + p.repeats.getD k 0⟩
        = true := by
      intro k hk
      have := hint k hk
      simp only [Segment.line_segment_intersection, Bool.and_eq_true,
        decide_eq_true_eq, gt_iff_lt]
      exact ⟨by omega, by omega⟩
    have hcov : (axesLoop t p t.offset_to_ndims p.offset_to_ndims
        0 t.ndims true true).2.1 = true ↔ byteSubset p t := by
      rw [hres2, byteSubset_iff_offsets p t hdt.symm,
        hyperrect_subset_iff t p hnt hnp hst hok]
      constructor
      · rintro ⟨_, hall⟩ k hk
        have hs := hall k (by omega) (by omega) (hintk k hk)
        simp only [Segment.seg_contains, Bool.and_eq_true, decide_eq_true_eq] at hs
        exact hs
      · intro hall
        refine ⟨rfl, fun k hk1 hk2 _ => ?_⟩
        have := hall k (by omega)
        simp only [Segment.seg_contains, Bool.and_eq_true, decide_eq_true_eq]
        exact ⟨by omega, by omega⟩
    by_cases hc : (axesLoop t p t.offset_to_ndims p.offset_to_ndims
        0 t.ndims true true).2.1 = true
    · rw [if_pos hc]
      exact ⟨fun _ => hcov.mp hc, fun _ => rfl⟩
    · rw [if_neg hc]
      constructor
      · intro h
        by_cases h2 : (axesLoop t p t.offset_to_ndims p.offset_to_ndims
            0 t.ndims true true).2.2 = true
        · rw [if_pos h2] at h
          exact absurd h (by decide)
        · rw [if_neg h2] at h
          exact absurd h (by decide)
      · intro h
        exact absurd (hcov.mpr h) hc

/-- C1 witness: the S3 pair (reader = the 256-element write, producer = the
128-element read) satisfies every hypothesis; the theorem then decides
`COVERED` exactly by producer-within-reader byte containment. -/
theorem c1_covered_iff_witness :
    s3Write.normalized ∧ s3Read.normalized ∧ s3Write.addr = s3Read.addr ∧
    s3Write.version = s3Read.version ∧ s3Read.overlap_type = .Accurate ∧
    (((s3Write.ndims = 1 ∧ s3Read.ndims = 1) →
        (s3Write.is_overlap s3Read = .COVERED ↔ byteSubset s3Read s3Write)) ∧
     (¬(s3Write.ndims = 1 ∧ s3Read.ndims = 1) → s3Write.dtype = s3Read.dtype →
        s3Write.strides = s3Read.strides → hyperRectOk s3Write s3Read →
        axesIntersect s3Write s3Read →
        (s3Write.is_overlap s3Read = .COVERED ↔ byteSubset s3Read s3Write))) :=
  ⟨by decide, by decide, rfl, rfl, rfl,
    c1_covered_iff s3Write s3Read (by decide) (by decide) rfl rfl rfl (by decide)⟩

theorem lsi_symm (A B : Segment) :
    A.line_segment_intersection B = B.line_segment_intersection A := by
  simp only [Segment.line_segment_intersection]
  exact Bool.and_comm _ _

/-- C3 (amended to the 1-D case): for two 1-D descriptors with equal
versions — any overlap policies — `is_overlap` returns `NO_OVERLAP` in one
direction exactly when it does in the other: `NO_OVERLAP` only arises from
the address check or the symmetric fuzzy-byte-segment disjointness test,
and the 1-D branch never returns it. -/
theorem c3_no_overlap_symm_one_dim (t p : Tensor) (hver : t.version = p.version)
    (h1t : t.ndims = 1) (h1p : p.ndims = 1) :
    (t.is_overlap p = .NO_OVERLAP ↔ p.is_overlap t = .NO_OVERLAP) := by
  unfold Tensor.is_overlap
  by_cases haddr : t.addr = p.addr
  case neg =>
    have h1 : t.is_same_memref p = false := by
      simp only [Tensor.is_same_memref, beq_eq_false_iff_ne, ne_eq]
      exact haddr
    have h2 : p.is_same_memref t = false := by
      simp only [Tensor.is_same_memref, beq_eq_false_iff_ne, ne_eq]
      exact fun h => haddr h.symm
    simp [h1, h2]
  case pos =>
    have h1 : t.is_same_memref p = true := by
      simp [Tensor.is_same_memref, haddr]
    have h2 : p.is_same_memref t = true := by
      simp [Tensor.is_same_memref, haddr]
    have hv1 : ¬ p.version < t.version := by omega
    have hv2 : ¬ t.version < p.version := by omega
    simp only [h1, h2, Bool.not_true, Bool.false_eq_true, if_false]
    rw [if_neg hv1, if_neg hv2]
    by_cases hfz : Segment.line_segment_intersection
        ⟨t.get_fuzzy_seg.seg_begin * get_element_size t.dtype,
         t.get_fuzzy_seg.seg_end * get_element_size t.dtype⟩
        ⟨p.get_fuzzy_seg.seg_begin * get_element_size p.dtype,
         p.get_fuzzy_seg.seg_end * get_element_size p.dtype⟩ = true
    · have hfz2 : Segment.line_segment_intersection
          ⟨p.get_fuzzy_seg.seg_begin * get_element_size p.dtype,
           p.get_fuzzy_seg.seg_end * get_element_size p.dtype⟩
          ⟨t.get_fuzzy_seg.seg_begin * get_element_size t.dtype,
           t.get_fuzzy_seg.seg_end * get_element_size t.dtype⟩ = true := by
        rw [lsi_symm]
        exact hfz
      have hnfz1 : ¬ ((! Segment.line_segment_intersection
          ⟨t.get_fuzzy_seg.seg_begin * get_element_size t.dtype,
           t.get_fuzzy_seg.seg_end * get_element_size t.dtype⟩
          ⟨p.get_fuzzy_seg.seg_begin * get_element_size p.dtype,
           p.get_fuzzy_seg.seg_end * get_element_size p.dtype⟩) = true) := by
        rw [hfz]
        decide
      have hnfz2 : ¬ ((! Segment.line_segment_intersection
          ⟨p.get_fuzzy_seg.seg_begin * get_element_size p.dtype,
           p.get_fuzzy_seg.seg_end * get_element_size p.dtype⟩
          ⟨t.get_fuzzy_seg.seg_begin * get_element_size t.dtype,
           t.get_fuzzy_seg.seg_end * get_element_size t.dtype⟩) = true) := by
        rw [hfz2]
        decide
      rw [if_neg hnfz1, if_neg hnfz2]
      constructor
      · intro h
        exfalso
        by_cases hpf : p.overlap_type = OverlapType.Fuzzy
        · rw [if_pos hpf] at h
          exact absurd h (by decide)
        · rw [if_neg hpf, if_pos ⟨h1t, h1p⟩] at h
          by_cases hct : Segment.seg_contains
              ⟨t.get_fuzzy_seg.seg_begin * get_element_size t.dtype,
               t.get_fuzzy_seg.seg_end * get_element_size t.dtype⟩
              ⟨p.get_fuzzy_seg.seg_begin * get_element_size p.dtype,
               p.get_fuzzy_seg.seg_end * get_element_size p.dtype⟩ = true
          · rw [if_pos hct] at h
            exact absurd h (by decide)
          · rw [if_neg hct] at h
            exact absurd h (by decide)
      · intro h
        exfalso
        by_cases hpf : t.overlap_type = OverlapType.Fuzzy
        · rw [if_pos hpf] at h
          exact absurd h (by decide)
        · rw [if_neg hpf, if_pos ⟨h1p, h1t⟩] at h
          by_cases hct : Segment.seg_contains
              ⟨p.get_fuzzy_seg.seg_begin * get_element_size p.dtype,
               p.get_fuzzy_seg.seg_end * get_element_size p.dtype⟩
              ⟨t.get_fuzzy_seg.seg_begin * get_element_size t.dtype,
               t.get_fuzzy_seg.seg_end * get_element_size t.dtype⟩ = true
          · rw [if_pos hct] at h
            exact absurd h (by decide)
          · rw [if_neg hct] at h
            exact absurd h (by decide)
    · have hfz2 : ¬ Segment.line_segment_intersection
          ⟨p.get_fuzzy_seg.seg_begin * get_element_size p.dtype,
           p.get_fuzzy_seg.seg_end * get_element_size p.dtype⟩
          ⟨t.get_fuzzy_seg.seg_begin * get_element_size t.dtype,
           t.get_fuzzy_seg.seg_end * get_element_size t.dtype⟩ = true := by
        rw [lsi_symm]
        exact hfz
      have hyfz1 : ((! Segment.line_segment_intersection
          ⟨t.get_fuzzy_seg.seg_begin * get_element_size t.dtype,
           t.get_fuzzy_seg.seg_end * get_element_size t.dtype⟩
          ⟨p.get_fuzzy_seg.seg_begin * get_element_size p.dtype,
           p.get_fuzzy_seg.seg_end * get_element_size p.dtype⟩) = true) := by
        rw [Bool.eq_false_iff.mpr hfz]
        decide
      have hyfz2 : ((! Segment.line_segment_intersection
          ⟨p.get_fuzzy_seg.seg_begin * get_element_size p.dtype,
           p.get_fuzzy_seg.seg_end * get_element_size p.dtype⟩
          ⟨t.get_fuzzy_seg.seg_begin * get_element_size t.dtype,
           t.get_fuzzy_seg.seg_end * get_element_size t.dtype⟩) = true) := by
        rw [Bool.eq_false_iff.mpr hfz2]
        decide
      rw [if_pos hyfz1, if_pos hyfz2]

/-- C3 witness: the theorem applied to the 1-D S3 pair. -/
theorem c3_no_overlap_symm_witness :
    s3Write.version = s3Read.version ∧ s3Write.ndims = 1 ∧ s3Read.ndims = 1 ∧
    (s3Write.is_overlap s3Read = .NO_OVERLAP ↔
      s3Read.is_overlap s3Write = .NO_OVERLAP) :=
  ⟨rfl, rfl, rfl, c3_no_overlap_symm_one_dim s3Write s3Read rfl rfl rfl⟩

theorem isChain_iff_seg (tm : PTO2TensorMap) (b : Nat) :
    ∀ (l : List Nat) (prev cur : Int),
      isChain tm b prev cur l ↔ isChainSeg tm b prev cur l (-1) := by
  intro l
  induction l with
  | nil => intro prev cur; exact Iff.rfl
  | cons i rest IH =>
    intro prev cur
    constructor
    · rintro ⟨h1, h2, h3, h4, h5, h6⟩
      exact ⟨h1, h2, h3, h4, h5, (IH _ _).mp h6⟩
    · rintro ⟨h1, h2, h3, h4, h5, h6⟩
      exact ⟨h1, h2, h3, h4, h5, (IH _ _).mpr h6⟩

theorem seg_split (tm : PTO2TensorMap) (b : Nat) :
    ∀ (l1 l2 : List Nat) (prev cur out : Int),
      isChainSeg tm b prev cur (l1 ++ l2) out ↔
        ∃ mid, isChainSeg tm b prev cur l1 mid ∧
          isChainSeg tm b (lastLink prev l1) mid l2 out := by
  intro l1
  induction l1 with
  | nil =>
    intro l2 prev cur out
    constructor
    · intro h
      exact ⟨cur, rfl, h⟩
    · rintro ⟨mid, h1, h2⟩
      have hc : cur = mid := h1
      rw [show lastLink prev [] = prev from rfl] at h2
      rw [hc]
      exact h2
  | cons i rest IH =>
    intro l2 prev cur out
    constructor
    · rintro ⟨h1, h2, h3, h4, h5, h6⟩
      obtain ⟨mid, s1, s2⟩ := (IH _ _ _ _).mp h6
      exact ⟨mid, ⟨h1, h2, h3, h4, h5, s1⟩, s2⟩
    · rintro ⟨mid, ⟨h1, h2, h3, h4, h5, s1⟩, s2⟩
      exact ⟨h1, h2, h3, h4, h5, (IH _ _ _ _).mpr ⟨mid, s1, s2⟩⟩

theorem seg_mem (tm : PTO2TensorMap) (b : Nat) :
    ∀ (l : List Nat) (prev cur out : Int), isChainSeg tm b prev cur l out →
      ∀ j ∈ l, j < tm.pool_size ∧
        (tm.entry_pool.getD j default).in_bucket = true ∧
        pto2_tensormap_hash tm.num_buckets (tm.entry_pool.getD j default).tensor = b := by
  intro l
  induction l with
  | nil =>
    intro prev cur out _ j hj
    simp at hj
  | cons i rest IH =>
    intro prev cur out h j hj
    obtain ⟨h1, h2, h3, h4, h5, h6⟩ := h
    rcases List.mem_cons.mp hj with rfl | hj2
    · exact ⟨h2, h3, h5⟩
    · exact IH _ _ _ h6 j hj2

theorem bucketFields_eq {e e' : PTO2TensorMapEntry}
    (h : bucketFields e' = bucketFields e) :
    e'.tensor = e.tensor ∧ e'.in_bucket = e.in_bucket ∧
    e'.next_in_bucket = e.next_in_bucket ∧ e'.prev_in_bucket = e.prev_in_bucket := by
  simp only [bucketFields, Prod.ext_iff] at h
  exact ⟨h.1, h.2.1, h.2.2.1, h.2.2.2⟩

theorem seg_frame {tm tm' : PTO2TensorMap}
    (hps : tm'.pool_size = tm.pool_size) (hnb : tm'.num_buckets = tm.num_buckets)
    (b : Nat) :
    ∀ (l : List Nat) (prev cur out : Int),
      (∀ j ∈ l, bucketFields (tm'.entry_pool.getD j default)
        = bucketFields (tm.entry_pool.getD j default)) →
      isChainSeg tm b prev cur l out → isChainSeg tm' b prev cur l out := by
  intro l
  induction l with
  | nil =>
    intro prev cur out _ h
    exact h
  | cons i rest IH =>
    intro prev cur out hf h
    obtain ⟨h1, h2, h3, h4, h5, h6⟩ := h
    obtain ⟨ht, hib, hnx, hpv⟩ := bucketFields_eq (hf i (List.mem_cons_self _ _))
    refine ⟨h1, by omega, by rw [hib]; exact h3, by rw [hpv]; exact h4,
      by rw [hnb, ht]; exact h5, ?_⟩
    rw [hnx]
    exact IH _ _ _ (fun j hj => hf j (List.mem_cons_of_mem _ hj)) h6

theorem nodup_bounded_length {l : List Nat} {n : Nat} (hd : l.Nodup)
    (hb : ∀ j ∈ l, j < n) : l.length ≤ n := by
  have h1 : l.toFinset.card = l.length := List.toFinset_card_of_nodup hd
  have h2 : l.toFinset ⊆ Finset.range n := by
    intro x hx
    rw [Finset.mem_range]
    exact hb x (List.mem_toFinset.mp hx)
  have h3 := Finset.card_le_card h2
  rw [Finset.card_range] at h3
  omega

theorem chainFrom_of_seg (tm : PTO2TensorMap) (b : Nat) :
    ∀ (l : List Nat) (fuel : Nat) (prev cur : Int),
      isChainSeg tm b prev cur l (-1) → l.length ≤ fuel →
      chainFrom tm fuel cur = l := by
  intro l
  induction l with
  | nil =>
    intro fuel prev cur h _
    have hc : cur = -1 := h
    cases fuel with
    | zero => rfl
    | succ f =>
      show (if cur < 0 then [] else _) = []
      rw [if_pos (by omega)]
  | cons i rest IH =>
    intro fuel prev cur h hlen
    obtain ⟨h1, h2, h3, h4, h5, h6⟩ := h
    cases fuel with
    | zero => simp at hlen
    | succ f =>
      rw [h1]
      show (if (i : Int) < 0 then [] else
        (i : Int).toNat :: chainFrom tm f (getEntry tm (i : Int)).next_in_bucket)
        = i :: rest
      rw [if_neg (by omega)]
      have htn : (i : Int).toNat = i := Int.toNat_ofNat i
      rw [htn]
      congr 1
      have hge : getEntry tm (i : Int) = tm.entry_pool.getD i default := by
        unfold getEntry
        rw [htn]
      rw [hge]
      exact IH f (i : Int) _ h6 (by simpa using hlen)

theorem lastLink_append_single (prev : Int) :
    ∀ (l : List Nat) (x : Nat), lastLink prev (l ++ [x]) = (x : Int) := by
  intro l
  induction l generalizing prev with
  | nil => intro x; rfl
  | cons j rest IH => intro x; exact IH (j : Int) x

theorem lastLink_nonneg : ∀ (l : List Nat) (j : Nat), 0 ≤ lastLink (j : Int) l := by
  intro l
  induction l with
  | nil => intro j; exact Int.ofNat_nonneg j
  | cons k rest IH => intro j; exact IH k

theorem lastLink_neg_iff (l : List Nat) : lastLink (-1) l = -1 ↔ l = [] := by
  cases l with
  | nil => simp [lastLink]
  | cons j rest =>
    constructor
    · intro h
      exfalso
      have := lastLink_nonneg rest j
      rw [show lastLink (-1) (j :: rest) = lastLink (j : Int) rest from rfl] at h
      omega
    · intro h
      simp at h

theorem getD_set_eq2 {α : Type} (l : List α) (i : Nat) (v d : α) (h : i < l.length) :
    (l.set i v).getD i d = v := by
  rw [List.getD_eq_getElem?_getD, List.getElem?_set_self h]
  rfl

theorem getD_set_ne2 {α : Type} (l : List α) (i j : Nat) (v d : α) (h : i ≠ j) :
    (l.set i v).getD j d = l.getD j d := by
  rw [List.getD_eq_getElem?_getD, List.getElem?_set_ne h, ← List.getD_eq_getElem?_getD]

theorem invariants_frame {tm tm' : PTO2TensorMap}
    (hb : tm'.buckets = tm.buckets) (hnb : tm'.num_buckets = tm.num_buckets)
    (hps : tm'.pool_size = tm.pool_size) (hph : tm'.pool_head = tm.pool_head)
    (hpl : tm'.entry_pool.length = tm.entry_pool.length)
    (hent : ∀ j : Nat, bucketFields (tm'.entry_pool.getD j default)
        = bucketFields (tm.entry_pool.getD j default) ∧
      (tm'.entry_pool.getD j default).producer_task_id
        = (tm.entry_pool.getD j default).producer_task_id) :
    ∀ m : Int, (MapWF tm → MapWF tm') ∧ (ChainsOrdered tm → ChainsOrdered tm') ∧
      (IdsBounded tm m → IdsBounded tm' m) := by
  intro m
  refine ⟨?_, ?_, ?_⟩
  · rintro ⟨w1, w2, w3, w4, w5, w6⟩
    refine ⟨by rw [hb, hnb]; exact w1, by rw [hpl, hps]; exact w2, by omega, by omega,
      by rw [hnb]; exact w5, ?_⟩
    intro b hb2
    obtain ⟨l, hc, hnd, hcm⟩ := w6 b (by omega)
    refine ⟨l, ?_, hnd, ?_⟩
    · rw [isChain_iff_seg, hb]
      exact seg_frame hps hnb b l _ _ _ (fun j _ => (hent j).1)
        ((isChain_iff_seg tm b l _ _).mp hc)
    · intro j hj hib hh
      obtain ⟨hbf, _⟩ := hent j
      obtain ⟨ht, hib2, _, _⟩ := bucketFields_eq hbf
      refine hcm j (by omega) (by rw [← hib2]; exact hib) ?_
      rw [← ht, ← hnb]
      exact hh
  · intro hord b hb2 l hc
    have hc2 : isChain tm b (-1) (tm.buckets.getD b (-1)) l := by
      rw [isChain_iff_seg]
      refine seg_frame (by omega) (by omega) b l _ _ _ (fun j _ => ((hent j).1).symm) ?_
      rw [← hb]
      exact (isChain_iff_seg tm' b l _ _).mp hc
    have := hord b (by omega) l hc2
    have hmap : (l.map fun i => (tm'.entry_pool.getD i default).producer_task_id)
        = l.map fun i => (tm.entry_pool.getD i default).producer_task_id :=
      List.map_congr_left fun j _ => (hent j).2
    rw [hmap]
    exact this
  · intro hids j hj hib
    obtain ⟨hbf, hid⟩ := hent j
    obtain ⟨_, hib2, _, _⟩ := bucketFields_eq hbf
    rw [hid]
    exact hids j (by omega) (by rw [← hib2]; exact hib)

theorem seg_set_out {tm tm' : PTO2TensorMap}
    (hps : tm'.pool_size = tm.pool_size) (hnb : tm'.num_buckets = tm.num_buckets)
    (b : Nat) :
    ∀ (l : List Nat) (prev cur out out' : Int),
      isChainSeg tm b prev cur l out →
      l ≠ [] →
      (∀ j ∈ l.dropLast, bucketFields (tm'.entry_pool.getD j default)
        = bucketFields (tm.entry_pool.getD j default)) →
      (∀ x, l.getLast? = some x →
        (tm'.entry_pool.getD x default).in_bucket
          = (tm.entry_pool.getD x default).in_bucket ∧
        (tm'.entry_pool.getD x default).prev_in_bucket
          = (tm.entry_pool.getD x default).prev_in_bucket ∧
        (tm'.entry_pool.getD x default).tensor
          = (tm.entry_pool.getD x default).tensor ∧
        (tm'.entry_pool.getD x default).next_in_bucket = out') →
      isChainSeg tm' b prev cur l out' := by
  intro l
  induction l with
  | nil =>
    intro prev cur out out' _ hne _ _
    exact absurd rfl hne
  | cons i rest IH =>
    intro prev cur out out' h hne hmid hlast
    obtain ⟨h1, h2, h3, h4, h5, h6⟩ := h
    cases rest with
    | nil =>
      obtain ⟨e1, e2, e3, e4⟩ := hlast i rfl
      exact ⟨h1, by omega, by rw [e1]; exact h3, by rw [e2]; exact h4,
        by rw [hnb, e3]; exact h5, e4⟩
    | cons i2 rest2 =>
      have hbf := hmid i (by
        rw [List.dropLast_cons₂]
        exact List.mem_cons_self _ _)
      obtain ⟨ht, hib, hnx, hpv⟩ := bucketFields_eq hbf
      refine ⟨h1, by omega, by rw [hib]; exact h3, by rw [hpv]; exact h4,
        by rw [hnb, ht]; exact h5, ?_⟩
      rw [hnx]
      refine IH _ _ _ _ h6 (by simp) ?_ ?_
      · intro j hj
        refine hmid j ?_
        rw [List.dropLast_cons₂]
        exact List.mem_cons_of_mem _ hj
      · intro x hx
        refine hlast x ?_
        rw [List.getLast?_cons_cons]
        exact hx

theorem seg_set_head_prev {tm tm' : PTO2TensorMap}
    (hps : tm'.pool_size = tm.pool_size) (hnb : tm'.num_buckets = tm.num_buckets)
    (b : Nat) :
    ∀ (l : List Nat) (prev prev' cur out : Int),
      isChainSeg tm b prev cur l out →
      (∀ x, l.head? = some x →
        (tm'.entry_pool.getD x default).in_bucket
          = (tm.entry_pool.getD x default).in_bucket ∧
        (tm'.entry_pool.getD x default).next_in_bucket
          = (tm.entry_pool.getD x default).next_in_bucket ∧
        (tm'.entry_pool.getD x default).tensor
          = (tm.entry_pool.getD x default).tensor ∧
        (tm'.entry_pool.getD x default).prev_in_bucket = prev') →
      (∀ j ∈ l.tail, bucketFields (tm'.entry_pool.getD j default)
        = bucketFields (tm.entry_pool.getD j default)) →
      (l = [] → cur = out → isChainSeg tm' b prev' cur l out) →
      isChainSeg tm' b prev' cur l out := by
  intro l
  cases l with
  | nil =>
    intro prev prev' cur out h _ _ hnil
    exact hnil rfl h
  | cons i rest =>
    intro prev prev' cur out h hhead htail _
    obtain ⟨h1, h2, h3, h4, h5, h6⟩ := h
    obtain ⟨e1, e2, e3, e4⟩ := hhead i rfl
    refine ⟨h1, by omega, by rw [e1]; exact h3, by rw [e4], by rw [hnb, e3]; exact h5, ?_⟩
    rw [e2]
    exact seg_frame hps hnb b rest _ _ _ (fun j hj => htail j hj) h6

theorem lookupClear_spec (b : Nat) :
    ∀ (l : List Nat) (fuel : Nat) (tm : PTO2TensorMap) (pv offset : Int),
      isChainSeg tm b pv offset l (-1) → l.Nodup → l.length ≤ fuel →
      tm.entry_pool.length = tm.pool_size →
      (lookupClear fuel tm offset).buckets = tm.buckets ∧
      (lookupClear fuel tm offset).num_buckets = tm.num_buckets ∧
      (lookupClear fuel tm offset).pool_size = tm.pool_size ∧
      (lookupClear fuel tm offset).pool_head = tm.pool_head ∧
      (lookupClear fuel tm offset).last_task_alive = tm.last_task_alive ∧
      (lookupClear fuel tm offset).task_entry_head = tm.task_entry_head ∧
      (lookupClear fuel tm offset).window_size = tm.window_size ∧
      (lookupClear fuel tm offset).entry_pool.length = tm.entry_pool.length ∧
      (∀ j : Nat, j ∉ l →
        (lookupClear fuel tm offset).entry_pool.getD j default
          = tm.entry_pool.getD j default) ∧
      (∀ j ∈ l,
        ((lookupClear fuel tm offset).entry_pool.getD j default).in_bucket = false ∧
        ((lookupClear fuel tm offset).entry_pool.getD j default).next_in_bucket = -1 ∧
        ((lookupClear fuel tm offset).entry_pool.getD j default).prev_in_bucket = -1 ∧
        ((lookupClear fuel tm offset).entry_pool.getD j default).producer_task_id
          = (tm.entry_pool.getD j default).producer_task_id ∧
        ((lookupClear fuel tm offset).entry_pool.getD j default).tensor
          = (tm.entry_pool.getD j default).tensor) := by
  intro l
  induction l with
  | nil =>
    intro fuel tm pv offset h _ _ _
    have hc : offset = -1 := h
    subst hc
    cases fuel with
    | zero =>
      exact ⟨rfl, rfl, rfl, rfl, rfl, rfl, rfl, rfl, fun j _ => rfl, fun j hj => by simp at hj⟩
    | succ f =>
      rw [show lookupClear (f + 1) tm (-1) = tm by rw [lookupClear, if_pos (by omega)]]
      exact ⟨rfl, rfl, rfl, rfl, rfl, rfl, rfl, rfl, fun j _ => rfl, fun j hj => by simp at hj⟩
  | cons x rest IH =>
    intro fuel tm pv offset h hnd hlen hpl
    obtain ⟨h1, h2, h3, h4, h5, h6⟩ := h
    cases fuel with
    | zero => simp at hlen
    | succ f =>
      subst h1
      have hstep : lookupClear (f + 1) tm (x : Int)
          = lookupClear f
              (modifyEntry tm (x : Int) fun e =>
                { e with in_bucket := false, next_in_bucket := -1, prev_in_bucket := -1 })
              (getEntry tm (x : Int)).next_in_bucket := by
        rw [lookupClear, if_neg (by omega)]
      have hxn : ((x : Int)).toNat = x := Int.toNat_ofNat x
      have hge : getEntry tm (x : Int) = tm.entry_pool.getD x default := by
        unfold getEntry
        rw [hxn]
      set tm1 := modifyEntry tm (x : Int) fun e =>
        { e with in_bucket := false, next_in_bucket := -1, prev_in_bucket := -1 } with htm1
      have htm1pool : tm1.entry_pool = tm.entry_pool.set x
          ({ tm.entry_pool.getD x default with
              in_bucket := false, next_in_bucket := -1, prev_in_bucket := -1 }) := by
        rw [htm1]
        rfl
      have hx_other : ∀ j : Nat, j ≠ x →
          tm1.entry_pool.getD j default = tm.entry_pool.getD j default := by
        intro j hj
        rw [htm1pool]
        exact getD_set_ne2 _ _ _ _ _ (fun he => hj he.symm)
      have hx_self : tm1.entry_pool.getD x default
          = { tm.entry_pool.getD x default with
              in_bucket := false, next_in_bucket := -1, prev_in_bucket := -1 } := by
        rw [htm1pool]
        exact getD_set_eq2 _ _ _ _ (by omega)
      have hxrest : x ∉ rest := (List.nodup_cons.mp hnd).1
      have hseg1 : isChainSeg tm1 b (x : Int)
          (tm.entry_pool.getD x default).next_in_bucket rest (-1) := by
        refine seg_frame (by rw [htm1]; rfl) (by rw [htm1]; rfl) b rest _ _ _ ?_ h6
        intro j hj
        rw [hx_other j (fun he => hxrest (he ▸ hj))]
      have hIH := IH f tm1 (x : Int) _ hseg1 (List.nodup_cons.mp hnd).2
        (by simpa using hlen)
        (by rw [htm1pool, List.length_set, hpl, htm1]; rfl)
      rw [hstep, hge]
      obtain ⟨i1, i2, i3, i4, i5, i6, i7, i8, i9, i10⟩ := hIH
      have htm1scal : tm1.buckets = tm.buckets ∧ tm1.num_buckets = tm.num_buckets ∧
          tm1.pool_size = tm.pool_size ∧ tm1.pool_head = tm.pool_head ∧
          tm1.last_task_alive = tm.last_task_alive ∧
          tm1.task_entry_head = tm.task_entry_head ∧
          tm1.window_size = tm.window_size := by
        rw [htm1]
        exact ⟨rfl, rfl, rfl, rfl, rfl, rfl, rfl⟩
      refine ⟨by rw [i1, htm1scal.1], by rw [i2, htm1scal.2.1],
        by rw [i3, htm1scal.2.2.1], by rw [i4, htm1scal.2.2.2.1],
        by rw [i5, htm1scal.2.2.2.2.1], by rw [i6, htm1scal.2.2.2.2.2.1],
        by rw [i7, htm1scal.2.2.2.2.2.2],
        by rw [i8, htm1pool]; simp, ?_, ?_⟩
      · intro j hj
        have hj1 : j ∉ rest := fun hr => hj (List.mem_cons_of_mem _ hr)
        have hj2 : j ≠ x := fun he => hj (he ▸ List.mem_cons_self _ _)
        rw [i9 j hj1, hx_other j hj2]
      · intro j hj
        rcases List.mem_cons.mp hj with rfl | hj2
        · rw [i9 j hxrest, hx_self]
          exact ⟨rfl, rfl, rfl, rfl, rfl⟩
        · obtain ⟨c1, c2, c3, c4, c5⟩ := i10 j hj2
          have hjx : j ≠ x := fun he => hxrest (he ▸ hj2)
          exact ⟨c1, c2, c3, by rw [c4, hx_other j hjx],
            by rw [c5, hx_other j hjx]⟩

theorem lastLink_eq_getLast (l : List Nat) (h : l ≠ []) :
    lastLink (-1) l = ((l.getLast h : Nat) : Int) := by
  conv_lhs => rw [← List.dropLast_append_getLast h]
  exact lastLink_append_single _ _ _

theorem walkpost_refl (tm : PTO2TensorMap) (b : Nat) (l1 : List Nat)
    (hchain : isChainSeg tm b (-1) (tm.buckets.getD b (-1)) l1 (-1))
    (hvalid : ∀ j ∈ l1,
      pto2_tensormap_entry_valid tm (tm.entry_pool.getD j default) = true) :
    WalkPost tm tm b l1 [] := by
  refine ⟨[], [], rfl, rfl, rfl, rfl, rfl, rfl, rfl, rfl, rfl,
    fun b2 _ => rfl, fun j _ => rfl,
    fun j => ⟨rfl, rfl, fun h => h⟩, fun j hj => by simp at hj, ?_, ?_⟩
  · rw [List.append_nil]
    exact hchain
  · rw [List.append_nil]
    exact hvalid

theorem entry_valid_congr {tm r : PTO2TensorMap} {e f : PTO2TensorMapEntry}
    (h1 : f.producer_task_id = e.producer_task_id)
    (h2 : r.last_task_alive = tm.last_task_alive) :
    pto2_tensormap_entry_valid r f = pto2_tensormap_entry_valid tm e := by
  unfold pto2_tensormap_entry_valid
  rw [h1, h2]

theorem walk_truncate (b : Nat) (tm tm1 : PTO2TensorMap)
    (prev : Option Nat) (x : Nat) (l1 l2t : List Nat)
    (hpl : tm.entry_pool.length = tm.pool_size)
    (hblen : b < tm.buckets.length)
    (hseg1 : isChainSeg tm b (-1) (tm.buckets.getD b (-1)) l1 (x : Int))
    (hseg2 : isChainSeg tm b (lastLink (-1) l1) (x : Int) (x :: l2t) (-1))
    (htm1 : tm1 = match prev with
      | none => { tm with buckets := tm.buckets.set b (-1) }
      | some p => modifyEntry tm (Int.ofNat p) fun pe => { pe with next_in_bucket := -1 })
    (hprev : (prev = none ∧ l1 = []) ∨
      ∃ p, prev = some p ∧ lastLink (-1) l1 = (p : Int))
    (hnd : (l1 ++ x :: l2t).Nodup)
    (hvalid : ∀ j ∈ l1,
      pto2_tensormap_entry_valid tm (tm.entry_pool.getD j default) = true) :
    WalkPost tm (lookupClear tm1.pool_size tm1 (x : Int)) b l1 (x :: l2t) := by
  have hndl2 : (x :: l2t).Nodup := (List.nodup_append.mp hnd).2.1
  have hdisj : ∀ j ∈ l1, j ∉ x :: l2t := by
    intro j hj hj2
    exact (List.nodup_append.mp hnd).2.2 hj hj2
  rcases hprev with ⟨hpn, hl1⟩ | ⟨p, hps, hlp⟩
  case inl =>
    subst hpn
    subst hl1
    have htm1' : tm1 = { tm with buckets := tm.buckets.set b (-1) } := htm1
    have hh : isChainSeg tm b (-1) (x : Int) (x :: l2t) (-1) := hseg2
    have e1 : tm1.pool_size = tm.pool_size := by rw [htm1']
    have e2 : tm1.num_buckets = tm.num_buckets := by rw [htm1']
    have hentf : ∀ j ∈ (x :: l2t), bucketFields (tm1.entry_pool.getD j default)
        = bucketFields (tm.entry_pool.getD j default) := by
      intro j _
      rw [htm1']
    have hseg2' : isChainSeg tm1 b (-1) (x : Int) (x :: l2t) (-1) :=
      seg_frame e1 e2 b _ _ _ _ hentf hh
    have hlen2 : (x :: l2t).length ≤ tm1.pool_size := by
      refine nodup_bounded_length hndl2 ?_
      intro j hj
      exact (seg_mem tm1 b _ _ _ _ hseg2' j hj).1
    have hcs := lookupClear_spec b (x :: l2t) tm1.pool_size tm1 (-1) (x : Int)
      hseg2' hndl2 hlen2 (by rw [htm1']; simpa using hpl)
    obtain ⟨c1, c2, c3, c4, c5, c6, c7, c8, c9, c10⟩ := hcs
    refine ⟨[], x :: l2t, rfl, ?_, ?_, ?_, ?_, ?_, ?_, ?_, ?_, ?_, ?_, ?_, ?_, ?_, ?_⟩
    · rw [c2, htm1']
    · rw [c3, htm1']
    · rw [c4, htm1']
    · rw [c5, htm1']
    · rw [c6, htm1']
    · rw [c7, htm1']
    · rw [c1, htm1']
      simp
    · rw [c8, htm1']
    · intro b2 hb2
      rw [c1, htm1']
      show (tm.buckets.set b (-1)).getD b2 (-1) = tm.buckets.getD b2 (-1)
      exact getD_set_ne2 _ _ _ _ _ (fun he => hb2 he.symm)
    · intro j hj
      rw [c9 j (by simpa using hj), htm1']
    · intro j
      by_cases hj : j ∈ x :: l2t
      · obtain ⟨d1, d2, d3, d4, d5⟩ := c10 j hj
        refine ⟨by rw [d4, htm1'], by rw [d5, htm1'], ?_⟩
        intro hib
        rw [d1] at hib
        exact absurd hib (by decide)
      · rw [c9 j hj, htm1']
        exact ⟨rfl, rfl, fun h => h⟩
    · intro j hj
      obtain ⟨d1, d2, d3, _, _⟩ := c10 j hj
      exact ⟨d1, d2, d3⟩
    · show isChainSeg _ b (-1) _ [] (-1)
      show (lookupClear tm1.pool_size tm1 (x : Int)).buckets.getD b (-1) = -1
      rw [c1, htm1']
      show (tm.buckets.set b (-1)).getD b (-1) = -1
      exact getD_set_eq2 _ _ _ _ hblen
    · intro j hj
      simp at hj
  case inr =>
    subst hps
    have hl1ne : l1 ≠ [] := by
      intro h
      rw [h] at hlp
      have : (-1 : Int) = (p : Int) := hlp
      omega
    have hgl : l1.getLast hl1ne = p := by
      have := lastLink_eq_getLast l1 hl1ne
      rw [hlp] at this
      exact_mod_cast this.symm
    have hpmem : p ∈ l1 := by
      rw [← hgl]
      exact List.getLast_mem hl1ne
    have hpps : p < tm.pool_size := (seg_mem tm b _ _ _ _ hseg1 p hpmem).1
    have htm1' : tm1 = modifyEntry tm (Int.ofNat p)
        (fun pe => { pe with next_in_bucket := -1 }) := htm1
    have htm1pool : tm1.entry_pool = tm.entry_pool.set p
        ({ tm.entry_pool.getD p default with next_in_bucket := -1 }) := by
      rw [htm1']
      rfl
    have hp_other : ∀ j : Nat, j ≠ p →
        tm1.entry_pool.getD j default = tm.entry_pool.getD j default := by
      intro j hj
      rw [htm1pool]
      exact getD_set_ne2 _ _ _ _ _ (fun he => hj he.symm)
    have hp_self : tm1.entry_pool.getD p default
        = { tm.entry_pool.getD p default with next_in_bucket := -1 } := by
      rw [htm1pool]
      exact getD_set_eq2 _ _ _ _ (by omega)
    have hpnotl2 : p ∉ x :: l2t := hdisj p hpmem
    have e1 : tm1.pool_size = tm.pool_size := by rw [htm1']; rfl
    have e2 : tm1.num_buckets = tm.num_buckets := by rw [htm1']; rfl
    have hh : isChainSeg tm b (p : Int) (x : Int) (x :: l2t) (-1) := by
      rw [← hlp]
      exact hseg2
    have hentf : ∀ j ∈ (x :: l2t), bucketFields (tm1.entry_pool.getD j default)
        = bucketFields (tm.entry_pool.getD j default) := by
      intro j hj
      rw [hp_other j (fun he => hpnotl2 (he ▸ hj))]
    have hseg2' : isChainSeg tm1 b (p : Int) (x : Int) (x :: l2t) (-1) :=
      seg_frame e1 e2 b _ _ _ _ hentf hh
    have hlen2 : (x :: l2t).length ≤ tm1.pool_size := by
      refine nodup_bounded_length hndl2 ?_
      intro j hj
      exact (seg_mem tm1 b _ _ _ _ hseg2' j hj).1
    have hcs := lookupClear_spec b (x :: l2t) tm1.pool_size tm1 (p : Int) (x : Int)
      hseg2' hndl2 hlen2 (by rw [htm1pool, List.length_set, hpl, htm1']; rfl)
    obtain ⟨c1, c2, c3, c4, c5, c6, c7, c8, c9, c10⟩ := hcs
    have htm1scal : tm1.buckets = tm.buckets ∧ tm1.num_buckets = tm.num_buckets ∧
        tm1.pool_size = tm.pool_size ∧ tm1.pool_head = tm.pool_head ∧
        tm1.last_task_alive = tm.last_task_alive ∧
        tm1.task_entry_head = tm.task_entry_head ∧
        tm1.window_size = tm.window_size := by
      rw [htm1']
      exact ⟨rfl, rfl, rfl, rfl, rfl, rfl, rfl⟩
    have hglnotdl : p ∉ l1.dropLast := by
      have hsplit : l1 = l1.dropLast ++ [p] := by
        conv_lhs => rw [← List.dropLast_append_getLast hl1ne]
        rw [hgl]
      have hndl1 : l1.Nodup := (List.nodup_append.mp hnd).1
      rw [hsplit] at hndl1
      intro hmem
      exact (List.nodup_append.mp hndl1).2.2 hmem (List.mem_singleton_self p)
    refine ⟨[], x :: l2t, rfl, ?_, ?_, ?_, ?_, ?_, ?_, ?_, ?_, ?_, ?_, ?_, ?_, ?_, ?_⟩
    · rw [c2, htm1scal.2.1]
    · rw [c3, htm1scal.2.2.1]
    · rw [c4, htm1scal.2.2.2.1]
    · rw [c5, htm1scal.2.2.2.2.1]
    · rw [c6, htm1scal.2.2.2.2.2.1]
    · rw [c7, htm1scal.2.2.2.2.2.2]
    · rw [c1, htm1scal.1]
    · rw [c8, htm1pool]
      simp
    · intro b2 _
      rw [c1, htm1scal.1]
    · intro j hj
      have hj1 : j ∉ x :: l2t := fun h => hj (List.mem_append_right _ h)
      have hj2 : j ≠ p := fun he => hj (List.mem_append_left _ (he ▸ hpmem))
      rw [c9 j hj1, hp_other j hj2]
    · intro j
      by_cases hj : j ∈ x :: l2t
      · obtain ⟨d1, d2, d3, d4, d5⟩ := c10 j hj
        have hjp : j ≠ p := fun he => hpnotl2 (he ▸ hj)
        refine ⟨by rw [d4, hp_other j hjp], by rw [d5, hp_other j hjp], ?_⟩
        intro hib
        rw [d1] at hib
        exact absurd hib (by decide)
      · rw [c9 j hj]
        by_cases hjp : j = p
        · subst hjp
          rw [hp_self]
          exact ⟨rfl, rfl, fun h => h⟩
        · rw [hp_other j hjp]
          exact ⟨rfl, rfl, fun h => h⟩
    · intro j hj
      obtain ⟨d1, d2, d3, _, _⟩ := c10 j hj
      exact ⟨d1, d2, d3⟩
    · rw [List.append_nil, c1, htm1scal.1]
      have f1 : (lookupClear tm1.pool_size tm1 (x : Int)).pool_size = tm.pool_size := by
        rw [c3, htm1scal.2.2.1]
      have f2 : (lookupClear tm1.pool_size tm1 (x : Int)).num_buckets = tm.num_buckets := by
        rw [c2, htm1scal.2.1]
      refine seg_set_out f1 f2 b l1 _ _ _ (-1) hseg1 hl1ne ?_ ?_
      · intro j hj
        have hjp : j ≠ p := fun he => hglnotdl (he ▸ hj)
        have hjl2 : j ∉ x :: l2t := hdisj j (List.dropLast_subset _ hj)
        rw [c9 j hjl2, hp_other j hjp]
      · intro y hy
        have hyp : y = p := by
          have h1 : l1.getLast? = some (l1.getLast hl1ne) :=
            List.getLast?_eq_getLast l1 hl1ne
          rw [h1] at hy
          have := Option.some.inj hy
          rw [← this, hgl]
        subst hyp
        rw [c9 y hpnotl2, hp_self]
        exact ⟨rfl, rfl, rfl, rfl⟩
    · intro j hj
      rw [List.append_nil] at hj
      have hjl2 : j ∉ x :: l2t := hdisj j hj
      have hid : ((lookupClear tm1.pool_size tm1 (x : Int)).entry_pool.getD j
          default).producer_task_id = (tm.entry_pool.getD j default).producer_task_id := by
        rw [c9 j hjl2]
        by_cases hjp : j = p
        · subst hjp
          rw [hp_self]
        · rw [hp_other j hjp]
      have hval : pto2_tensormap_entry_valid (lookupClear tm1.pool_size tm1 (x : Int))
          ((lookupClear tm1.pool_size tm1 (x : Int)).entry_pool.getD j default)
          = pto2_tensormap_entry_valid tm (tm.entry_pool.getD j default) :=
        entry_valid_congr hid (by rw [c5, htm1scal.2.2.2.2.1])
      rw [hval]
      exact hvalid j hj

theorem lookupWalk_spec (t : Tensor) (b : Nat) :
    ∀ (fuel : Nat) (tm : PTO2TensorMap) (prev : Option Nat) (offset : Int)
      (acc : List (Nat × OverlapStatus)) (l1 l2 : List Nat),
      tm.entry_pool.length = tm.pool_size →
      b < tm.buckets.length →
      isChainSeg tm b (-1) (tm.buckets.getD b (-1)) l1 offset →
      isChainSeg tm b (lastLink (-1) l1) offset l2 (-1) →
      ((prev = none ∧ l1 = []) ∨
        ∃ p, prev = some p ∧ lastLink (-1) l1 = (p : Int)) →
      (l1 ++ l2).Nodup →
      l2.length ≤ fuel →
      (∀ j ∈ l1, pto2_tensormap_entry_valid tm (tm.entry_pool.getD j default) = true) →
      WalkPost tm (lookupWalk t b fuel tm prev offset acc).2 b l1 l2 := by
  intro fuel
  induction fuel with
  | zero =>
    intro tm prev offset acc l1 l2 hpl hblen hseg1 hseg2 hprev hnd hlen hvalid
    have hl2 : l2 = [] := List.eq_nil_of_length_eq_zero (by omega)
    subst hl2
    have hoff : offset = -1 := hseg2
    subst hoff
    exact walkpost_refl tm b l1 hseg1 hvalid
  | succ fuel IH =>
    intro tm prev offset acc l1 l2 hpl hblen hseg1 hseg2 hprev hnd hlen hvalid
    have hstep0 : ∀ (tm0 : PTO2TensorMap) (prev0 : Option Nat) (offset0 : Int)
        (acc0 : List (Nat × OverlapStatus)),
        lookupWalk t b (fuel + 1) tm0 prev0 offset0 acc0
        = if offset0 < 0 then (acc0.reverse, tm0)
          else if ! pto2_tensormap_entry_valid tm0 (getEntry tm0 offset0) then
            (acc0.reverse,
              lookupClear
                (match prev0 with
                  | none => { tm0 with buckets := tm0.buckets.set b (-1) }
                  | some p => modifyEntry tm0 (Int.ofNat p)
                      fun pe => { pe with next_in_bucket := -1 }).pool_size
                (match prev0 with
                  | none => { tm0 with buckets := tm0.buckets.set b (-1) }
                  | some p => modifyEntry tm0 (Int.ofNat p)
                      fun pe => { pe with next_in_bucket := -1 })
                offset0)
          else
            lookupWalk t b fuel tm0 (some offset0.toNat)
              (getEntry tm0 offset0).next_in_bucket
              (if t.is_overlap (getEntry tm0 offset0).tensor ≠ OverlapStatus.NO_OVERLAP
               then (offset0.toNat, t.is_overlap (getEntry tm0 offset0).tensor) :: acc0
               else acc0) := fun tm0 prev0 offset0 acc0 => rfl
    by_cases hoff : offset < 0
    · have hl2 : l2 = [] := by
        cases l2 with
        | nil => rfl
        | cons y ys =>
          have hy : offset = (y : Int) := hseg2.1
          omega
      subst hl2
      rw [hstep0, if_pos hoff]
      have hoff2 : offset = -1 := hseg2
      subst hoff2
      exact walkpost_refl tm b l1 hseg1 hvalid
    · cases l2 with
      | nil =>
        exfalso
        have hn : offset = -1 := hseg2
        omega
      | cons x l2t =>
        obtain ⟨h1, h2, h3, h4, h5, h6⟩ := hseg2
        subst h1
        have hge : getEntry tm (x : Int) = tm.entry_pool.getD x default := by
          unfold getEntry
          rw [Int.toNat_ofNat]
        by_cases hval : pto2_tensormap_entry_valid tm (getEntry tm (x : Int)) = true
        · rw [hstep0, if_neg hoff, if_neg (by rw [hval]; decide)]
          have hlisteq : (l1 ++ [x]) ++ l2t = l1 ++ x :: l2t := by
            rw [List.append_assoc]
            rfl
          have hseg1' : isChainSeg tm b (-1) (tm.buckets.getD b (-1)) (l1 ++ [x])
              (getEntry tm (x : Int)).next_in_bucket := by
            rw [hge]
            exact (seg_split tm b l1 [x] _ _ _).mpr
              ⟨(x : Int), hseg1, ⟨rfl, h2, h3, h4, h5, rfl⟩⟩
          have hll : lastLink (-1) (l1 ++ [x]) = (x : Int) :=
            lastLink_append_single _ _ _
          have hseg2' : isChainSeg tm b (lastLink (-1) (l1 ++ [x]))
              (getEntry tm (x : Int)).next_in_bucket l2t (-1) := by
            rw [hll, hge]
            exact h6
          have hnd' : ((l1 ++ [x]) ++ l2t).Nodup := by
            rw [hlisteq]
            exact hnd
          have hvalid' : ∀ j ∈ l1 ++ [x],
              pto2_tensormap_entry_valid tm (tm.entry_pool.getD j default) = true := by
            intro j hj
            rcases List.mem_append.mp hj with hj1 | hj2
            · exact hvalid j hj1
            · rw [List.mem_singleton.mp hj2, ← hge]
              exact hval
          have hIH := IH tm (some ((x : Int)).toNat)
            (getEntry tm (x : Int)).next_in_bucket
            (if t.is_overlap (getEntry tm (x : Int)).tensor ≠ OverlapStatus.NO_OVERLAP
             then (((x : Int)).toNat, t.is_overlap (getEntry tm (x : Int)).tensor) :: acc
             else acc)
            (l1 ++ [x]) l2t hpl hblen
            hseg1' hseg2'
            (Or.inr ⟨((x : Int)).toNat, rfl, by rw [Int.toNat_ofNat]; exact hll⟩) hnd'
            (by simpa using hlen) hvalid'
          obtain ⟨l2a', l2b', heq, c1, c2, c3, c4, c5, c6, c7, c8, c9, c10,
            c11, c12, c13, c14⟩ := hIH
          have hlisteq2 : (l1 ++ [x]) ++ l2a' = l1 ++ x :: l2a' := by
            rw [List.append_assoc]
            rfl
          rw [hlisteq] at c10
          rw [hlisteq2] at c13 c14
          exact ⟨x :: l2a', l2b', by rw [heq]; rfl, c1, c2, c3, c4, c5, c6, c7, c8, c9,
            c10, c11, c12, c13, c14⟩
        · rw [hstep0, if_neg hoff,
            if_pos (by rw [Bool.eq_false_iff.mpr hval]; decide)]
          exact walk_truncate b tm _ prev x l1 l2t hpl hblen hseg1
            ⟨rfl, h2, h3, h4, h5, h6⟩ rfl hprev hnd hvalid

theorem hash_lt_aux (key nb : Nat) (hnb : 0 < nb) : (key &&& (nb - 1)) % 2 ^ 32 < nb := by
  have h1 : key &&& (nb - 1) ≤ nb - 1 := Nat.and_le_right
  by_cases h : nb ≤ 2 ^ 32
  · rw [Nat.mod_eq_of_lt (by omega)]
    omega
  · have h3 : (key &&& (nb - 1)) % 2 ^ 32 < 2 ^ 32 := Nat.mod_lt _ (by norm_num)
    omega

theorem hash_lt (nb : Nat) (t : Tensor) (hnb : 0 < nb) :
    pto2_tensormap_hash nb t < nb :=
  hash_lt_aux _ nb hnb

theorem chain_unique (tm : PTO2TensorMap) (b : Nat) :
    ∀ (l l' : List Nat) (prev prev' cur : Int),
      isChainSeg tm b prev cur l (-1) → isChainSeg tm b prev' cur l' (-1) → l = l' := by
  intro l
  induction l with
  | nil =>
    intro l' prev prev' cur h h'
    cases l' with
    | nil => rfl
    | cons j r =>
      exfalso
      have h1 : cur = -1 := h
      have h2 : cur = (j : Int) := h'.1
      omega
  | cons i r IH =>
    intro l' prev prev' cur h h'
    cases l' with
    | nil =>
      exfalso
      have h1 : cur = -1 := h'
      have h2 : cur = (i : Int) := h.1
      omega
    | cons j r' =>
      obtain ⟨g1, _, _, _, _, g6⟩ := h
      obtain ⟨g1', _, _, _, _, g6'⟩ := h'
      have hij : i = j := by omega
      subst hij
      rw [IH r' _ _ _ g6 g6']

theorem modifyEntry_pool (tm : PTO2TensorMap) (i : Nat)
    (f : PTO2TensorMapEntry → PTO2TensorMapEntry) :
    (modifyEntry tm (i : Int) f).entry_pool
      = tm.entry_pool.set i (f (tm.entry_pool.getD i default)) := by
  show tm.entry_pool.set ((i : Int)).toNat (f (tm.entry_pool.getD ((i : Int)).toNat default))
      = tm.entry_pool.set i (f (tm.entry_pool.getD i default))
  rw [Int.toNat_ofNat]

theorem sync_preserves (tm : PTO2TensorMap) (v : Int) (m : Int) :
    (MapWF tm → MapWF (pto2_tensormap_sync_validity tm v)) ∧
    (ChainsOrdered tm → ChainsOrdered (pto2_tensormap_sync_validity tm v)) ∧
    (IdsBounded tm m → IdsBounded (pto2_tensormap_sync_validity tm v) m) := by
  exact @invariants_frame tm (pto2_tensormap_sync_validity tm v) rfl rfl rfl rfl rfl
    (fun _ => ⟨rfl, rfl⟩) m

theorem init_wf (nb ps ws : Nat) (tm0 : PTO2TensorMap)
    (hpow : ∃ k ≤ 32, nb = 2 ^ k) (hps : 0 < ps)
    (hinit : pto2_tensormap_init nb ps ws = some tm0) :
    MapWF tm0 ∧ ChainsOrdered tm0 ∧ ∀ m : Int, IdsBounded tm0 m := by
  by_cases hc : nb &&& (nb - 1) ≠ 0
  · rw [pto2_tensormap_init, if_pos hc] at hinit
    exact absurd hinit (by simp)
  · rw [pto2_tensormap_init, if_neg hc] at hinit
    have htm := (Option.some.inj hinit).symm
    subst htm
    have hbget : ∀ b : Nat, (List.replicate nb (-1 : Int)).getD b (-1) = -1 := by
      intro b
      rw [List.getD_eq_getElem?_getD, List.getElem?_replicate]
      by_cases hb : b < nb
      · rw [if_pos hb]
        rfl
      · rw [if_neg hb]
        rfl
    have hpget : ∀ j : Nat,
        (List.replicate ps (default : PTO2TensorMapEntry)).getD j default = default := by
      intro j
      rw [List.getD_eq_getElem?_getD, List.getElem?_replicate]
      by_cases hj : j < ps
      · rw [if_pos hj]
        rfl
      · rw [if_neg hj]
        rfl
    refine ⟨⟨by simp, by simp, hps, hps, hpow, ?_⟩, ?_, ?_⟩
    · intro b _
      refine ⟨[], hbget b, List.nodup_nil, ?_⟩
      intro j _ hib
      have hib2 : ((List.replicate ps (default : PTO2TensorMapEntry)).getD j
          default).in_bucket = true := hib
      rw [hpget j] at hib2
      exact absurd hib2 (by decide)
    · intro b _ l hl
      cases l with
      | nil => simp
      | cons j r =>
        exfalso
        have h1 : (List.replicate nb (-1 : Int)).getD b (-1) = (j : Int) := hl.1
        rw [hbget b] at h1
        omega
    · intro m j _ hib
      have hib2 : ((List.replicate ps (default : PTO2TensorMapEntry)).getD j
          default).in_bucket = true := hib
      rw [hpget j] at hib2
      exact absurd hib2 (by decide)

theorem lookup_preserves (tm : PTO2TensorMap) (t : Tensor) (hwf : MapWF tm) :
    MapWF (pto2_tensormap_lookup tm t).2 ∧
    (ChainsOrdered tm → ChainsOrdered (pto2_tensormap_lookup tm t).2) ∧
    (∀ m : Int, IdsBounded tm m → IdsBounded (pto2_tensormap_lookup tm t).2 m) := by
  obtain ⟨w1, w2, w3, w4, w5, w6⟩ := hwf
  obtain ⟨k, hk, hnb⟩ := w5
  have hnbpos : 0 < tm.num_buckets := by
    rw [hnb]
    exact pow_pos (by norm_num) k
  set b := pto2_tensormap_hash tm.num_buckets t with hbdef
  have hblt : b < tm.num_buckets := hash_lt _ _ hnbpos
  obtain ⟨l, hch, hnd, hcomp⟩ := w6 b hblt
  have hseg : isChainSeg tm b (-1) (tm.buckets.getD b (-1)) l (-1) :=
    (isChain_iff_seg tm b l _ _).mp hch
  have hlen : l.length ≤ tm.pool_size :=
    nodup_bounded_length hnd (fun j hj => (seg_mem tm b l _ _ _ hseg j hj).1)
  have hwp : WalkPost tm (lookupWalk t b tm.pool_size tm none (tm.buckets.getD b (-1)) []).2
      b [] l :=
    lookupWalk_spec t b tm.pool_size tm none (tm.buckets.getD b (-1)) [] [] l
      w2 (by omega) rfl hseg (Or.inl ⟨rfl, rfl⟩) hnd hlen
      (fun j hj => absurd hj (List.not_mem_nil j))
  have hlk : (pto2_tensormap_lookup tm t).2
      = (lookupWalk t b tm.pool_size tm none (tm.buckets.getD b (-1)) []).2 := rfl
  rw [hlk]
  set r := (lookupWalk t b tm.pool_size tm none (tm.buckets.getD b (-1)) []).2 with hrdef
  obtain ⟨l2a, l2b, heq, c1, c2, c3, c4, c5, c6, c7, c8, c9, c10, c11, c12, c13, c14⟩ := hwp
  simp only [List.nil_append] at c10 c13 c14
  have hother : ∀ b2, b2 < tm.num_buckets → b2 ≠ b →
      ∀ l', isChain tm b2 (-1) (tm.buckets.getD b2 (-1)) l' →
        isChain r b2 (-1) (r.buckets.getD b2 (-1)) l' := by
    intro b2 _ hbb l' hch'
    have hsegtm' : isChainSeg tm b2 (-1) (tm.buckets.getD b2 (-1)) l' (-1) :=
      (isChain_iff_seg tm b2 l' _ _).mp hch'
    have hl'notin : ∀ j ∈ l', j ∉ l := by
      intro j hj hjl
      have h1 := (seg_mem tm b2 l' _ _ _ hsegtm' j hj).2.2
      have h2 := (seg_mem tm b l _ _ _ hseg j hjl).2.2
      exact hbb (h1.symm.trans h2)
    rw [isChain_iff_seg, c9 b2 hbb]
    exact seg_frame c2 c1 b2 l' _ _ _
      (fun j hj => by rw [c10 j (hl'notin j hj)]) hsegtm'
  refine ⟨⟨?_, ?_, ?_, ?_, ?_, ?_⟩, ?_, ?_⟩
  · rw [c7, c1]
    exact w1
  · rw [c8, c2]
    exact w2
  · rw [c2]
    exact w3
  · rw [c3, c2]
    exact w4
  · rw [c1]
    exact ⟨k, hk, hnb⟩
  · intro b2 hb2
    rw [c1] at hb2
    by_cases hbb : b2 = b
    · subst hbb
      refine ⟨l2a, (isChain_iff_seg r b l2a _ _).mpr c13, ?_, ?_⟩
      · have hnd2 : (l2a ++ l2b).Nodup := heq ▸ hnd
        exact (List.nodup_append.mp hnd2).1
      · intro j hj hib hh
        have hjtm_ib : (tm.entry_pool.getD j default).in_bucket = true := (c11 j).2.2 hib
        have hjl : j ∈ l := by
          refine hcomp j ?_ hjtm_ib ?_
          · rw [c2] at hj
            exact hj
          · rw [← (c11 j).2.1, ← c1]
            exact hh
        rw [heq] at hjl
        rcases List.mem_append.mp hjl with h1 | h2
        · exact h1
        · exfalso
          have hfb := (c12 j h2).1
          rw [hfb] at hib
          exact Bool.noConfusion hib
    · obtain ⟨l', hch', hnd', hcomp'⟩ := w6 b2 hb2
      refine ⟨l', hother b2 hb2 hbb l' hch', hnd', ?_⟩
      intro j hj hib hh
      refine hcomp' j ?_ ((c11 j).2.2 hib) ?_
      · rw [c2] at hj
        exact hj
      · rw [← (c11 j).2.1, ← c1]
        exact hh
  · intro hord b2 hb2 l' hl'
    rw [c1] at hb2
    haveI : IsTrans Int (fun x y => y ≤ x) := ⟨fun _ _ _ h1 h2 => le_trans h2 h1⟩
    have hidmap : ∀ ll : List Nat,
        (ll.map fun i => (r.entry_pool.getD i default).producer_task_id)
          = ll.map fun i => (tm.entry_pool.getD i default).producer_task_id :=
      fun ll => List.map_congr_left fun j _ => (c11 j).1
    by_cases hbb : b2 = b
    · subst hbb
      have hueq : l' = l2a :=
        chain_unique r b l' l2a _ _ _
          ((isChain_iff_seg r b l' _ _).mp hl') c13
      rw [hueq, hidmap]
      have hsub : List.Sublist l2a l := by
        rw [heq]
        exact List.sublist_append_left _ _
      exact (hord b hb2 l hch).sublist (List.Sublist.map _ hsub)
    · obtain ⟨l'', hch'', _, _⟩ := w6 b2 hb2
      have hueq : l' = l'' :=
        chain_unique r b2 l' l'' _ _ _
          ((isChain_iff_seg r b2 l' _ _).mp hl')
          ((isChain_iff_seg r b2 l'' _ _).mp (hother b2 hb2 hbb l'' hch''))
      rw [hueq, hidmap]
      exact hord b2 hb2 l'' hch''
  · intro m hids j hj hib
    rw [c2] at hj
    rw [(c11 j).1]
    exact hids j hj ((c11 j).2.2 hib)

theorem modifyEntry_getD_ne (tm : PTO2TensorMap) (i j : Nat)
    (f : PTO2TensorMapEntry → PTO2TensorMapEntry) (h : i ≠ j) :
    (modifyEntry tm (i : Int) f).entry_pool.getD j default
      = tm.entry_pool.getD j default := by
  rw [modifyEntry_pool]
  exact getD_set_ne2 _ _ _ _ _ h

theorem modifyEntry_getD_eq (tm : PTO2TensorMap) (i : Nat)
    (f : PTO2TensorMapEntry → PTO2TensorMapEntry) (h : i < tm.entry_pool.length) :
    (modifyEntry tm (i : Int) f).entry_pool.getD i default
      = f (tm.entry_pool.getD i default) := by
  rw [modifyEntry_pool]
  exact getD_set_eq2 _ _ _ _ h

theorem modifyEntry_len (tm : PTO2TensorMap) (i : Int)
    (f : PTO2TensorMapEntry → PTO2TensorMapEntry) :
    (modifyEntry tm i f).entry_pool.length = tm.entry_pool.length := by
  show (tm.entry_pool.set _ _).length = tm.entry_pool.length
  simp

theorem remove_preserves (tm : PTO2TensorMap) (n : Nat) (hwf : MapWF tm) :
    MapWF (pto2_tensormap_remove_from_bucket tm (n : Int)) ∧
    (ChainsOrdered tm → ChainsOrdered (pto2_tensormap_remove_from_bucket tm (n : Int))) ∧
    (∀ m : Int, IdsBounded tm m →
      IdsBounded (pto2_tensormap_remove_from_bucket tm (n : Int)) m) := by
  obtain ⟨w1, w2, w3, w4, w5, w6⟩ := hwf
  obtain ⟨k, hk, hnb⟩ := w5
  have hnbpos : 0 < tm.num_buckets := by
    rw [hnb]
    exact pow_pos (by norm_num) k
  set E := tm.entry_pool.getD n default with hEdef
  by_cases hib : E.in_bucket = true
  case neg =>
    have hff : E.in_bucket = false := Bool.eq_false_iff.mpr hib
    have hid : pto2_tensormap_remove_from_bucket tm (n : Int) = tm :=
      if_pos (by simp [hff] : (! E.in_bucket) = true)
    rw [hid]
    exact ⟨⟨w1, w2, w3, w4, ⟨k, hk, hnb⟩, w6⟩, fun h => h, fun _ h => h⟩
  case pos =>
    have hn : n < tm.pool_size := by
      by_contra hcon
      have hlen2 : tm.entry_pool.length ≤ n := by omega
      have hE2 : E = default := by
        rw [hEdef]
        exact List.getD_eq_default _ _ hlen2
      rw [hE2] at hib
      exact absurd hib (by decide)
    set bh := pto2_tensormap_hash tm.num_buckets E.tensor with hbhdef
    have hbh : bh < tm.num_buckets := hash_lt _ _ hnbpos
    have hhashn : pto2_tensormap_hash tm.num_buckets
        (tm.entry_pool.getD n default).tensor = bh := rfl
    obtain ⟨l0, hch, hnd0, hcomp⟩ := w6 bh hbh
    have hmem : n ∈ l0 := hcomp n hn hib rfl
    obtain ⟨l1, l2, hsplit⟩ := List.append_of_mem hmem
    subst hsplit
    have hseg : isChainSeg tm bh (-1) (tm.buckets.getD bh (-1)) (l1 ++ n :: l2) (-1) :=
      (isChain_iff_seg tm bh _ _ _).mp hch
    obtain ⟨mid, hseg1, hseg2⟩ := (seg_split tm bh l1 (n :: l2) _ _ _).mp hseg
    obtain ⟨hmid, _, _, hprevrel, _, hsegl2⟩ := hseg2
    subst hmid
    have hprev2 : E.prev_in_bucket = lastLink (-1) l1 := hprevrel
    have hsegl2' : isChainSeg tm bh ((n : Nat) : Int) E.next_in_bucket l2 (-1) := hsegl2
    have hndl1 : l1.Nodup := (List.nodup_append.mp hnd0).1
    have hndn : (n :: l2).Nodup := (List.nodup_append.mp hnd0).2.1
    have hdisj : ∀ j ∈ l1, j ∉ n :: l2 :=
      fun j hj hj2 => (List.nodup_append.mp hnd0).2.2 hj hj2
    have hnl1 : n ∉ l1 := fun h => hdisj n h (List.mem_cons_self _ _)
    have hnl2 : n ∉ l2 := (List.nodup_cons.mp hndn).1
    have hndl2 : l2.Nodup := (List.nodup_cons.mp hndn).2
    have hdisj12 : ∀ j ∈ l1, j ∉ l2 :=
      fun j hj hj2 => hdisj j hj (List.mem_cons_of_mem _ hj2)
    have hmeml : ∀ j ∈ l1 ++ n :: l2, j < tm.pool_size ∧
        (tm.entry_pool.getD j default).in_bucket = true ∧
        pto2_tensormap_hash tm.num_buckets (tm.entry_pool.getD j default).tensor = bh :=
      fun j hj => seg_mem tm bh _ _ _ _ hseg j hj
    have hmain : ∀ rm : PTO2TensorMap,
        rm.num_buckets = tm.num_buckets →
        rm.pool_size = tm.pool_size →
        rm.pool_head = tm.pool_head →
        rm.buckets.length = tm.buckets.length →
        rm.entry_pool.length = tm.entry_pool.length →
        (∀ j : Nat, j ∉ l1 ++ n :: l2 →
          rm.entry_pool.getD j default = tm.entry_pool.getD j default) →
        (∀ j : Nat, j ≠ n →
          (rm.entry_pool.getD j default).tensor = (tm.entry_pool.getD j default).tensor ∧
          (rm.entry_pool.getD j default).in_bucket
            = (tm.entry_pool.getD j default).in_bucket ∧
          (rm.entry_pool.getD j default).producer_task_id
            = (tm.entry_pool.getD j default).producer_task_id) →
        (rm.entry_pool.getD n default).in_bucket = false →
        (∀ b2 : Nat, b2 ≠ bh → rm.buckets.getD b2 (-1) = tm.buckets.getD b2 (-1)) →
        isChainSeg rm bh (-1) (rm.buckets.getD bh (-1)) (l1 ++ l2) (-1) →
        MapWF rm ∧ (ChainsOrdered tm → ChainsOrdered rm) ∧
          (∀ m : Int, IdsBounded tm m → IdsBounded rm m) := by
      intro rm hf1 hf2 hf3 hf4 hf5 hfa hfb hfn hfe hfd
      have hchain_ne : ∀ j ∈ l1 ++ l2, j ≠ n := by
        intro j hj
        rcases List.mem_append.mp hj with h1 | h2
        · exact fun he => hnl1 (he ▸ h1)
        · exact fun he => hnl2 (he ▸ h2)
      have hnd12 : (l1 ++ l2).Nodup := by
        have hsub : List.Sublist (l1 ++ l2) (l1 ++ n :: l2) :=
          List.Sublist.append_left (List.sublist_cons_self n l2) l1
        exact hnd0.sublist hsub
      have hotherseg : ∀ b2, b2 ≠ bh →
          ∀ l', isChain tm b2 (-1) (tm.buckets.getD b2 (-1)) l' →
            isChain rm b2 (-1) (rm.buckets.getD b2 (-1)) l' := by
        intro b2 hbb l' hch'
        have hsegtm' : isChainSeg tm b2 (-1) (tm.buckets.getD b2 (-1)) l' (-1) :=
          (isChain_iff_seg tm b2 l' _ _).mp hch'
        have hl'notin : ∀ j ∈ l', j ∉ l1 ++ n :: l2 := by
          intro j hj hjl
          have h1 := (seg_mem tm b2 l' _ _ _ hsegtm' j hj).2.2
          have h2 := (hmeml j hjl).2.2
          exact hbb (h1.symm.trans h2)
        rw [isChain_iff_seg, hfe b2 hbb]
        exact seg_frame hf2 hf1 b2 l' _ _ _
          (fun j hj => by rw [hfa j (hl'notin j hj)]) hsegtm'
      refine ⟨⟨?_, ?_, ?_, ?_, ?_, ?_⟩, ?_, ?_⟩
      · rw [hf4, hf1]
        exact w1
      · rw [hf5, hf2]
        exact w2
      · rw [hf2]
        exact w3
      · rw [hf3, hf2]
        exact w4
      · rw [hf1]
        exact ⟨k, hk, hnb⟩
      · intro b2 hb2
        rw [hf1] at hb2
        by_cases hbb : b2 = bh
        · subst hbb
          refine ⟨l1 ++ l2, (isChain_iff_seg rm bh _ _ _).mpr hfd, hnd12, ?_⟩
          intro j hj hjib hjh
          have hjn : j ≠ n := by
            intro he
            rw [he, hfn] at hjib
            exact Bool.noConfusion hjib
          obtain ⟨ht, hb, _⟩ := hfb j hjn
          have hjl : j ∈ l1 ++ n :: l2 := by
            refine hcomp j ?_ ?_ ?_
            · rw [hf2] at hj
              exact hj
            · rw [← hb]
              exact hjib
            · rw [← ht, ← hf1]
              exact hjh
          rcases List.mem_append.mp hjl with h1 | h2
          · exact List.mem_append_left _ h1
          · rcases List.mem_cons.mp h2 with he | h3
            · exact absurd he hjn
            · exact List.mem_append_right _ h3
        · obtain ⟨l', hch', hnd', hcomp'⟩ := w6 b2 hb2
          refine ⟨l', hotherseg b2 hbb l' hch', hnd', ?_⟩
          intro j hj hjib hjh
          have hjn : j ≠ n := by
            intro he
            rw [he, hfn] at hjib
            exact Bool.noConfusion hjib
          obtain ⟨ht, hb, _⟩ := hfb j hjn
          refine hcomp' j ?_ ?_ ?_
          · rw [hf2] at hj
            exact hj
          · rw [← hb]
            exact hjib
          · rw [← ht, ← hf1]
            exact hjh
      · intro hord b2 hb2 l' hl'
        rw [hf1] at hb2
        haveI : IsTrans Int (fun x y => y ≤ x) := ⟨fun _ _ _ h1 h2 => le_trans h2 h1⟩
        by_cases hbb : b2 = bh
        · subst hbb
          have hueq : l' = l1 ++ l2 :=
            chain_unique rm bh l' (l1 ++ l2) _ _ _
              ((isChain_iff_seg rm bh l' _ _).mp hl') hfd
          have hmapc : ((l1 ++ l2).map
                fun i => (rm.entry_pool.getD i default).producer_task_id)
              = (l1 ++ l2).map
                fun i => (tm.entry_pool.getD i default).producer_task_id :=
            List.map_congr_left fun j hj => (hfb j (hchain_ne j hj)).2.2
          rw [hueq, hmapc]
          have hsub : List.Sublist (l1 ++ l2) (l1 ++ n :: l2) :=
            List.Sublist.append_left (List.sublist_cons_self n l2) l1
          exact (hord bh hb2 (l1 ++ n :: l2) hch).sublist (List.Sublist.map _ hsub)
        · obtain ⟨l'', hch'', _, _⟩ := w6 b2 hb2
          have hueq : l' = l'' :=
            chain_unique rm b2 l' l'' _ _ _
              ((isChain_iff_seg rm b2 l' _ _).mp hl')
              ((isChain_iff_seg rm b2 l'' _ _).mp (hotherseg b2 hbb l'' hch''))
          have hne : ∀ j ∈ l'', j ≠ n := by
            intro j hj he
            have h1 := (seg_mem tm b2 l'' _ _ _
              ((isChain_iff_seg tm b2 l'' _ _).mp hch'') j hj).2.2
            rw [he, hhashn] at h1
            exact hbb h1.symm
          have hmapc : (l''.map fun i => (rm.entry_pool.getD i default).producer_task_id)
              = l''.map fun i => (tm.entry_pool.getD i default).producer_task_id :=
            List.map_congr_left fun j hj => (hfb j (hne j hj)).2.2
          rw [hueq, hmapc]
          exact hord b2 hb2 l'' hch''
      · intro m hids j hj hjib
        rw [hf2] at hj
        have hjn : j ≠ n := by
          intro he
          rw [he, hfn] at hjib
          exact Bool.noConfusion hjib
        obtain ⟨_, hb, hid⟩ := hfb j hjn
        rw [hid]
        exact hids j hj (by rw [← hb]; exact hjib)
    have hrm0 : pto2_tensormap_remove_from_bucket tm (n : Int)
        = if ! E.in_bucket then tm
          else
            modifyEntry
              (if E.next_in_bucket ≥ 0 then
                modifyEntry
                  (if E.prev_in_bucket = -1 then
                    { tm with buckets := tm.buckets.set bh E.next_in_bucket }
                   else
                    modifyEntry tm E.prev_in_bucket
                      fun pe => { pe with next_in_bucket := E.next_in_bucket })
                  E.next_in_bucket
                  fun ne2 => { ne2 with prev_in_bucket := E.prev_in_bucket }
               else
                if E.prev_in_bucket = -1 then
                  { tm with buckets := tm.buckets.set bh E.next_in_bucket }
                else
                  modifyEntry tm E.prev_in_bucket
                    fun pe => { pe with next_in_bucket := E.next_in_bucket })
              (n : Int)
              (fun e' => { e' with in_bucket := false, next_in_bucket := -1, prev_in_bucket := -1 }) := rfl
    have houter : ¬ ((! E.in_bucket) = true) := by
      rw [hib]
      decide
    have hm1 : (-1 : Int) = -1 := rfl
    rcases List.eq_nil_or_concat l1 with hl1e | ⟨l1h, p, hl1e⟩
    · subst hl1e
      have hpm1 : E.prev_in_bucket = -1 := hprev2
      cases l2 with
      | nil =>
        have hnm1 : E.next_in_bucket = -1 := hsegl2'
        have hrm1 : pto2_tensormap_remove_from_bucket tm (n : Int)
            = modifyEntry { tm with buckets := tm.buckets.set bh (-1) } (n : Int)
                (fun e' => { e' with in_bucket := false, next_in_bucket := -1, prev_in_bucket := -1 }) := by
          rw [hrm0, if_neg houter, hnm1, hpm1, if_neg (by decide), if_pos hm1]
        rw [hrm1]
        set rm := modifyEntry { tm with buckets := tm.buckets.set bh (-1) } (n : Int)
          (fun e' => { e' with in_bucket := false, next_in_bucket := -1, prev_in_bucket := -1 }) with hrmdef
        have hother_pool : ∀ j : Nat, j ≠ n →
            rm.entry_pool.getD j default = tm.entry_pool.getD j default := by
          intro j hjn
          rw [hrmdef, modifyEntry_getD_ne _ _ _ _ (fun he => hjn he.symm)]
        refine hmain rm rfl rfl rfl ?_ ?_ ?_ ?_ ?_ ?_ ?_
        · show (tm.buckets.set bh (-1)).length = tm.buckets.length
          simp
        · rw [hrmdef, modifyEntry_len]
        · intro j hj
          have hjn : j ≠ n := fun he => hj (he ▸ List.mem_cons_self _ _)
          exact hother_pool j hjn
        · intro j hjn
          rw [hother_pool j hjn]
          exact ⟨rfl, rfl, rfl⟩
        · rw [hrmdef, modifyEntry_getD_eq _ _ _ (by show n < tm.entry_pool.length; omega)]
        · intro b2 hbb
          show (tm.buckets.set bh (-1)).getD b2 (-1) = tm.buckets.getD b2 (-1)
          exact getD_set_ne2 _ _ _ _ _ (fun he => hbb he.symm)
        · show rm.buckets.getD bh (-1) = -1
          show (tm.buckets.set bh (-1)).getD bh (-1) = -1
          exact getD_set_eq2 _ _ _ _ (by omega)
      | cons hd2 l2t =>
        obtain ⟨hnext, hhd2lt, hhd2ib, hhd2prev, hhd2hash, hsegtail⟩ := hsegl2'
        have hhd2n : hd2 ≠ n := by
          intro he
          exact hnl2 (by rw [← he]; exact List.mem_cons_self _ _)
        have hge0 : E.next_in_bucket ≥ 0 := by
          rw [hnext]
          omega
        have hrm1 : pto2_tensormap_remove_from_bucket tm (n : Int)
            = modifyEntry
                (modifyEntry { tm with buckets := tm.buckets.set bh ((hd2 : Nat) : Int) }
                  ((hd2 : Nat) : Int)
                  (fun ne2 => { ne2 with prev_in_bucket := -1 }))
                (n : Int)
                (fun e' => { e' with in_bucket := false, next_in_bucket := -1, prev_in_bucket := -1 }) := by
          rw [hrm0, if_neg houter, hnext, hpm1, if_pos (show ((hd2 : Nat) : Int) ≥ 0 by omega),
            if_pos hm1]
        rw [hrm1]
        set rm := modifyEntry
            (modifyEntry { tm with buckets := tm.buckets.set bh ((hd2 : Nat) : Int) }
              ((hd2 : Nat) : Int)
              (fun ne2 => { ne2 with prev_in_bucket := -1 }))
            (n : Int)
            (fun e' => { e' with in_bucket := false, next_in_bucket := -1, prev_in_bucket := -1 }) with hrmdef
        have hother_pool : ∀ j : Nat, j ≠ n → j ≠ hd2 →
            rm.entry_pool.getD j default = tm.entry_pool.getD j default := by
          intro j hjn hjh
          rw [hrmdef, modifyEntry_getD_ne _ _ _ _ (fun he => hjn he.symm),
            modifyEntry_getD_ne _ _ _ _ (fun he => hjh he.symm)]
        have hhd2_pool : rm.entry_pool.getD hd2 default
            = { tm.entry_pool.getD hd2 default with prev_in_bucket := -1 } := by
          rw [hrmdef, modifyEntry_getD_ne _ _ _ _ (fun he => hhd2n he.symm),
            modifyEntry_getD_eq _ _ _ (by
              show hd2 < ({ tm with buckets := tm.buckets.set bh ((hd2 : Nat) : Int) }
                : PTO2TensorMap).entry_pool.length
              show hd2 < tm.entry_pool.length
              omega)]
        refine hmain rm rfl rfl rfl ?_ ?_ ?_ ?_ ?_ ?_ ?_
        · show (tm.buckets.set bh ((hd2 : Nat) : Int)).length = tm.buckets.length
          simp
        · rw [hrmdef, modifyEntry_len, modifyEntry_len]
        · intro j hj
          have hjn : j ≠ n := fun he => hj (he ▸ List.mem_cons_self _ _)
          have hjh : j ≠ hd2 := fun he => hj
            (he ▸ List.mem_cons_of_mem _ (List.mem_cons_self _ _))
          exact hother_pool j hjn hjh
        · intro j hjn
          by_cases hjh : j = hd2
          · subst hjh
            rw [hhd2_pool]
            exact ⟨rfl, rfl, rfl⟩
          · rw [hother_pool j hjn hjh]
            exact ⟨rfl, rfl, rfl⟩
        · have hlen2 : n < (modifyEntry
              { tm with buckets := tm.buckets.set bh ((hd2 : Nat) : Int) }
              ((hd2 : Nat) : Int)
              (fun ne2 => { ne2 with prev_in_bucket := -1 })).entry_pool.length := by
            rw [modifyEntry_len]
            show n < tm.entry_pool.length
            omega
          rw [hrmdef, modifyEntry_getD_eq _ _ _ hlen2]
        · intro b2 hbb
          show (tm.buckets.set bh ((hd2 : Nat) : Int)).getD b2 (-1)
            = tm.buckets.getD b2 (-1)
          exact getD_set_ne2 _ _ _ _ _ (fun he => hbb he.symm)
        · have hbget : rm.buckets.getD bh (-1) = ((hd2 : Nat) : Int) :=
            getD_set_eq2 _ _ _ _ (by omega)
          rw [hbget]
          show isChainSeg rm bh (-1) ((hd2 : Nat) : Int) (hd2 :: l2t) (-1)
          have hsegX : isChainSeg tm bh ((n : Nat) : Int) ((hd2 : Nat) : Int)
              (hd2 :: l2t) (-1) := ⟨rfl, hhd2lt, hhd2ib, hhd2prev, hhd2hash, hsegtail⟩
          refine @seg_set_head_prev tm rm rfl rfl bh (hd2 :: l2t) ((n : Nat) : Int) (-1)
            ((hd2 : Nat) : Int) (-1) hsegX ?_ ?_ ?_
          · intro x hx
            have hxe : hd2 = x := Option.some.inj hx
            subst hxe
            rw [hhd2_pool]
            exact ⟨rfl, rfl, rfl, rfl⟩
          · intro j hj
            have hjn : j ≠ n := fun he => hnl2 (he ▸ List.mem_cons_of_mem _ hj)
            have hjh : j ≠ hd2 := fun he => (List.nodup_cons.mp hndl2).1 (he ▸ hj)
            rw [hother_pool j hjn hjh]
          · intro h
            exact absurd h (List.cons_ne_nil _ _)
    · rw [List.concat_eq_append] at hl1e
      subst hl1e
      have hpp : E.prev_in_bucket = ((p : Nat) : Int) := by
        rw [hprev2]
        exact lastLink_append_single (-1) l1h p
      have hppne : ¬ (E.prev_in_bucket = -1) := by
        rw [hpp]
        omega
      have hplt : p < tm.pool_size :=
        (hmeml p (List.mem_append_left _ (List.mem_append_right _
          (List.mem_cons_self _ _)))).1
      have hpn : p ≠ n := fun he => hnl1 (he ▸ List.mem_append_right _
        (List.mem_cons_self _ _))
      have hpl1h : p ∉ l1h := by
        intro hmem2
        have := List.nodup_append.mp hndl1
        exact this.2.2 hmem2 (List.mem_cons_self _ _)
      cases l2 with
      | nil =>
        have hnm1 : E.next_in_bucket = -1 := hsegl2'
        have hrm1 : pto2_tensormap_remove_from_bucket tm (n : Int)
            = modifyEntry
                (modifyEntry tm ((p : Nat) : Int)
                  (fun pe => { pe with next_in_bucket := -1 }))
                (n : Int)
                (fun e' => { e' with in_bucket := false, next_in_bucket := -1, prev_in_bucket := -1 }) := by
          rw [hrm0, if_neg houter, hnm1, hpp, if_neg (by decide),
            if_neg (show ¬ (((p : Nat) : Int) = -1) by omega)]
        rw [hrm1]
        set rm := modifyEntry
            (modifyEntry tm ((p : Nat) : Int)
              (fun pe => { pe with next_in_bucket := -1 }))
            (n : Int)
            (fun e' => { e' with in_bucket := false, next_in_bucket := -1, prev_in_bucket := -1 }) with hrmdef
        have hother_pool : ∀ j : Nat, j ≠ n → j ≠ p →
            rm.entry_pool.getD j default = tm.entry_pool.getD j default := by
          intro j hjn hjp
          rw [hrmdef, modifyEntry_getD_ne _ _ _ _ (fun he => hjn he.symm),
            modifyEntry_getD_ne _ _ _ _ (fun he => hjp he.symm)]
        have hp_pool : rm.entry_pool.getD p default
            = { tm.entry_pool.getD p default with next_in_bucket := -1 } := by
          rw [hrmdef, modifyEntry_getD_ne _ _ _ _ (fun he => hpn he.symm),
            modifyEntry_getD_eq _ _ _ (by show p < tm.entry_pool.length; omega)]
        refine hmain rm rfl rfl rfl rfl ?_ ?_ ?_ ?_ ?_ ?_
        · rw [hrmdef, modifyEntry_len, modifyEntry_len]
        · intro j hj
          have hjn : j ≠ n := fun he => hj (he ▸ List.mem_append_right _
            (List.mem_cons_self _ _))
          have hjp : j ≠ p := fun he => hj (he ▸ List.mem_append_left _
            (List.mem_append_right _ (List.mem_cons_self _ _)))
          exact hother_pool j hjn hjp
        · intro j hjn
          by_cases hjp : j = p
          · subst hjp
            rw [hp_pool]
            exact ⟨rfl, rfl, rfl⟩
          · rw [hother_pool j hjn hjp]
            exact ⟨rfl, rfl, rfl⟩
        · have hlen2 : n < (modifyEntry tm ((p : Nat) : Int)
              (fun pe => { pe with next_in_bucket := -1 })).entry_pool.length := by
            rw [modifyEntry_len]
            show n < tm.entry_pool.length
            omega
          rw [hrmdef, modifyEntry_getD_eq _ _ _ hlen2]
        · intro b2 _
          rfl
        · have hbeq : rm.buckets.getD bh (-1) = tm.buckets.getD bh (-1) := rfl
          rw [hbeq, List.append_nil]
          refine @seg_set_out tm rm rfl rfl bh (l1h ++ [p]) (-1) (tm.buckets.getD bh (-1))
            ((n : Nat) : Int) (-1) hseg1 (by simp) ?_ ?_
          · intro j hj
            rw [List.dropLast_concat] at hj
            have hjp : j ≠ p := fun he => hpl1h (he ▸ hj)
            have hjn : j ≠ n := fun he => hnl1 (he ▸ List.mem_append_left _ hj)
            rw [hother_pool j hjn hjp]
          · intro x hx
            have hxe : p = x := by
              rw [List.getLast?_concat] at hx
              exact Option.some.inj hx
            subst hxe
            rw [hp_pool]
            exact ⟨rfl, rfl, rfl, rfl⟩
      | cons hd2 l2t =>
        obtain ⟨hnext, hhd2lt, hhd2ib, hhd2prev, hhd2hash, hsegtail⟩ := hsegl2'
        have hhd2n : hd2 ≠ n := by
          intro he
          exact hnl2 (by rw [← he]; exact List.mem_cons_self _ _)
        have hphd2 : p ≠ hd2 := by
          intro he
          exact hdisj p (List.mem_append_right _ (List.mem_cons_self _ _))
            (by rw [he]; exact List.mem_cons_of_mem _ (List.mem_cons_self _ _))
        have hrm1 : pto2_tensormap_remove_from_bucket tm (n : Int)
            = modifyEntry
                (modifyEntry
                  (modifyEntry tm ((p : Nat) : Int)
                    (fun pe => { pe with next_in_bucket := ((hd2 : Nat) : Int) }))
                  ((hd2 : Nat) : Int)
                  (fun ne2 => { ne2 with prev_in_bucket := ((p : Nat) : Int) }))
                (n : Int)
                (fun e' => { e' with in_bucket := false, next_in_bucket := -1, prev_in_bucket := -1 }) := by
          rw [hrm0, if_neg houter, hnext, hpp,
            if_pos (show ((hd2 : Nat) : Int) ≥ 0 by omega),
            if_neg (show ¬ (((p : Nat) : Int) = -1) by omega)]
        rw [hrm1]
        set rm := modifyEntry
            (modifyEntry
              (modifyEntry tm ((p : Nat) : Int)
                (fun pe => { pe with next_in_bucket := ((hd2 : Nat) : Int) }))
              ((hd2 : Nat) : Int)
              (fun ne2 => { ne2 with prev_in_bucket := ((p : Nat) : Int) }))
            (n : Int)
            (fun e' => { e' with in_bucket := false, next_in_bucket := -1, prev_in_bucket := -1 }) with hrmdef
        have hother_pool : ∀ j : Nat, j ≠ n → j ≠ hd2 → j ≠ p →
            rm.entry_pool.getD j default = tm.entry_pool.getD j default := by
          intro j hjn hjh hjp
          rw [hrmdef, modifyEntry_getD_ne _ _ _ _ (fun he => hjn he.symm),
            modifyEntry_getD_ne _ _ _ _ (fun he => hjh he.symm),
            modifyEntry_getD_ne _ _ _ _ (fun he => hjp he.symm)]
        have hp_pool : rm.entry_pool.getD p default
            = { tm.entry_pool.getD p default with
                next_in_bucket := ((hd2 : Nat) : Int) } := by
          rw [hrmdef, modifyEntry_getD_ne _ _ _ _ (fun he => hpn he.symm),
            modifyEntry_getD_ne _ _ _ _ (fun he => hphd2 he.symm),
            modifyEntry_getD_eq _ _ _ (by show p < tm.entry_pool.length; omega)]
        have hhd2_pool : rm.entry_pool.getD hd2 default
            = { tm.entry_pool.getD hd2 default with
                prev_in_bucket := ((p : Nat) : Int) } := by
          rw [hrmdef, modifyEntry_getD_ne _ _ _ _ (fun he => hhd2n he.symm),
            modifyEntry_getD_eq _ _ _ (by
              show hd2 < (modifyEntry tm ((p : Nat) : Int)
                (fun pe => { pe with next_in_bucket := ((hd2 : Nat) : Int) })).entry_pool.length
              rw [modifyEntry_len]
              show hd2 < tm.entry_pool.length
              omega),
            modifyEntry_getD_ne _ _ _ _ (fun he => hphd2 he)]
        refine hmain rm rfl rfl rfl rfl ?_ ?_ ?_ ?_ ?_ ?_
        · rw [hrmdef, modifyEntry_len, modifyEntry_len, modifyEntry_len]
        · intro j hj
          have hjn : j ≠ n := fun he => hj (he ▸ List.mem_append_right _
            (List.mem_cons_self _ _))
          have hjp : j ≠ p := fun he => hj (he ▸ List.mem_append_left _
            (List.mem_append_right _ (List.mem_cons_self _ _)))
          have hjh : j ≠ hd2 := fun he => hj (he ▸ List.mem_append_right _
            (List.mem_cons_of_mem _ (List.mem_cons_self _ _)))
          exact hother_pool j hjn hjh hjp
        · intro j hjn
          by_cases hjp : j = p
          · subst hjp
            rw [hp_pool]
            exact ⟨rfl, rfl, rfl⟩
          · by_cases hjh : j = hd2
            · subst hjh
              rw [hhd2_pool]
              exact ⟨rfl, rfl, rfl⟩
            · rw [hother_pool j hjn hjh hjp]
              exact ⟨rfl, rfl, rfl⟩
        · have hlen2 : n < (modifyEntry
              (modifyEntry tm ((p : Nat) : Int)
                (fun pe => { pe with next_in_bucket := ((hd2 : Nat) : Int) }))
              ((hd2 : Nat) : Int)
              (fun ne2 => { ne2 with prev_in_bucket := ((p : Nat) : Int) })).entry_pool.length := by
            rw [modifyEntry_len, modifyEntry_len]
            show n < tm.entry_pool.length
            omega
          rw [hrmdef, modifyEntry_getD_eq _ _ _ hlen2]
        · intro b2 _
          rfl
        · have hbeq : rm.buckets.getD bh (-1) = tm.buckets.getD bh (-1) := rfl
          rw [hbeq]
          have hpart1 : isChainSeg rm bh (-1) (tm.buckets.getD bh (-1)) (l1h ++ [p])
              ((hd2 : Nat) : Int) := by
            refine @seg_set_out tm rm rfl rfl bh (l1h ++ [p]) (-1) (tm.buckets.getD bh (-1))
              ((n : Nat) : Int) ((hd2 : Nat) : Int) hseg1 (by simp) ?_ ?_
            · intro j hj
              rw [List.dropLast_concat] at hj
              have hjp : j ≠ p := fun he => hpl1h (he ▸ hj)
              have hjn : j ≠ n := fun he => hnl1 (he ▸ List.mem_append_left _ hj)
              have hjh : j ≠ hd2 := fun he => hdisj j (List.mem_append_left _ hj)
                (he ▸ List.mem_cons_of_mem _ (List.mem_cons_self _ _))
              rw [hother_pool j hjn hjh hjp]
            · intro x hx
              have hxe : p = x := by
                rw [List.getLast?_concat] at hx
                exact Option.some.inj hx
              subst hxe
              rw [hp_pool]
              exact ⟨rfl, rfl, rfl, rfl⟩
          have hsegX : isChainSeg tm bh ((n : Nat) : Int) ((hd2 : Nat) : Int)
              (hd2 :: l2t) (-1) := ⟨rfl, hhd2lt, hhd2ib, hhd2prev, hhd2hash, hsegtail⟩
          have hpart2 : isChainSeg rm bh ((p : Nat) : Int) ((hd2 : Nat) : Int)
              (hd2 :: l2t) (-1) := by
            refine @seg_set_head_prev tm rm rfl rfl bh (hd2 :: l2t) ((n : Nat) : Int)
              ((p : Nat) : Int) ((hd2 : Nat) : Int) (-1) hsegX ?_ ?_ ?_
            · intro x hx
              have hxe : hd2 = x := Option.some.inj hx
              subst hxe
              rw [hhd2_pool]
              exact ⟨rfl, rfl, rfl, rfl⟩
            · intro j hj
              have hjn : j ≠ n := fun he => hnl2 (he ▸ List.mem_cons_of_mem _ hj)
              have hjh : j ≠ hd2 := fun he => (List.nodup_cons.mp hndl2).1 (he ▸ hj)
              have hjp : j ≠ p := fun he => hdisj12 p
                (List.mem_append_right _ (List.mem_cons_self _ _))
                (he ▸ List.mem_cons_of_mem _ hj)
              rw [hother_pool j hjn hjh hjp]
            · intro h
              exact absurd h (List.cons_ne_nil _ _)
          refine (seg_split rm bh (l1h ++ [p]) (hd2 :: l2t) _ _ _).mpr
            ⟨((hd2 : Nat) : Int), hpart1, ?_⟩
          rw [lastLink_append_single]
          exact hpart2

theorem getD_set_self_any {α : Type} (l : List α) (i : Nat) (v d : α) :
    (l.set i v).getD i d = if i < l.length then v else d := by
  by_cases h : i < l.length
  · rw [if_pos h]
    exact getD_set_eq2 _ _ _ _ h
  · rw [if_neg h]
    have h1 : (l.set i v).length ≤ i := by
      rw [List.length_set]
      omega
    rw [List.getD_eq_default _ _ h1]

theorem cleanupTaskWalk_preserves (task_id : Int) :
    ∀ (fuel : Nat) (tm : PTO2TensorMap) (offset : Int),
      MapWF tm →
      MapWF (cleanupTaskWalk task_id fuel tm offset) ∧
      (ChainsOrdered tm → ChainsOrdered (cleanupTaskWalk task_id fuel tm offset)) ∧
      (∀ m : Int, IdsBounded tm m → IdsBounded (cleanupTaskWalk task_id fuel tm offset) m) := by
  intro fuel
  induction fuel with
  | zero =>
    intro tm offset hwf
    exact ⟨hwf, fun h => h, fun _ h => h⟩
  | succ fuel IH =>
    intro tm offset hwf
    have hstep : cleanupTaskWalk task_id (fuel + 1) tm offset
        = if offset < 0 then tm
          else
            cleanupTaskWalk task_id fuel
              (if (getEntry tm offset).producer_task_id = task_id then
                modifyEntry (pto2_tensormap_remove_from_bucket tm offset) offset
                  (fun e' => { e' with next_in_task := -1, prev_in_task := -1 })
               else tm)
              (getEntry tm offset).next_in_task := rfl
    rw [hstep]
    by_cases hoff : offset < 0
    · rw [if_pos hoff]
      exact ⟨hwf, fun h => h, fun _ h => h⟩
    · rw [if_neg hoff]
      obtain ⟨n0, rfl⟩ : ∃ n0 : Nat, offset = (n0 : Int) :=
        ⟨offset.toNat, (Int.toNat_of_nonneg (by omega)).symm⟩
      by_cases hpid : (getEntry tm ((n0 : Nat) : Int)).producer_task_id = task_id
      · rw [if_pos hpid]
        obtain ⟨hwf2, hord2, hids2⟩ := remove_preserves tm n0 hwf
        have hent : ∀ j : Nat,
            bucketFields ((modifyEntry (pto2_tensormap_remove_from_bucket tm ((n0 : Nat) : Int))
                ((n0 : Nat) : Int)
                (fun e' => { e' with next_in_task := -1, prev_in_task := -1 })).entry_pool.getD
                  j default)
              = bucketFields ((pto2_tensormap_remove_from_bucket tm
                  ((n0 : Nat) : Int)).entry_pool.getD j default) ∧
            ((modifyEntry (pto2_tensormap_remove_from_bucket tm ((n0 : Nat) : Int))
                ((n0 : Nat) : Int)
                (fun e' => { e' with next_in_task := -1, prev_in_task := -1 })).entry_pool.getD
                  j default).producer_task_id
              = ((pto2_tensormap_remove_from_bucket tm
                  ((n0 : Nat) : Int)).entry_pool.getD j default).producer_task_id := by
          intro j
          by_cases hj : j = n0
          · subst hj
            rw [modifyEntry_pool, getD_set_self_any]
            by_cases hl : j < (pto2_tensormap_remove_from_bucket tm
                ((j : Nat) : Int)).entry_pool.length
            · rw [if_pos hl]
              exact ⟨rfl, rfl⟩
            · rw [if_neg hl, List.getD_eq_default _ _ (le_of_not_lt hl)]
              exact ⟨rfl, rfl⟩
          · rw [modifyEntry_getD_ne _ _ _ _ (fun he => hj he.symm)]
            exact ⟨rfl, rfl⟩
        have hfr := @invariants_frame (pto2_tensormap_remove_from_bucket tm ((n0 : Nat) : Int))
          (modifyEntry (pto2_tensormap_remove_from_bucket tm ((n0 : Nat) : Int))
            ((n0 : Nat) : Int)
            (fun e' => { e' with next_in_task := -1, prev_in_task := -1 }))
          rfl rfl rfl rfl (modifyEntry_len _ _ _) hent
        obtain ⟨g1, g2, g3⟩ := IH
          (modifyEntry (pto2_tensormap_remove_from_bucket tm ((n0 : Nat) : Int))
            ((n0 : Nat) : Int)
            (fun e' => { e' with next_in_task := -1, prev_in_task := -1 }))
          (getEntry tm ((n0 : Nat) : Int)).next_in_task ((hfr 0).1 hwf2)
        exact ⟨g1, fun ho => g2 ((hfr 0).2.1 (hord2 ho)),
          fun m hm => g3 m ((hfr m).2.2 (hids2 m hm))⟩
      · rw [if_neg hpid]
        obtain ⟨g1, g2, g3⟩ := IH tm (getEntry tm ((n0 : Nat) : Int)).next_in_task hwf
        exact ⟨g1, g2, g3⟩

theorem cleanupOneTask_preserves (tm : PTO2TensorMap) (task_id : Int) (hwf : MapWF tm) :
    MapWF (cleanupOneTask tm task_id) ∧
    (ChainsOrdered tm → ChainsOrdered (cleanupOneTask tm task_id)) ∧
    (∀ m : Int, IdsBounded tm m → IdsBounded (cleanupOneTask tm task_id) m) := by
  obtain ⟨h1, h2, h3⟩ := cleanupTaskWalk_preserves task_id tm.pool_size tm
    (tm.task_entry_head.getD (task_id % (tm.window_size : Int)).toNat (-1)) hwf
  have hone : cleanupOneTask tm task_id
      = { cleanupTaskWalk task_id tm.pool_size tm
            (tm.task_entry_head.getD (task_id % (tm.window_size : Int)).toNat (-1)) with
          task_entry_head :=
            (cleanupTaskWalk task_id tm.pool_size tm
              (tm.task_entry_head.getD (task_id % (tm.window_size : Int)).toNat
                (-1))).task_entry_head.set
              (task_id % (tm.window_size : Int)).toNat (-1) } := rfl
  rw [hone]
  have hfr := @invariants_frame
    (cleanupTaskWalk task_id tm.pool_size tm
      (tm.task_entry_head.getD (task_id % (tm.window_size : Int)).toNat (-1)))
    { cleanupTaskWalk task_id tm.pool_size tm
        (tm.task_entry_head.getD (task_id % (tm.window_size : Int)).toNat (-1)) with
      task_entry_head :=
        (cleanupTaskWalk task_id tm.pool_size tm
          (tm.task_entry_head.getD (task_id % (tm.window_size : Int)).toNat
            (-1))).task_entry_head.set
          (task_id % (tm.window_size : Int)).toNat (-1) }
    rfl rfl rfl rfl rfl (fun _ => ⟨rfl, rfl⟩)
  exact ⟨(hfr 0).1 h1, fun ho => (hfr 0).2.1 (h2 ho), fun m hm => (hfr m).2.2 (h3 m hm)⟩

theorem cleanupLoop_preserves :
    ∀ (k2 : Nat) (tid : Int) (tm : PTO2TensorMap),
      MapWF tm →
      MapWF (cleanupLoop k2 tid tm) ∧
      (ChainsOrdered tm → ChainsOrdered (cleanupLoop k2 tid tm)) ∧
      (∀ m : Int, IdsBounded tm m → IdsBounded (cleanupLoop k2 tid tm) m) := by
  intro k2
  induction k2 with
  | zero =>
    intro tid tm hwf
    exact ⟨hwf, fun h => h, fun _ h => h⟩
  | succ k2 IH =>
    intro tid tm hwf
    have hstep : cleanupLoop (k2 + 1) tid tm
        = cleanupLoop k2 (tid + 1) (cleanupOneTask tm tid) := rfl
    rw [hstep]
    obtain ⟨h1, h2, h3⟩ := cleanupOneTask_preserves tm tid hwf
    obtain ⟨g1, g2, g3⟩ := IH (tid + 1) (cleanupOneTask tm tid) h1
    exact ⟨g1, fun ho => g2 (h2 ho), fun m hm => g3 m (h3 m hm)⟩

theorem cleanup_preserves (tm : PTO2TensorMap) (oldT newT : Int) (hwf : MapWF tm) :
    MapWF (pto2_tensormap_cleanup_retired tm oldT newT) ∧
    (ChainsOrdered tm → ChainsOrdered (pto2_tensormap_cleanup_retired tm oldT newT)) ∧
    (∀ m : Int, IdsBounded tm m →
      IdsBounded (pto2_tensormap_cleanup_retired tm oldT newT) m) :=
  cleanupLoop_preserves (newT - oldT).toNat oldT tm hwf

theorem insert_preserves (tm tm' : PTO2TensorMap) (t : Tensor) (pid : Int) (wa : Bool)
    (hwf : MapWF tm)
    (hins : pto2_tensormap_insert tm t pid wa = some tm') :
    MapWF tm' ∧
    (∀ m : Int, ChainsOrdered tm → IdsBounded tm m → m ≤ pid →
      ChainsOrdered tm' ∧ IdsBounded tm' pid) := by
  obtain ⟨w1, w2, w3, w4, w5, w6⟩ := hwf
  obtain ⟨k, hk, hnb⟩ := w5
  have hnbpos : 0 < tm.num_buckets := by
    rw [hnb]
    exact pow_pos (by norm_num) k
  set HD := tm.pool_head with hHDdef
  set B := pto2_tensormap_hash tm.num_buckets t with hBdef
  have hblt : B < tm.num_buckets := hash_lt _ _ hnbpos
  set OH := tm.buckets.getD B (-1) with hOHdef
  set SL := (pid % (tm.window_size : Int)).toNat with hSLdef
  set OT := tm.task_entry_head.getD SL (-1) with hOTdef
  by_cases h0 : (tm.entry_pool.getD HD default).in_bucket = true
  case pos =>
    exfalso
    have hnone : pto2_tensormap_insert tm t pid wa = none := if_pos h0
    rw [hins] at hnone
    exact Option.noConfusion hnone
  case neg =>
    have hHDib : (tm.entry_pool.getD HD default).in_bucket = false :=
      Bool.eq_false_iff.mpr h0
    have hsome0 : pto2_tensormap_insert tm t pid wa
        = if (tm.entry_pool.getD HD default).in_bucket then none
          else some { (if OT ≥ 0 then modifyEntry { (if OH ≥ 0 then modifyEntry { { tm with pool_head := (tm.pool_head + 1) % tm.pool_size } with entry_pool := tm.entry_pool.set HD { tensor := t, producer_task_id := pid, with_alloc := wa, in_bucket := true, next_in_bucket := OH, prev_in_bucket := -1, next_in_task := OT, prev_in_task := -1 } } OH (fun he2 => { he2 with prev_in_bucket := ((HD : Nat) : Int) }) else { { tm with pool_head := (tm.pool_head + 1) % tm.pool_size } with entry_pool := tm.entry_pool.set HD { tensor := t, producer_task_id := pid, with_alloc := wa, in_bucket := true, next_in_bucket := OH, prev_in_bucket := -1, next_in_task := OT, prev_in_task := -1 } }) with buckets := (if OH ≥ 0 then modifyEntry { { tm with pool_head := (tm.pool_head + 1) % tm.pool_size } with entry_pool := tm.entry_pool.set HD { tensor := t, producer_task_id := pid, with_alloc := wa, in_bucket := true, next_in_bucket := OH, prev_in_bucket := -1, next_in_task := OT, prev_in_task := -1 } } OH (fun he2 => { he2 with prev_in_bucket := ((HD : Nat) : Int) }) else { { tm with pool_head := (tm.pool_head + 1) % tm.pool_size } with entry_pool := tm.entry_pool.set HD { tensor := t, producer_task_id := pid, with_alloc := wa, in_bucket := true, next_in_bucket := OH, prev_in_bucket := -1, next_in_task := OT, prev_in_task := -1 } }).buckets.set B ((HD : Nat) : Int) } OT (fun he2 => { he2 with prev_in_task := ((HD : Nat) : Int) }) else { (if OH ≥ 0 then modifyEntry { { tm with pool_head := (tm.pool_head + 1) % tm.pool_size } with entry_pool := tm.entry_pool.set HD { tensor := t, producer_task_id := pid, with_alloc := wa, in_bucket := true, next_in_bucket := OH, prev_in_bucket := -1, next_in_task := OT, prev_in_task := -1 } } OH (fun he2 => { he2 with prev_in_bucket := ((HD : Nat) : Int) }) else { { tm with pool_head := (tm.pool_head + 1) % tm.pool_size } with entry_pool := tm.entry_pool.set HD { tensor := t, producer_task_id := pid, with_alloc := wa, in_bucket := true, next_in_bucket := OH, prev_in_bucket := -1, next_in_task := OT, prev_in_task := -1 } }) with buckets := (if OH ≥ 0 then modifyEntry { { tm with pool_head := (tm.pool_head + 1) % tm.pool_size } with entry_pool := tm.entry_pool.set HD { tensor := t, producer_task_id := pid, with_alloc := wa, in_bucket := true, next_in_bucket := OH, prev_in_bucket := -1, next_in_task := OT, prev_in_task := -1 } } OH (fun he2 => { he2 with prev_in_bucket := ((HD : Nat) : Int) }) else { { tm with pool_head := (tm.pool_head + 1) % tm.pool_size } with entry_pool := tm.entry_pool.set HD { tensor := t, producer_task_id := pid, with_alloc := wa, in_bucket := true, next_in_bucket := OH, prev_in_bucket := -1, next_in_task := OT, prev_in_task := -1 } }).buckets.set B ((HD : Nat) : Int) }) with task_entry_head := (if OT ≥ 0 then modifyEntry { (if OH ≥ 0 then modifyEntry { { tm with pool_head := (tm.pool_head + 1) % tm.pool_size } with entry_pool := tm.entry_pool.set HD { tensor := t, producer_task_id := pid, with_alloc := wa, in_bucket := true, next_in_bucket := OH, prev_in_bucket := -1, next_in_task := OT, prev_in_task := -1 } } OH (fun he2 => { he2 with prev_in_bucket := ((HD : Nat) : Int) }) else { { tm with pool_head := (tm.pool_head + 1) % tm.pool_size } with entry_pool := tm.entry_pool.set HD { tensor := t, producer_task_id := pid, with_alloc := wa, in_bucket := true, next_in_bucket := OH, prev_in_bucket := -1, next_in_task := OT, prev_in_task := -1 } }) with buckets := (if OH ≥ 0 then modifyEntry { { tm with pool_head := (tm.pool_head + 1) % tm.pool_size } with entry_pool := tm.entry_pool.set HD { tensor := t, producer_task_id := pid, with_alloc := wa, in_bucket := true, next_in_bucket := OH, prev_in_bucket := -1, next_in_task := OT, prev_in_task := -1 } } OH (fun he2 => { he2 with prev_in_bucket := ((HD : Nat) : Int) }) else { { tm with pool_head := (tm.pool_head + 1) % tm.pool_size } with entry_pool := tm.entry_pool.set HD { tensor := t, producer_task_id := pid, with_alloc := wa, in_bucket := true, next_in_bucket := OH, prev_in_bucket := -1, next_in_task := OT, prev_in_task := -1 } }).buckets.set B ((HD : Nat) : Int) } OT (fun he2 => { he2 with prev_in_task := ((HD : Nat) : Int) }) else { (if OH ≥ 0 then modifyEntry { { tm with pool_head := (tm.pool_head + 1) % tm.pool_size } with entry_pool := tm.entry_pool.set HD { tensor := t, producer_task_id := pid, with_alloc := wa, in_bucket := true, next_in_bucket := OH, prev_in_bucket := -1, next_in_task := OT, prev_in_task := -1 } } OH (fun he2 => { he2 with prev_in_bucket := ((HD : Nat) : Int) }) else { { tm with pool_head := (tm.pool_head + 1) % tm.pool_size } with entry_pool := tm.entry_pool.set HD { tensor := t, producer_task_id := pid, with_alloc := wa, in_bucket := true, next_in_bucket := OH, prev_in_bucket := -1, next_in_task := OT, prev_in_task := -1 } }) with buckets := (if OH ≥ 0 then modifyEntry { { tm with pool_head := (tm.pool_head + 1) % tm.pool_size } with entry_pool := tm.entry_pool.set HD { tensor := t, producer_task_id := pid, with_alloc := wa, in_bucket := true, next_in_bucket := OH, prev_in_bucket := -1, next_in_task := OT, prev_in_task := -1 } } OH (fun he2 => { he2 with prev_in_bucket := ((HD : Nat) : Int) }) else { { tm with pool_head := (tm.pool_head + 1) % tm.pool_size } with entry_pool := tm.entry_pool.set HD { tensor := t, producer_task_id := pid, with_alloc := wa, in_bucket := true, next_in_bucket := OH, prev_in_bucket := -1, next_in_task := OT, prev_in_task := -1 } }).buckets.set B ((HD : Nat) : Int) }).task_entry_head.set SL ((HD : Nat) : Int) } := rfl
    have hsome := hsome0
    rw [if_neg h0] at hsome
    obtain ⟨l, hch, hnd, hcomp⟩ := w6 B hblt
    cases l with
    | nil =>
      have hOHv : OH = -1 := hch
      rw [hOHv, if_neg (by decide : ¬ ((-1 : Int) ≥ 0))] at hsome
      set EN := ({ tensor := t, producer_task_id := pid, with_alloc := wa, in_bucket := true, next_in_bucket := -1, prev_in_bucket := -1, next_in_task := OT, prev_in_task := -1 } : PTO2TensorMapEntry) with hEN
      set TM1v := ({ { tm with pool_head := (tm.pool_head + 1) % tm.pool_size } with
        entry_pool := tm.entry_pool.set HD EN } : PTO2TensorMap) with hTM1
      set TM3v := ({ TM1v with buckets := TM1v.buckets.set B ((HD : Nat) : Int) }
        : PTO2TensorMap) with hTM3
      rw [hsome] at hins
      have heq := Option.some.inj hins
      rw [← heq]
      have hpoolHD : TM3v.entry_pool.getD HD default = EN :=
        getD_set_eq2 tm.entry_pool HD EN default (by omega)
      have hpoolother : ∀ j : Nat, j ≠ HD →
          TM3v.entry_pool.getD j default = tm.entry_pool.getD j default :=
        fun j hj => getD_set_ne2 tm.entry_pool HD j EN default (fun he => hj he.symm)
      have hbB : TM3v.buckets.getD B (-1) = ((HD : Nat) : Int) := by
        have hlen : B < TM1v.buckets.length := by
          show B < tm.buckets.length
          omega
        exact getD_set_eq2 TM1v.buckets B ((HD : Nat) : Int) (-1) hlen
      have hbother : ∀ b2 : Nat, b2 ≠ B →
          TM3v.buckets.getD b2 (-1) = tm.buckets.getD b2 (-1) :=
        fun b2 hb2 => getD_set_ne2 TM1v.buckets B b2 ((HD : Nat) : Int) (-1)
          (fun he => hb2 he.symm)
      have hchainB : isChain TM3v B (-1) (TM3v.buckets.getD B (-1)) [HD] := by
        refine ⟨hbB, ?_, ?_, ?_, ?_, ?_⟩
        · show HD < tm.pool_size
          omega
        · rw [hpoolHD]
        · rw [hpoolHD]
        · rw [hpoolHD]
        · rw [hpoolHD]
          rfl
      have hotherseg : ∀ b2, b2 < tm.num_buckets → b2 ≠ B →
          ∀ l', isChain tm b2 (-1) (tm.buckets.getD b2 (-1)) l' →
            isChain TM3v b2 (-1) (TM3v.buckets.getD b2 (-1)) l' ∧ ∀ j ∈ l', j ≠ HD := by
        intro b2 _ hbb l' hch'
        have hsegtm' : isChainSeg tm b2 (-1) (tm.buckets.getD b2 (-1)) l' (-1) :=
          (isChain_iff_seg tm b2 l' _ _).mp hch'
        have hne : ∀ j ∈ l', j ≠ HD := by
          intro j hj he
          have h1 := (seg_mem tm b2 l' _ _ _ hsegtm' j hj).2.1
          rw [he, hHDib] at h1
          exact Bool.noConfusion h1
        refine ⟨?_, hne⟩
        rw [isChain_iff_seg, hbother b2 hbb]
        exact @seg_frame tm TM3v rfl rfl b2 l' _ _ _
          (fun j hj => by rw [hpoolother j (hne j hj)]) hsegtm'
      have htrip3 : MapWF TM3v ∧
          (∀ m : Int, ChainsOrdered tm → IdsBounded tm m → m ≤ pid →
            ChainsOrdered TM3v ∧ IdsBounded TM3v pid) := by
        constructor
        · refine ⟨?_, ?_, w3, ?_, ⟨k, hk, hnb⟩, ?_⟩
          · show (TM1v.buckets.set B ((HD : Nat) : Int)).length = tm.num_buckets
            rw [List.length_set]
            exact w1
          · show (tm.entry_pool.set HD EN).length = tm.pool_size
            rw [List.length_set]
            exact w2
          · show (tm.pool_head + 1) % tm.pool_size < tm.pool_size
            exact Nat.mod_lt _ w3
          · intro b2 hb2
            by_cases hbb : b2 = B
            · subst hbb
              refine ⟨[HD], hchainB, by simp, ?_⟩
              intro j hj hjib hjh
              by_cases hjHD : j = HD
              · rw [hjHD]
                exact List.mem_cons_self _ _
              · rw [hpoolother j hjHD] at hjib hjh
                exact absurd (hcomp j hj hjib hjh) (List.not_mem_nil j)
            · obtain ⟨l', hch', hnd', hcomp'⟩ := w6 b2 hb2
              refine ⟨l', (hotherseg b2 hb2 hbb l' hch').1, hnd', ?_⟩
              intro j hj hjib hjh
              by_cases hjHD : j = HD
              · exfalso
                rw [hjHD, hpoolHD] at hjh
                exact hbb ((hjh.symm.trans (rfl : pto2_tensormap_hash TM3v.num_buckets
                  EN.tensor = B)).symm).symm
              · rw [hpoolother j hjHD] at hjib hjh
                exact hcomp' j hj hjib hjh
        · intro m ho hi hm
          haveI : IsTrans Int (fun x y => y ≤ x) := ⟨fun _ _ _ h1 h2 => le_trans h2 h1⟩
          constructor
          · intro b2 hb2 l' hl'
            by_cases hbb : b2 = B
            · subst hbb
              have hueq : l' = [HD] :=
                chain_unique TM3v B l' [HD] _ _ _
                  ((isChain_iff_seg TM3v B l' _ _).mp hl')
                  ((isChain_iff_seg TM3v B [HD] _ _).mp hchainB)
              rw [hueq]
              simp
            · obtain ⟨l'', hch'', _, _⟩ := w6 b2 hb2
              obtain ⟨hch2, hne⟩ := hotherseg b2 hb2 hbb l'' hch''
              have hueq : l' = l'' :=
                chain_unique TM3v b2 l' l'' _ _ _
                  ((isChain_iff_seg TM3v b2 l' _ _).mp hl')
                  ((isChain_iff_seg TM3v b2 l'' _ _).mp hch2)
              have hmapc : (l''.map fun i => (TM3v.entry_pool.getD i default).producer_task_id)
                  = l''.map fun i => (tm.entry_pool.getD i default).producer_task_id :=
                List.map_congr_left fun j hj => by rw [hpoolother j (hne j hj)]
              rw [hueq, hmapc]
              exact ho b2 hb2 l'' hch''
          · intro j hj hjib
            by_cases hjHD : j = HD
            · subst hjHD
              rw [hpoolHD]
            · rw [hpoolother j hjHD] at hjib ⊢
              exact le_trans (hi j hj hjib) hm
      by_cases hOT : OT ≥ 0
      · obtain ⟨ot, hot⟩ : ∃ ot : Nat, OT = (ot : Int) :=
          ⟨OT.toNat, (Int.toNat_of_nonneg hOT).symm⟩
        rw [hot] at hOT ⊢
        rw [if_pos hOT]
        have hent : ∀ j : Nat,
            bucketFields ((modifyEntry TM3v ((ot : Nat) : Int)
                (fun he2 => { he2 with prev_in_task := ((HD : Nat) : Int) })).entry_pool.getD
                  j default)
              = bucketFields (TM3v.entry_pool.getD j default) ∧
            ((modifyEntry TM3v ((ot : Nat) : Int)
                (fun he2 => { he2 with prev_in_task := ((HD : Nat) : Int) })).entry_pool.getD
                  j default).producer_task_id
              = (TM3v.entry_pool.getD j default).producer_task_id := by
          intro j
          by_cases hj : j = ot
          · subst hj
            rw [modifyEntry_pool, getD_set_self_any]
            by_cases hl : j < TM3v.entry_pool.length
            · rw [if_pos hl]
              exact ⟨rfl, rfl⟩
            · rw [if_neg hl, List.getD_eq_default _ _ (le_of_not_lt hl)]
              exact ⟨rfl, rfl⟩
          · rw [modifyEntry_getD_ne _ _ _ _ (fun he => hj he.symm)]
            exact ⟨rfl, rfl⟩
        have hfr1 := @invariants_frame TM3v
          (modifyEntry TM3v ((ot : Nat) : Int)
            (fun he2 => { he2 with prev_in_task := ((HD : Nat) : Int) }))
          rfl rfl rfl rfl (modifyEntry_len _ _ _) hent
        have hfr2 := @invariants_frame
          (modifyEntry TM3v ((ot : Nat) : Int)
            (fun he2 => { he2 with prev_in_task := ((HD : Nat) : Int) }))
          { modifyEntry TM3v ((ot : Nat) : Int)
              (fun he2 => { he2 with prev_in_task := ((HD : Nat) : Int) }) with
            task_entry_head :=
              (modifyEntry TM3v ((ot : Nat) : Int)
                (fun he2 => { he2 with prev_in_task := ((HD : Nat) : Int) })).task_entry_head.set
                SL ((HD : Nat) : Int) }
          rfl rfl rfl rfl rfl (fun _ => ⟨rfl, rfl⟩)
        refine ⟨(hfr2 0).1 ((hfr1 0).1 htrip3.1), ?_⟩
        intro m ho hi hm
        obtain ⟨o3, i3⟩ := htrip3.2 m ho hi hm
        exact ⟨(hfr2 0).2.1 ((hfr1 0).2.1 o3), (hfr2 pid).2.2 ((hfr1 pid).2.2 i3)⟩
      · rw [if_neg hOT]
        have hfr2 := @invariants_frame TM3v
          { TM3v with task_entry_head := TM3v.task_entry_head.set SL ((HD : Nat) : Int) }
          rfl rfl rfl rfl rfl (fun _ => ⟨rfl, rfl⟩)
        refine ⟨(hfr2 0).1 htrip3.1, ?_⟩
        intro m ho hi hm
        obtain ⟨o3, i3⟩ := htrip3.2 m ho hi hm
        exact ⟨(hfr2 0).2.1 o3, (hfr2 pid).2.2 i3⟩
    | cons hd ltail =>
      obtain ⟨hc1, hc2, hc3, hc4, hc5, hc6⟩ := hch
      have hOHv : OH = ((hd : Nat) : Int) := hc1
      rw [hOHv, if_pos (show ((hd : Nat) : Int) ≥ 0 by omega)] at hsome
      set EN := ({ tensor := t, producer_task_id := pid, with_alloc := wa, in_bucket := true, next_in_bucket := ((hd : Nat) : Int), prev_in_bucket := -1, next_in_task := OT, prev_in_task := -1 } : PTO2TensorMapEntry) with hEN
      set TM1v := ({ { tm with pool_head := (tm.pool_head + 1) % tm.pool_size } with
        entry_pool := tm.entry_pool.set HD EN } : PTO2TensorMap) with hTM1
      set TM2v := modifyEntry TM1v ((hd : Nat) : Int)
        (fun he2 => { he2 with prev_in_bucket := ((HD : Nat) : Int) }) with hTM2
      set TM3v := ({ TM2v with buckets := TM2v.buckets.set B ((HD : Nat) : Int) }
        : PTO2TensorMap) with hTM3
      rw [hsome] at hins
      have heq := Option.some.inj hins
      rw [← heq]
      have hhdHD : hd ≠ HD := by
        intro he
        rw [he, hHDib] at hc3
        exact Bool.noConfusion hc3
      have hpoolHD : TM3v.entry_pool.getD HD default = EN :=
        (modifyEntry_getD_ne TM1v hd HD
            (fun he2 => { he2 with prev_in_bucket := ((HD : Nat) : Int) })
            (fun he => hhdHD he)).trans
          (getD_set_eq2 tm.entry_pool HD EN default (by omega))
      have hpoolhd : TM3v.entry_pool.getD hd default
          = { tm.entry_pool.getD hd default with
              prev_in_bucket := ((HD : Nat) : Int) } := by
        have hlen : hd < TM1v.entry_pool.length := by
          show hd < (tm.entry_pool.set HD EN).length
          rw [List.length_set]
          omega
        exact (modifyEntry_getD_eq TM1v hd
            (fun he2 => { he2 with prev_in_bucket := ((HD : Nat) : Int) }) hlen).trans
          (congrArg (fun e => { e with prev_in_bucket := ((HD : Nat) : Int) })
            (getD_set_ne2 tm.entry_pool HD hd EN default (fun he => hhdHD he.symm)))
      have hpoolother : ∀ j : Nat, j ≠ HD → j ≠ hd →
          TM3v.entry_pool.getD j default = tm.entry_pool.getD j default :=
        fun j hjH hjh =>
          (modifyEntry_getD_ne TM1v hd j
              (fun he2 => { he2 with prev_in_bucket := ((HD : Nat) : Int) })
              (fun he => hjh he.symm)).trans
            (getD_set_ne2 tm.entry_pool HD j EN default (fun he => hjH he.symm))
      have hpres : ∀ j : Nat, j ≠ HD →
          (TM3v.entry_pool.getD j default).tensor = (tm.entry_pool.getD j default).tensor ∧
          (TM3v.entry_pool.getD j default).in_bucket
            = (tm.entry_pool.getD j default).in_bucket ∧
          (TM3v.entry_pool.getD j default).producer_task_id
            = (tm.entry_pool.getD j default).producer_task_id := by
        intro j hjH
        by_cases hjh : j = hd
        · subst hjh
          rw [hpoolhd]
          exact ⟨rfl, rfl, rfl⟩
        · rw [hpoolother j hjH hjh]
          exact ⟨rfl, rfl, rfl⟩
      have hbB : TM3v.buckets.getD B (-1) = ((HD : Nat) : Int) := by
        have hlen : B < TM2v.buckets.length := by
          show B < tm.buckets.length
          omega
        exact getD_set_eq2 TM2v.buckets B ((HD : Nat) : Int) (-1) hlen
      have hbother : ∀ b2 : Nat, b2 ≠ B →
          TM3v.buckets.getD b2 (-1) = tm.buckets.getD b2 (-1) :=
        fun b2 hb2 => getD_set_ne2 TM2v.buckets B b2 ((HD : Nat) : Int) (-1)
          (fun he => hb2 he.symm)
      have hsegtm : isChainSeg tm B ((hd : Nat) : Int)
          (tm.entry_pool.getD hd default).next_in_bucket ltail (-1) :=
        (isChain_iff_seg tm B ltail _ _).mp hc6
      have hne_tail : ∀ j ∈ ltail, j ≠ HD := by
        intro j hj he
        have h1 := (seg_mem tm B ltail _ _ _ hsegtm j hj).2.1
        rw [he, hHDib] at h1
        exact Bool.noConfusion h1
      have hnd_tail : hd ∉ ltail := (List.nodup_cons.mp hnd).1
      have hsegnew : isChainSeg TM3v B ((HD : Nat) : Int)
          ((hd : Nat) : Int) (hd :: ltail) (-1) := by
        refine @seg_set_head_prev tm TM3v rfl rfl B (hd :: ltail) (-1)
          ((HD : Nat) : Int) ((hd : Nat) : Int) (-1)
          ⟨rfl, hc2, hc3, hc4, hc5, hsegtm⟩ ?_ ?_ ?_
        · intro x hx
          have hxe : hd = x := Option.some.inj hx
          subst hxe
          rw [hpoolhd]
          exact ⟨rfl, rfl, rfl, rfl⟩
        · intro j hj
          rw [hpoolother j (hne_tail j hj) (fun he => hnd_tail (he ▸ hj))]
        · intro h
          exact absurd h (List.cons_ne_nil _ _)
      have hchainB : isChain TM3v B (-1) (TM3v.buckets.getD B (-1)) (HD :: hd :: ltail) := by
        rw [isChain_iff_seg, hbB]
        refine ⟨rfl, ?_, ?_, ?_, ?_, ?_⟩
        · show HD < tm.pool_size
          omega
        · rw [hpoolHD]
        · rw [hpoolHD]
        · exact (congrArg (fun e => pto2_tensormap_hash TM3v.num_buckets e.tensor)
            hpoolHD).trans rfl
        · rw [hpoolHD]
          exact hsegnew
      have hotherseg : ∀ b2, b2 < tm.num_buckets → b2 ≠ B →
          ∀ l', isChain tm b2 (-1) (tm.buckets.getD b2 (-1)) l' →
            isChain TM3v b2 (-1) (TM3v.buckets.getD b2 (-1)) l' ∧ ∀ j ∈ l', j ≠ HD := by
        intro b2 _ hbb l' hch'
        have hsegtm' : isChainSeg tm b2 (-1) (tm.buckets.getD b2 (-1)) l' (-1) :=
          (isChain_iff_seg tm b2 l' _ _).mp hch'
        have hneH : ∀ j ∈ l', j ≠ HD := by
          intro j hj he
          have h1 := (seg_mem tm b2 l' _ _ _ hsegtm' j hj).2.1
          rw [he, hHDib] at h1
          exact Bool.noConfusion h1
        have hneh : ∀ j ∈ l', j ≠ hd := by
          intro j hj he
          have h1 := (seg_mem tm b2 l' _ _ _ hsegtm' j hj).2.2
          rw [he, hc5] at h1
          exact hbb h1.symm
        refine ⟨?_, hneH⟩
        rw [isChain_iff_seg, hbother b2 hbb]
        exact @seg_frame tm TM3v rfl rfl b2 l' _ _ _
          (fun j hj => by rw [hpoolother j (hneH j hj) (hneh j hj)]) hsegtm'
      have hHDmem : HD ∉ hd :: ltail := by
        intro hmem2
        rcases List.mem_cons.mp hmem2 with he | hj
        · exact hhdHD he.symm
        · exact hne_tail HD hj rfl
      have htrip3 : MapWF TM3v ∧
          (∀ m : Int, ChainsOrdered tm → IdsBounded tm m → m ≤ pid →
            ChainsOrdered TM3v ∧ IdsBounded TM3v pid) := by
        constructor
        · refine ⟨?_, ?_, w3, ?_, ⟨k, hk, hnb⟩, ?_⟩
          · show (TM2v.buckets.set B ((HD : Nat) : Int)).length = tm.num_buckets
            rw [List.length_set]
            exact w1
          · show TM3v.entry_pool.length = tm.pool_size
            rw [show TM3v.entry_pool = TM2v.entry_pool from rfl, hTM2, modifyEntry_len]
            show (tm.entry_pool.set HD EN).length = tm.pool_size
            rw [List.length_set]
            exact w2
          · show (tm.pool_head + 1) % tm.pool_size < tm.pool_size
            exact Nat.mod_lt _ w3
          · intro b2 hb2
            by_cases hbb : b2 = B
            · subst hbb
              refine ⟨HD :: hd :: ltail, hchainB, ?_, ?_⟩
              · exact List.nodup_cons.mpr ⟨hHDmem, hnd⟩
              · intro j hj hjib hjh
                by_cases hjHD : j = HD
                · rw [hjHD]
                  exact List.mem_cons_self _ _
                · obtain ⟨ht2, hb2', _⟩ := hpres j hjHD
                  rw [ht2] at hjh
                  rw [hb2'] at hjib
                  exact List.mem_cons_of_mem _ (hcomp j hj hjib hjh)
            · obtain ⟨l', hch', hnd', hcomp'⟩ := w6 b2 hb2
              refine ⟨l', (hotherseg b2 hb2 hbb l' hch').1, hnd', ?_⟩
              intro j hj hjib hjh
              by_cases hjHD : j = HD
              · exfalso
                rw [hjHD, hpoolHD] at hjh
                exact hbb (hjh.symm.trans rfl)
              · obtain ⟨ht2, hb2', _⟩ := hpres j hjHD
                rw [ht2] at hjh
                rw [hb2'] at hjib
                exact hcomp' j hj hjib hjh
        · intro m ho hi hm
          haveI : IsTrans Int (fun x y => y ≤ x) := ⟨fun _ _ _ h1 h2 => le_trans h2 h1⟩
          constructor
          · intro b2 hb2 l' hl'
            by_cases hbb : b2 = B
            · subst hbb
              have hueq : l' = HD :: hd :: ltail :=
                chain_unique TM3v B l' (HD :: hd :: ltail) _ _ _
                  ((isChain_iff_seg TM3v B l' _ _).mp hl')
                  ((isChain_iff_seg TM3v B _ _ _).mp hchainB)
              rw [hueq, List.map_cons]
              have hmapc : ((hd :: ltail).map
                    fun i => (TM3v.entry_pool.getD i default).producer_task_id)
                  = (hd :: ltail).map
                    fun i => (tm.entry_pool.getD i default).producer_task_id :=
                List.map_congr_left fun j hj => (hpres j (fun he => hHDmem (he ▸ hj))).2.2
              rw [hmapc]
              refine List.chain'_cons.mpr ⟨?_, ho B hblt (hd :: ltail) ⟨hc1, hc2, hc3, hc4, hc5, hc6⟩⟩
              rw [hpoolHD]
              show (tm.entry_pool.getD hd default).producer_task_id ≤ pid
              exact le_trans (hi hd hc2 hc3) hm
            · obtain ⟨l'', hch'', _, _⟩ := w6 b2 hb2
              obtain ⟨hch2, hne⟩ := hotherseg b2 hb2 hbb l'' hch''
              have hueq : l' = l'' :=
                chain_unique TM3v b2 l' l'' _ _ _
                  ((isChain_iff_seg TM3v b2 l' _ _).mp hl')
                  ((isChain_iff_seg TM3v b2 l'' _ _).mp hch2)
              have hmapc : (l''.map fun i => (TM3v.entry_pool.getD i default).producer_task_id)
                  = l''.map fun i => (tm.entry_pool.getD i default).producer_task_id :=
                List.map_congr_left fun j hj => (hpres j (hne j hj)).2.2
              rw [hueq, hmapc]
              exact ho b2 hb2 l'' hch''
          · intro j hj hjib
            by_cases hjHD : j = HD
            · subst hjHD
              rw [hpoolHD]
            · obtain ⟨_, hb2', hid⟩ := hpres j hjHD
              rw [hid]
              rw [hb2'] at hjib
              exact le_trans (hi j hj hjib) hm
      by_cases hOT : OT ≥ 0
      · obtain ⟨ot, hot⟩ : ∃ ot : Nat, OT = (ot : Int) :=
          ⟨OT.toNat, (Int.toNat_of_nonneg hOT).symm⟩
        rw [hot] at hOT ⊢
        rw [if_pos hOT]
        have hent : ∀ j : Nat,
            bucketFields ((modifyEntry TM3v ((ot : Nat) : Int)
                (fun he2 => { he2 with prev_in_task := ((HD : Nat) : Int) })).entry_pool.getD
                  j default)
              = bucketFields (TM3v.entry_pool.getD j default) ∧
            ((modifyEntry TM3v ((ot : Nat) : Int)
                (fun he2 => { he2 with prev_in_task := ((HD : Nat) : Int) })).entry_pool.getD
                  j default).producer_task_id
              = (TM3v.entry_pool.getD j default).producer_task_id := by
          intro j
          by_cases hj : j = ot
          · subst hj
            rw [modifyEntry_pool, getD_set_self_any]
            by_cases hl : j < TM3v.entry_pool.length
            · rw [if_pos hl]
              exact ⟨rfl, rfl⟩
            · rw [if_neg hl, List.getD_eq_default _ _ (le_of_not_lt hl)]
              exact ⟨rfl, rfl⟩
          · rw [modifyEntry_getD_ne _ _ _ _ (fun he => hj he.symm)]
            exact ⟨rfl, rfl⟩
        have hfr1 := @invariants_frame TM3v
          (modifyEntry TM3v ((ot : Nat) : Int)
            (fun he2 => { he2 with prev_in_task := ((HD : Nat) : Int) }))
          rfl rfl rfl rfl (modifyEntry_len _ _ _) hent
        have hfr2 := @invariants_frame
          (modifyEntry TM3v ((ot : Nat) : Int)
            (fun he2 => { he2 with prev_in_task := ((HD : Nat) : Int) }))
          { modifyEntry TM3v ((ot : Nat) : Int)
              (fun he2 => { he2 with prev_in_task := ((HD : Nat) : Int) }) with
            task_entry_head :=
              (modifyEntry TM3v ((ot : Nat) : Int)
                (fun he2 => { he2 with prev_in_task := ((HD : Nat) : Int) })).task_entry_head.set
                SL ((HD : Nat) : Int) }
          rfl rfl rfl rfl rfl (fun _ => ⟨rfl, rfl⟩)
        refine ⟨(hfr2 0).1 ((hfr1 0).1 htrip3.1), ?_⟩
        intro m ho hi hm
        obtain ⟨o3, i3⟩ := htrip3.2 m ho hi hm
        exact ⟨(hfr2 0).2.1 ((hfr1 0).2.1 o3), (hfr2 pid).2.2 ((hfr1 pid).2.2 i3)⟩
      · rw [if_neg hOT]
        have hfr2 := @invariants_frame TM3v
          { TM3v with task_entry_head := TM3v.task_entry_head.set SL ((HD : Nat) : Int) }
          rfl rfl rfl rfl rfl (fun _ => ⟨rfl, rfl⟩)
        refine ⟨(hfr2 0).1 htrip3.1, ?_⟩
        intro m ho hi hm
        obtain ⟨o3, i3⟩ := htrip3.2 m ho hi hm
        exact ⟨(hfr2 0).2.1 o3, (hfr2 pid).2.2 i3⟩

theorem applyOps_preserves :
    ∀ (ops : List TMOp) (tm tmf : PTO2TensorMap) (m : Int),
      MapWF tm → ChainsOrdered tm → IdsBounded tm m → insertsMono m ops →
      applyOps tm ops = some tmf →
      MapWF tmf ∧ ChainsOrdered tmf ∧ ∃ m2 : Int, IdsBounded tmf m2 := by
  intro ops
  induction ops with
  | nil =>
    intro tm tmf m hwf ho hi _ happ
    have heq : tm = tmf := Option.some.inj happ
    subst heq
    exact ⟨hwf, ho, m, hi⟩
  | cons op rest IH =>
    intro tm tmf m hwf ho hi hmono happ
    cases op with
    | insertOp t2 id2 wa2 =>
      obtain ⟨hm1, hm2⟩ := hmono
      cases hop : pto2_tensormap_insert tm t2 id2 wa2 with
      | none =>
        exfalso
        have hnone : applyOps tm (TMOp.insertOp t2 id2 wa2 :: rest) = none := by
          show (match pto2_tensormap_insert tm t2 id2 wa2 with
            | none => none
            | some tm2 => applyOps tm2 rest) = none
          rw [hop]
        rw [hnone] at happ
        exact Option.noConfusion happ
      | some tm2 =>
        have happ2 : applyOps tm2 rest = some tmf := by
          have h2 : applyOps tm (TMOp.insertOp t2 id2 wa2 :: rest) = applyOps tm2 rest := by
            show (match pto2_tensormap_insert tm t2 id2 wa2 with
              | none => none
              | some tm3 => applyOps tm3 rest) = applyOps tm2 rest
            rw [hop]
          rw [← h2]
          exact happ
        obtain ⟨hwf2, hco⟩ := insert_preserves tm tm2 t2 id2 wa2 hwf hop
        obtain ⟨ho2, hi2⟩ := hco m ho hi hm1
        exact IH tm2 tmf id2 hwf2 ho2 hi2 hm2 happ2
    | lookupOp t2 =>
      have happ2 : applyOps (pto2_tensormap_lookup tm t2).2 rest = some tmf := happ
      have hm2 : insertsMono m rest := hmono
      obtain ⟨hwf2, ho2, hi2⟩ := lookup_preserves tm t2 hwf
      exact IH (pto2_tensormap_lookup tm t2).2 tmf m hwf2 (ho2 ho) (hi2 m hi) hm2 happ2
    | cleanupOp oldT newT =>
      have happ2 : applyOps (pto2_tensormap_cleanup_retired tm oldT newT) rest
          = some tmf := happ
      have hm2 : insertsMono m rest := hmono
      obtain ⟨hwf2, ho2, hi2⟩ := cleanup_preserves tm oldT newT hwf
      exact IH (pto2_tensormap_cleanup_retired tm oldT newT) tmf m hwf2 (ho2 ho)
        (hi2 m hi) hm2 happ2
    | syncOp v =>
      have happ2 : applyOps (pto2_tensormap_sync_validity tm v) rest = some tmf := happ
      have hm2 : insertsMono m rest := hmono
      obtain ⟨hwf2, ho2, hi2⟩ := sync_preserves tm v m
      exact IH (pto2_tensormap_sync_validity tm v) tmf m (hwf2 hwf) (ho2 ho) (hi2 hi)
        hm2 happ2

/-- C6 (amended): from any successfully initialized TensorMap (power-of-two
bucket count, non-empty entry pool), after any sequence of insert / lookup /
cleanup_retired / sync_validity operations whose insert `producer_task_id`
arguments are non-decreasing, every bucket chain's `producer_task_id`s are
non-increasing from head to tail.  (The spec's strict decrease fails when two
inserts carry equal ids — see the counterexample.) -/
theorem c6_bucket_ids_nonincreasing (nb ps ws : Nat) (m : Int) (ops : List TMOp)
    (tm0 tmf : PTO2TensorMap)
    (hpow : ∃ k2 ≤ 32, nb = 2 ^ k2) (hps : 0 < ps)
    (hinit : pto2_tensormap_init nb ps ws = some tm0)
    (hmono : insertsMono m ops)
    (happ : applyOps tm0 ops = some tmf) :
    ∀ b < tmf.num_buckets, List.Chain' (fun x y => y ≤ x) (bucketIds tmf b) := by
  obtain ⟨hwf0, ho0, hi0⟩ := init_wf nb ps ws tm0 hpow hps hinit
  obtain ⟨hwf, ho, _⟩ := applyOps_preserves ops tm0 tmf m hwf0 ho0 (hi0 m) hmono happ
  intro b hb
  obtain ⟨w1, w2, w3, w4, w5, w6⟩ := hwf
  obtain ⟨l, hch, hnd, _⟩ := w6 b hb
  have hseg : isChainSeg tmf b (-1) (tmf.buckets.getD b (-1)) l (-1) :=
    (isChain_iff_seg tmf b l _ _).mp hch
  have hlen : l.length ≤ tmf.pool_size :=
    nodup_bounded_length hnd (fun j hj => (seg_mem tmf b l _ _ _ hseg j hj).1)
  have hbc : bucketChain tmf b = l :=
    chainFrom_of_seg tmf b l tmf.pool_size (-1) _ hseg hlen
  show List.Chain' (fun x y => y ≤ x)
    ((bucketChain tmf b).map fun i => (tmf.entry_pool.getD i default).producer_task_id)
  rw [hbc]
  exact ho b hb l hch

/-- C6 witness: the amended non-increasing-chain property holds concretely
after the two same-id inserts of `c6ops` on the initialized 4-bucket map. -/
theorem c6_wf_witness :
    List.Chain' (fun x y : Int => y ≤ x) (bucketIds tmC6 0) :=
  c6_bucket_ids_nonincreasing 4 4 4 0 c6ops tmInit4 tmC6
    ⟨2, by omega, rfl⟩ (by omega) rfl ⟨le_refl 0, le_refl 0, trivial⟩ rfl 0 (by decide)

/-- C7: if the map is well-formed and the looked-up bucket's chain has
non-increasing `producer_task_id`s head to tail, then after
`pto2_tensormap_lookup` every entry still reachable from that bucket's head
is valid (`producer_task_id ≥ last_task_alive`), and every entry removed by
the truncation has `in_bucket = false` and both bucket links reset to `-1`. -/
theorem c7_lookup_truncation (tm : PTO2TensorMap) (t : Tensor) (hwf : MapWF tm)
    (hord : List.Chain' (fun x y => y ≤ x)
      (bucketIds tm (pto2_tensormap_hash tm.num_buckets t))) :
    (∀ j ∈ bucketChain (pto2_tensormap_lookup tm t).2
        (pto2_tensormap_hash tm.num_buckets t),
      pto2_tensormap_entry_valid (pto2_tensormap_lookup tm t).2
        ((pto2_tensormap_lookup tm t).2.entry_pool.getD j default) = true) ∧
    (∀ j ∈ bucketChain tm (pto2_tensormap_hash tm.num_buckets t),
      j ∉ bucketChain (pto2_tensormap_lookup tm t).2
          (pto2_tensormap_hash tm.num_buckets t) →
      ((pto2_tensormap_lookup tm t).2.entry_pool.getD j default).in_bucket = false ∧
      ((pto2_tensormap_lookup tm t).2.entry_pool.getD j default).next_in_bucket = -1 ∧
      ((pto2_tensormap_lookup tm t).2.entry_pool.getD j default).prev_in_bucket = -1) := by
  obtain ⟨w1, w2, w3, w4, w5, w6⟩ := hwf
  obtain ⟨k, hk, hnb⟩ := w5
  have hnbpos : 0 < tm.num_buckets := by
    rw [hnb]
    exact pow_pos (by norm_num) k
  set b := pto2_tensormap_hash tm.num_buckets t with hbdef
  have hblt : b < tm.num_buckets := hash_lt _ _ hnbpos
  obtain ⟨l, hch, hnd, hcomp⟩ := w6 b hblt
  have hseg : isChainSeg tm b (-1) (tm.buckets.getD b (-1)) l (-1) :=
    (isChain_iff_seg tm b l _ _).mp hch
  have hlen : l.length ≤ tm.pool_size :=
    nodup_bounded_length hnd (fun j hj => (seg_mem tm b l _ _ _ hseg j hj).1)
  have hwp : WalkPost tm (lookupWalk t b tm.pool_size tm none (tm.buckets.getD b (-1)) []).2
      b [] l :=
    lookupWalk_spec t b tm.pool_size tm none (tm.buckets.getD b (-1)) [] [] l
      w2 (by omega) rfl hseg (Or.inl ⟨rfl, rfl⟩) hnd hlen
      (fun j hj => absurd hj (List.not_mem_nil j))
  have hlk : (pto2_tensormap_lookup tm t).2
      = (lookupWalk t b tm.pool_size tm none (tm.buckets.getD b (-1)) []).2 := rfl
  rw [hlk]
  set r := (lookupWalk t b tm.pool_size tm none (tm.buckets.getD b (-1)) []).2 with hrdef
  obtain ⟨l2a, l2b, heq, c1, c2, c3, c4, c5, c6, c7, c8, c9, c10, c11, c12, c13, c14⟩ := hwp
  simp only [List.nil_append] at c10 c13 c14
  have hbc_old : bucketChain tm b = l :=
    chainFrom_of_seg tm b l tm.pool_size (-1) _ hseg hlen
  have hndl2a : l2a.Nodup := (List.nodup_append.mp (heq ▸ hnd)).1
  have hlen2 : l2a.length ≤ r.pool_size :=
    nodup_bounded_length hndl2a (fun j hj => (seg_mem r b l2a _ _ _ c13 j hj).1)
  have hbc_new : bucketChain r b = l2a :=
    chainFrom_of_seg r b l2a r.pool_size (-1) _ c13 hlen2
  constructor
  · intro j hj
    rw [hbc_new] at hj
    exact c14 j hj
  · intro j hjold hjnew
    rw [hbc_old, heq] at hjold
    rw [hbc_new] at hjnew
    rcases List.mem_append.mp hjold with h1 | h2
    · exact absurd h1 hjnew
    · exact c12 j h2

/-- C7 witness: after inserting ids `0` then `1` into one bucket and syncing
`last_task_alive` to `1`, looking up the same buffer truncates the stale
tail entry and every surviving entry is valid. -/
theorem c7_witness :
    (∀ j ∈ bucketChain (pto2_tensormap_lookup tmC7 s3Read).2
        (pto2_tensormap_hash tmC7.num_buckets s3Read),
      pto2_tensormap_entry_valid (pto2_tensormap_lookup tmC7 s3Read).2
        ((pto2_tensormap_lookup tmC7 s3Read).2.entry_pool.getD j default) = true) ∧
    (∀ j ∈ bucketChain tmC7 (pto2_tensormap_hash tmC7.num_buckets s3Read),
      j ∉ bucketChain (pto2_tensormap_lookup tmC7 s3Read).2
          (pto2_tensormap_hash tmC7.num_buckets s3Read) →
      ((pto2_tensormap_lookup tmC7 s3Read).2.entry_pool.getD j default).in_bucket = false ∧
      ((pto2_tensormap_lookup tmC7 s3Read).2.entry_pool.getD j default).next_in_bucket
        = -1 ∧
      ((pto2_tensormap_lookup tmC7 s3Read).2.entry_pool.getD j default).prev_in_bucket
        = -1) :=
  c7_lookup_truncation tmC7 s3Read
    (by
      obtain ⟨hwf, _, _⟩ := applyOps_preserves
        [TMOp.insertOp s3Write 0 false, TMOp.insertOp s3Read 1 true, TMOp.syncOp 1]
        tmInit4 tmC7 0
        (init_wf 4 4 4 tmInit4 ⟨2, by omega, rfl⟩ (by omega) rfl).1
        (init_wf 4 4 4 tmInit4 ⟨2, by omega, rfl⟩ (by omega) rfl).2.1
        ((init_wf 4 4 4 tmInit4 ⟨2, by omega, rfl⟩ (by omega) rfl).2.2 0)
        ⟨le_refl 0, by omega, trivial⟩ rfl
      exact hwf)
    (by
      have hbi : bucketIds tmC7 (pto2_tensormap_hash tmC7.num_buckets s3Read) = [1, 0] := by
        decide
      rw [hbi]
      exact List.chain'_pair.mpr (by omega))
